import Mathlib

/-!
Job partitioning and reflection routing (`algorithms/integration/interface.h`).

A shallow embedding of the classes `GroupList`, `JobList`, `ReflectionLookup`
(with its private helper `JobRangeLookup`) and `ReflectionManager`, followed by
the properties proved about them.

Conventions of the embedding.

* A C++ `int` is an `Int` in the 32-bit range.  The `int` operations whose exact
  result can leave that range on arguments of type `int` are reduced to it by
  `to_int`, the two's-complement result: the subtraction `frame1 - frame0` and
  the marks `frame0 + (i + 1) * half_block_size` of `add_jobs`, and the sums
  `z1 + z0` and `jz1 + jz0` of the scan over candidate jobs.  The other `int`
  operations (`f + 1` below `frame1`, `z1 - 1` above `z0`, the loop counters)
  stay in range.  A `std::size_t` is a `Nat`.  Where the source converts an
  `int` to `std::size_t` before comparing or indexing (in
  `JobRangeLookup::first` and `last`) the conversion is kept, as reduction
  modulo `2 ^ 64`.
* `DIALS_ASSERT` throws.  A function that can throw returns an `Option`, `none`
  standing for the thrown error; `ReflectionManager::accumulate`, whose object
  is used again after a failure, returns the state it leaves behind as well.
* `tiny<int,2>` is a pair, `[0]` is `.1` and `[1]` is `.2`.
-/

namespace dials

/-! ## Definitions -/

/-- Conversion of an `int` to `std::size_t` (64 bit). -/
def to_size_t (x : Int) : Nat := (x % 18446744073709551616).toNat

/-- The 32-bit two's-complement value of an `int` operation whose exact result is `x`:
the representative of `x` modulo `2 ^ 32` in `[-2 ^ 31, 2 ^ 31)`. -/
def to_int (x : Int) : Int := (x + 2147483648) % 4294967296 - 2147483648

/-- Value of `(int)std::ceil((double)a / (double)b)` for `a ≥ 0`, `b > 0`.  Both
operands are at most `2 ^ 32`, so they are exact doubles.  When `b` divides `a`
the quotient is an integer and exact; otherwise the exact quotient is at least
`1 / b` above the integer below it, while the rounding error of the division
is below `a / b * 2 ^ -53 < 1 / b`, so the rounded quotient stays above that
integer and `std::ceil` returns the exact ceiling. -/
def ceil_div (a b : Int) : Int := (a + b - 1) / b

/-- Class `GroupList::Group`: the three ranges of a group. -/
structure GroupList.Group where
  index_ : Int × Int
  expr_ : Int × Int
  frames_ : Int × Int
deriving DecidableEq, Repr

/-- Constructor of `GroupList::Group` with its three assertions. -/
def GroupList.Group.make (index expr frames : Int × Int) : Option GroupList.Group :=
  if index.1 ≥ 0 ∧ index.2 > index.1 then
    if expr.1 ≥ 0 ∧ expr.2 > expr.1 then
      if frames.2 > frames.1 then some ⟨index, expr, frames⟩ else none
    else none
  else none

/-- Class `GroupList`. -/
structure GroupList where
  groups_ : List GroupList.Group
deriving DecidableEq, Repr

/-- The method `GroupList::size`. -/
def GroupList.size (self : GroupList) : Nat := self.groups_.length

/-- The method `GroupList::add`.  With a group already present both the experiment
range and the job index range are compared with `expr()[1]` of the last group,
as in the source. -/
def GroupList.add (self : GroupList) (index expr range : Int × Int) : Option GroupList :=
  if ¬ (expr.1 ≥ 0) then none
  else if ¬ (expr.2 > expr.1) then none
  else if ¬ (range.2 > range.1) then none
  else if ¬ (index.2 > index.1) then none
  else
    match self.groups_.getLast? with
    | some g =>
      if ¬ (expr.1 = g.expr_.2) then none
      else if ¬ (index.1 = g.expr_.2) then none
      else (GroupList.Group.make index expr range).map (fun n => ⟨self.groups_ ++ [n]⟩)
    | none =>
      if ¬ (expr.1 = 0) then none
      else (GroupList.Group.make index expr range).map (fun n => ⟨self.groups_ ++ [n]⟩)

/-- Class `JobList::Job`: group index, experiment range and frame window. -/
structure JobList.Job where
  index_ : Nat
  expr_ : Int × Int
  frames_ : Int × Int
deriving DecidableEq, Repr

/-- Constructor of `JobList::Job` with its two assertions. -/
def JobList.Job.make (index : Nat) (expr frames : Int × Int) : Option JobList.Job :=
  if expr.1 ≥ 0 ∧ expr.2 > expr.1 then
    if frames.2 > frames.1 then some ⟨index, expr, frames⟩ else none
  else none

/-- Class `JobList`. -/
structure JobList where
  jobs_ : List JobList.Job
  groups_ : GroupList
deriving DecidableEq, Repr

/-- The default constructor `JobList()`. -/
def JobList.empty : JobList := ⟨[], ⟨[]⟩⟩

/-- The method `JobList::size`. -/
def JobList.size (self : JobList) : Nat := self.jobs_.length

/-- The loop `for (int f = frame0; f < frame1; ++f)` of `add_jobs`; `count` is the
number of iterations left, `frame1 - f`. -/
def JobList.unit_loop (index : Nat) (expr : Int × Int) :
    Nat → Int → List JobList.Job → Option (List JobList.Job)
  | 0, _, jobs => some jobs
  | count + 1, f, jobs =>
    match JobList.Job.make index expr (f, f + 1) with
    | none => none
    | some j => JobList.unit_loop index expr count (f + 1) (jobs ++ [j])

/-- The loop `for (int i = 0; i < nblocks; ++i)` of `add_jobs` that fills the
boundary marks; `count` is `nblocks - i`, and the `break` ends the recursion.
The product and the sum of `frame0 + (i + 1) * half_block_size` are `int`
operations. -/
def JobList.mark_loop (frame0 frame1 half_block_size : Int) :
    Nat → Int → List Int → List Int
  | 0, _, indices => indices
  | count + 1, i, indices =>
    let frame := to_int (frame0 + to_int ((i + 1) * half_block_size))
    let frame := if frame > frame1 then frame1 else frame
    let indices := indices ++ [frame]
    if frame = frame1 then indices
    else JobList.mark_loop frame0 frame1 half_block_size count (i + 1) indices

/-- The loop `for (std::size_t i = 0; i < indices.size() - 2; ++i)` of `add_jobs`;
`count` is the number of iterations left. -/
def JobList.window_loop (index : Nat) (expr : Int × Int) (indices : List Int) :
    Nat → Nat → List JobList.Job → Option (List JobList.Job)
  | 0, _, jobs => some jobs
  | count + 1, i, jobs =>
    let i1 := indices.getD i 0
    let i2 := indices.getD (i + 2) 0
    if i2 > i1 then
      match JobList.Job.make index expr (i1, i2) with
      | none => none
      | some j => JobList.window_loop index expr indices count (i + 1) (jobs ++ [j])
    else none

/-- The private method `JobList::add_jobs`; the result is the new `jobs_`.  The frame
count `frame1 - frame0` is an `int` operation. -/
def JobList.add_jobs (self : JobList) (index : Nat) (expr range : Int × Int)
    (block_size : Int) : Option (List JobList.Job) :=
  let frame0 := range.1
  let frame1 := range.2
  if ¬ (frame1 > frame0) then none
  else
    let nframes := to_int (frame1 - frame0)
    if ¬ (nframes > 0) then none
    else
      let block_size := if block_size > nframes then nframes else block_size
      if ¬ (block_size > 0) then none
      else if block_size = 1 then
        JobList.unit_loop index expr nframes.toNat frame0 self.jobs_
      else
        let nblocks := ceil_div (2 * nframes) block_size
        if ¬ (nblocks > 0 ∧ nblocks ≤ nframes) then none
        else
          let half_block_size := ceil_div nframes nblocks
          let indices := JobList.mark_loop frame0 frame1 half_block_size nblocks.toNat 0 [frame0]
          if ¬ (indices.head? = some frame0) then none
          else if ¬ (indices.getLast? = some frame1) then none
          else if ¬ (indices.length > 2) then none
          else
            match JobList.window_loop index expr indices (indices.length - 2) 0 self.jobs_ with
            | none => none
            | some jobs => if jobs.length > 0 then some jobs else none

/-- The method `JobList::add`: the jobs are appended first, then the group is
recorded with the job index range `[j0, j1)`. -/
def JobList.add (self : JobList) (expr range : Int × Int) (block_size : Int) :
    Option JobList :=
  let j0 := self.size
  match self.add_jobs self.groups_.size expr range block_size with
  | none => none
  | some jobs =>
    let j1 := jobs.length
    match self.groups_.add ((j0 : Int), (j1 : Int)) expr range with
    | none => none
    | some groups => some ⟨jobs, groups⟩

/-- The jobs a call of `add` appended: those of the result beyond the old size. -/
def JobList.appended (old new : JobList) : List JobList.Job := new.jobs_.drop old.size

/-- Frame `f` lies in the window of job `j`. -/
def JobList.Job.has_frame (j : JobList.Job) (f : Int) : Prop :=
  j.frames_.1 ≤ f ∧ f < j.frames_.2

instance (j : JobList.Job) (f : Int) : Decidable (j.has_frame f) := by
  unfold JobList.Job.has_frame; infer_instance

/-! ### `ReflectionLookup::JobRangeLookup` -/

/-- Class `ReflectionLookup::JobRangeLookup`: the two tables and their keys. -/
structure ReflectionLookup.JobRangeLookup where
  lookup0_ : List Nat
  lookup1_ : List Nat
  offset_ : List Nat
  group_ : List Nat
  frame0_ : List Int
deriving DecidableEq, Repr

/-- The loops `for (std::size_t j = expr()[0]; j < expr()[1]; ++j) group_.push_back(i)`
over all groups, from group number `i` on. -/
def ReflectionLookup.JobRangeLookup.group_fill : List GroupList.Group → Nat → List Nat
  | [], _ => []
  | g :: gs, i =>
    List.replicate (to_size_t g.expr_.2 - to_size_t g.expr_.1) i
      ++ ReflectionLookup.JobRangeLookup.group_fill gs (i + 1)

/-- The inner loop `for (; frame < b[1]; ++frame) lookup0_[off0+frame-frame0] = i`;
`count` is the number of iterations left.  The index is computed in
`std::size_t`; a write outside the vector (undefined in the source) is dropped. -/
def ReflectionLookup.JobRangeLookup.fill0 (off0 : Nat) (frame0 : Int) (i : Nat) :
    Nat → Int → List Nat → List Nat
  | 0, _, lookup0 => lookup0
  | count + 1, frame, lookup0 =>
    ReflectionLookup.JobRangeLookup.fill0 off0 frame0 i count (frame + 1)
      (lookup0.set (to_size_t ((off0 : Int) + frame - frame0)) i)

/-- The loop `for (std::size_t i = job0; i < job1; ++i)` with its inner loop; the
result is the final `frame` and the table. -/
def ReflectionLookup.JobRangeLookup.sweep0 (jobs : JobList) (off0 : Nat) (frame0 : Int) :
    Nat → Nat → Int → List Nat → Option (Int × List Nat)
  | 0, _, frame, lookup0 => some (frame, lookup0)
  | count + 1, i, frame, lookup0 =>
    match jobs.jobs_[i]? with
    | none => none
    | some job =>
      let b := job.frames_
      if ¬ (frame ≥ b.1) then none
      else
        let steps := (b.2 - frame).toNat
        ReflectionLookup.JobRangeLookup.sweep0 jobs off0 frame0 count (i + 1)
          (frame + (steps : Int))
          (ReflectionLookup.JobRangeLookup.fill0 off0 frame0 i steps frame lookup0)

/-- The inner loop `for (; frame > b[0]; --frame) lookup1_[off0+frame-frame0-1] = i-1`;
`job` is the value `i-1` written. -/
def ReflectionLookup.JobRangeLookup.fill1 (off0 : Nat) (frame0 : Int) (job : Nat) :
    Nat → Int → List Nat → List Nat
  | 0, _, lookup1 => lookup1
  | count + 1, frame, lookup1 =>
    ReflectionLookup.JobRangeLookup.fill1 off0 frame0 job count (frame - 1)
      (lookup1.set (to_size_t ((off0 : Int) + frame - frame0 - 1)) job)

/-- The loop `for (std::size_t i = job1; i > job0; --i)` with its inner loop. -/
def ReflectionLookup.JobRangeLookup.sweep1 (jobs : JobList) (off0 : Nat) (frame0 : Int) :
    Nat → Nat → Int → List Nat → Option (Int × List Nat)
  | 0, _, frame, lookup1 => some (frame, lookup1)
  | count + 1, i, frame, lookup1 =>
    match jobs.jobs_[i - 1]? with
    | none => none
    | some job =>
      let b := job.frames_
      if ¬ (frame ≤ b.2) then none
      else
        let steps := (frame - b.1).toNat
        ReflectionLookup.JobRangeLookup.sweep1 jobs off0 frame0 count (i - 1)
          (frame - (steps : Int))
          (ReflectionLookup.JobRangeLookup.fill1 off0 frame0 (i - 1) steps frame lookup1)

/-- The closing loop `for (std::size_t i = off0+1; i < off1; ++i)` with its two
assertions: both tables are non-decreasing on `[off0, off1)`. -/
def ReflectionLookup.JobRangeLookup.check_monotonic (lookup0 lookup1 : List Nat)
    (off0 off1 : Nat) : Bool :=
  (List.range (off1 - (off0 + 1))).all (fun k =>
    decide (lookup0.getD (off0 + 1 + k) 0 ≥ lookup0.getD (off0 + 1 + k - 1) 0)
    && decide (lookup1.getD (off0 + 1 + k) 0 ≥ lookup1.getD (off0 + 1 + k - 1) 0))

/-- The body of the loop over the groups in the constructor, for group `i`. -/
def ReflectionLookup.JobRangeLookup.group_step (jobs : JobList) (offset_ : List Nat)
    (i : Nat) (g : GroupList.Group) (lookup0 lookup1 : List Nat) :
    Option (List Nat × List Nat) :=
  let job0 := to_size_t g.index_.1
  let job1 := to_size_t g.index_.2
  if ¬ (job1 > job0 ∧ job1 ≤ jobs.size) then none
  else
    let off0 := offset_.getD i 0
    let off1 := offset_.getD (i + 1) 0
    if ¬ (off1 > off0 ∧ off1 ≤ lookup0.length) then none
    else
      let frame0 := g.frames_.1
      let frame1 := g.frames_.2
      if ¬ (frame1 > frame0) then none
      else if ¬ (to_size_t (frame1 - frame0) = off1 - off0) then none
      else
        match ReflectionLookup.JobRangeLookup.sweep0 jobs off0 frame0 (job1 - job0) job0
            frame0 lookup0 with
        | none => none
        | some (frame, lookup0) =>
          if ¬ (frame = frame1) then none
          else
            match ReflectionLookup.JobRangeLookup.sweep1 jobs off0 frame0 (job1 - job0) job1
                frame lookup1 with
            | none => none
            | some (frame, lookup1) =>
              if ¬ (frame = frame0) then none
              else if ReflectionLookup.JobRangeLookup.check_monotonic lookup0 lookup1 off0 off1
              then some (lookup0, lookup1)
              else none

/-- The loop over the groups in the constructor, from group number `i` on. -/
def ReflectionLookup.JobRangeLookup.groups_loop (jobs : JobList) (offset_ : List Nat) :
    List GroupList.Group → Nat → List Nat → List Nat → Option (List Nat × List Nat)
  | [], _, lookup0, lookup1 => some (lookup0, lookup1)
  | g :: gs, i, lookup0, lookup1 =>
    match ReflectionLookup.JobRangeLookup.group_step jobs offset_ i g lookup0 lookup1 with
    | none => none
    | some (lookup0, lookup1) =>
      ReflectionLookup.JobRangeLookup.groups_loop jobs offset_ gs (i + 1) lookup0 lookup1

/-- Constructor `JobRangeLookup(const JobList &jobs)`.  `offset_` receives the frame
count of each group (not a running sum), as in the source. -/
def ReflectionLookup.JobRangeLookup.make (jobs : JobList) :
    Option ReflectionLookup.JobRangeLookup :=
  let groups := jobs.groups_.groups_
  match groups.head?, groups.getLast? with
  | some g0, some gl =>
    if ¬ (0 = g0.expr_.1) then none
    else
      let group_ := ReflectionLookup.JobRangeLookup.group_fill groups 0
      if ¬ (group_.length = to_size_t gl.expr_.2) then none
      else if ¬ (groups.all (fun g => decide (g.frames_.2 > g.frames_.1))) then none
      else
        let frame0_ := groups.map (fun g => g.frames_.1)
        let offset_ := 0 :: groups.map (fun g => to_size_t (g.frames_.2 - g.frames_.1))
        let back := offset_.getLastD 0
        if ¬ (back > 0) then none
        else
          match ReflectionLookup.JobRangeLookup.groups_loop jobs offset_ groups 0
              (List.replicate back 0) (List.replicate back 0) with
          | none => none
          | some (lookup0, lookup1) => some ⟨lookup0, lookup1, offset_, group_, frame0_⟩
  | _, _ => none

/-- The method `JobRangeLookup::first`.  `frame0` is a `std::size_t` in the source, so
both comparisons with `frame` and the index are computed modulo `2 ^ 64`. -/
def ReflectionLookup.JobRangeLookup.first (self : ReflectionLookup.JobRangeLookup)
    (id : Nat) (frame : Int) : Option Nat :=
  if ¬ (id < self.group_.length) then none
  else
    let group := self.group_.getD id 0
    if ¬ (group < self.offset_.length - 1) then none
    else
      let offset := self.offset_.getD group 0
      let frame0 := to_size_t (self.frame0_.getD group 0)
      if ¬ (to_size_t frame ≥ frame0) then none
      else if ¬ (to_size_t frame
          < (frame0 + self.offset_.getD (group + 1) 0) % 18446744073709551616) then none
      else
        let index := (offset + to_size_t frame - frame0) % 18446744073709551616
        if ¬ (index < self.lookup0_.length) then none
        else some (self.lookup0_.getD index 0)

/-- The method `JobRangeLookup::last`, the same reading of `lookup1_`. -/
def ReflectionLookup.JobRangeLookup.last (self : ReflectionLookup.JobRangeLookup)
    (id : Nat) (frame : Int) : Option Nat :=
  if ¬ (id < self.group_.length) then none
  else
    let group := self.group_.getD id 0
    if ¬ (group < self.offset_.length - 1) then none
    else
      let offset := self.offset_.getD group 0
      let frame0 := to_size_t (self.frame0_.getD group 0)
      if ¬ (to_size_t frame ≥ frame0) then none
      else if ¬ (to_size_t frame
          < (frame0 + self.offset_.getD (group + 1) 0) % 18446744073709551616) then none
      else
        let index := (offset + to_size_t frame - frame0) % 18446744073709551616
        if ¬ (index < self.lookup1_.length) then none
        else some (self.lookup1_.getD index 0)

/-! ### `ReflectionLookup` -/

/-- The type `int6` of a bounding box `(x0, x1, y0, y1, z0, z1)`; `[4]` is `z0` and
`[5]` is `z1`. -/
structure int6 where
  x0 : Int
  x1 : Int
  y0 : Int
  y1 : Int
  z0 : Int
  z1 : Int
deriving DecidableEq, Repr

/-- The two bits of the enumeration `af::Flags` that this header reads.  The
enumeration is declared in `reflection_table.h`, which is not part of the
sources at hand, so the two masks are parameters of the embedding. -/
structure Flags where
  DontIntegrate : Nat
  ReferenceSpot : Nat
deriving DecidableEq, Repr

/-- The local variables of the scan over candidate jobs: the per-job lists under
construction, `jmin`, `dmin` and `inside`.  `dmin` holds twice the value of the
source's `double`: the sums `z1 + z0` and `jz1 + jz0` are `int` operations,
their halves `(z1 + z0) / 2.0` and `(jz1 + jz0) / 2.0` are exact, and comparing
the doubled distances is comparing the distances. -/
structure ReflectionLookup.Scan where
  indices : List (List (Nat × Bool))
  jmin : Nat
  dmin : Int
  inside : Bool
deriving DecidableEq, Repr

/-- The call `indices[j].push_back(e)` on the vector of per-job lists. -/
def ReflectionLookup.push_back (indices : List (List (Nat × Bool))) (j : Nat)
    (e : Nat × Bool) : List (List (Nat × Bool)) :=
  indices.set j (indices.getD j [] ++ [e])

/-- The loop `for (std::size_t j = j0; j <= j1; ++j)` of the constructor; `count` is
the number of iterations left and `f` the flags word of the record. -/
def ReflectionLookup.scan_loop (af : Flags) (jobs : JobList) (index : Nat) (z0 z1 : Int)
    (f : Nat) : Nat → Nat → ReflectionLookup.Scan → Option ReflectionLookup.Scan
  | 0, _, st => some st
  | count + 1, j, st =>
    match jobs.jobs_[j]? with
    | none => none
    | some job =>
      let jz0 := job.frames_.1
      let jz1 := job.frames_.2
      if z0 ≥ jz0 ∧ z1 ≤ jz1 then
        let indices :=
          if f &&& af.ReferenceSpot ≠ 0 then
            ReflectionLookup.push_back st.indices j (index, false)
          else st.indices
        let d := |to_int (z1 + z0) - to_int (jz1 + jz0)|
        if ¬ st.inside ∨ d < st.dmin then
          ReflectionLookup.scan_loop af jobs index z0 z1 f count (j + 1) ⟨indices, j, d, true⟩
        else
          ReflectionLookup.scan_loop af jobs index z0 z1 f count (j + 1)
            ⟨indices, st.jmin, st.dmin, st.inside⟩
      else ReflectionLookup.scan_loop af jobs index z0 z1 f count (j + 1) st

/-- The body of the loop over the records in the constructor, for record `index`
with experiment id `eid`, frame extent `[z0, z1)` and flags `f`. -/
def ReflectionLookup.record_step (af : Flags) (jobs : JobList)
    (lookup : ReflectionLookup.JobRangeLookup) (index eid : Nat) (z0 z1 : Int) (f : Nat)
    (indices : List (List (Nat × Bool))) : Option (List (List (Nat × Bool))) :=
  if ¬ (f &&& af.DontIntegrate ≠ 0) then
    match lookup.first eid z0, lookup.last eid (z1 - 1) with
    | some j0, some j1 =>
      if ¬ (j0 < jobs.size) then none
      else if ¬ (j1 < jobs.size) then none
      else if ¬ (j1 ≥ j0) then none
      else if ¬ (z0 ≥ ((jobs.jobs_.map (fun j => j.frames_.1)).getD j0 0)) then none
      else if ¬ (z1 ≤ ((jobs.jobs_.map (fun j => j.frames_.2)).getD j1 0)) then none
      else
        match ReflectionLookup.scan_loop af jobs index z0 z1 f (j1 + 1 - j0) j0
            ⟨indices, 0, 0, false⟩ with
        | none => none
        | some st =>
          match jobs.jobs_[st.jmin]? with
          | none => none
          | some job =>
            let jz0 := job.frames_.1
            let jz1 := job.frames_.2
            if ¬ (st.inside = true) then none
            else if ¬ (z0 ≥ jz0 ∧ z1 ≤ jz1) then none
            else if f &&& af.ReferenceSpot ≠ 0 then
              match (st.indices.getD st.jmin []).getLast? with
              | none => none
              | some back =>
                if ¬ (back.1 = index) then none
                else some (st.indices.set st.jmin
                  ((st.indices.getD st.jmin []).dropLast ++ [(back.1, true)]))
            else some (ReflectionLookup.push_back st.indices st.jmin (index, true))
    | _, _ => none
  else some indices

/-- The loop `for (std::size_t index = 0; index < bbox.size(); ++index)` of the
constructor; `count` is the number of iterations left. -/
def ReflectionLookup.records_loop (af : Flags) (jobs : JobList)
    (lookup : ReflectionLookup.JobRangeLookup) (id flags : List Nat) (bbox : List int6) :
    Nat → Nat → List (List (Nat × Bool)) → Option (List (List (Nat × Bool)))
  | 0, _, indices => some indices
  | count + 1, index, indices =>
    match ReflectionLookup.record_step af jobs lookup index (id.getD index 0)
        ((bbox.map (fun b => b.z0)).getD index 0) ((bbox.map (fun b => b.z1)).getD index 0)
        (flags.getD index 0) indices with
    | none => none
    | some indices =>
      ReflectionLookup.records_loop af jobs lookup id flags bbox count (index + 1) indices

/-- The running sums written by `std::partial_sum`, started from `acc`. -/
def ReflectionLookup.running_sum : Nat → List Nat → List Nat
  | _, [] => []
  | acc, x :: xs => (acc + x) :: ReflectionLookup.running_sum (acc + x) xs

/-- Class `ReflectionLookup`: the job list and the three flat arrays. -/
structure ReflectionLookup where
  jobs_ : JobList
  offset_ : List Nat
  indices_ : List Nat
  mask_ : List Bool
deriving DecidableEq, Repr

/-- Constructor of `ReflectionLookup`.  The three columns `id`, `flags` and `bbox`
are read at the positions `0 .. bbox.size() - 1`; a column shorter than `bbox`
(which columns of one table never are) reads as 0 past its end, where the
source reads outside the array.  The final double loop copies
the per-job lists, in order, into the flat arrays; of its assertions only
`indices_[k] < bbox.size()` can fail. -/
def ReflectionLookup.make (af : Flags) (id flags : List Nat) (bbox : List int6)
    (jobs : JobList) : Option ReflectionLookup :=
  if ¬ (jobs.size > 0) then none
  else
    match jobs.jobs_.head?, jobs.jobs_.getLast? with
    | some first_job, some last_job =>
      let frame0 := first_job.frames_.1
      let frame1 := last_job.frames_.2
      if ¬ (frame1 > frame0) then none
      else if ¬ (bbox.all (fun b => decide (b.x1 > b.x0) && decide (b.y1 > b.y0)
          && decide (b.z1 > b.z0) && decide (b.z0 ≥ frame0) && decide (b.z1 ≤ frame1))) then none
      else
        match ReflectionLookup.JobRangeLookup.make jobs with
        | none => none
        | some lookup =>
          match ReflectionLookup.records_loop af jobs lookup id flags bbox bbox.length 0
              (List.replicate jobs.size []) with
          | none => none
          | some indices =>
            let num := indices.map List.length
            let offset_ := 0 :: ReflectionLookup.running_sum 0 num
            let indices_ := indices.flatten.map Prod.fst
            let mask_ := indices.flatten.map Prod.snd
            if ¬ (indices_.all (fun k => decide (k < bbox.length))) then none
            else some ⟨jobs, offset_, indices_, mask_⟩
    | _, _ => none

/-- The method `ReflectionLookup::size`. -/
def ReflectionLookup.size (self : ReflectionLookup) : Nat := self.jobs_.size

/-- The method `ReflectionLookup::indices`: the slice of `indices_` of one job. -/
def ReflectionLookup.indices (self : ReflectionLookup) (index : Nat) : Option (List Nat) :=
  if ¬ (index < self.offset_.length - 1) then none
  else
    let i0 := self.offset_.getD index 0
    let i1 := self.offset_.getD (index + 1) 0
    if ¬ (i1 ≥ i0) then none
    else
      let off := i0
      let num := i1 - i0
      if ¬ (off + num ≤ self.indices_.length) then none
      else some ((self.indices_.drop off).take num)

/-- The method `ReflectionLookup::mask`: the slice of `mask_` of one job. -/
def ReflectionLookup.mask (self : ReflectionLookup) (index : Nat) : Option (List Bool) :=
  if ¬ (index < self.offset_.length - 1) then none
  else
    let i0 := self.offset_.getD index 0
    let i1 := self.offset_.getD (index + 1) 0
    if ¬ (i1 ≥ i0) then none
    else
      let off := i0
      let num := i1 - i0
      if ¬ (off + num ≤ self.mask_.length) then none
      else some ((self.mask_.drop off).take num)

/-! ### `ReflectionManager` -/

/-- One row of an `af::reflection_table`: the three columns `id`, `flags` and `bbox`
that `init` requires, and the content `rest` of all other columns.  A table is
the list of its rows, so `is_consistent()` and the three `contains` checks of
`init` hold for every table of the embedding. -/
structure Row (α : Type) where
  id : Nat
  flags : Nat
  bbox : int6
  rest : α
deriving DecidableEq, Repr

/-- The type `af::reflection_table`. -/
abbrev reflection_table (α : Type) := List (Row α)

/-- Modelled from the spec: `select_rows_index` of `flex_table_suite.h`, which is
not part of the sources at hand.  Section 6: "row selection by an explicit index
list (`select_rows(table, indices) -> table`)", "preserving column schema and row
count semantics (`result.size() == indices.size()`)"; the rows are copies, in the
order of the index list.  An index outside the table has no row to select and
is an error. -/
def select_rows_index {α : Type} (data : reflection_table α) :
    List Nat → Option (reflection_table α)
  | [] => some []
  | i :: rest =>
    match data[i]?, select_rows_index data rest with
    | some row, some rows => some (row :: rows)
    | _, _ => none

/-- Modelled from the spec: `set_selected_rows_index_mask` of `flex_table_suite.h`,
which is not part of the sources at hand.  Section 6: "masked row-scatter
(`set_rows_at(table, indices, owned_mask, source_table)`)"; section 4.4: the
source rows are written "at exactly the positions given by the job's
record-index list, restricted to entries where `owned_mask == true`". -/
def set_selected_rows_index_mask {α : Type} :
    reflection_table α → List Nat → List Bool → reflection_table α → reflection_table α
  | data, i :: ind, m :: msk, row :: rows =>
    set_selected_rows_index_mask (if m = true then data.set i row else data) ind msk rows
  | data, _, _, _ => data

/-- Class `ReflectionManager`. -/
structure ReflectionManager (α : Type) where
  lookup_ : ReflectionLookup
  data_ : reflection_table α
  finished_ : List Bool
deriving DecidableEq, Repr

/-- What a call that may throw leaves behind: `ok` tells whether it returned
normally, `state` is the object after the call. -/
structure Outcome (σ : Type) where
  ok : Bool
  state : σ
deriving DecidableEq, Repr

/-- The private method `ReflectionManager::init`. -/
def ReflectionManager.init {α : Type} (af : Flags) (jobs : JobList)
    (data : reflection_table α) : Option ReflectionLookup :=
  if ¬ (data.length > 0) then none
  else if ¬ (jobs.size > 0) then none
  else ReflectionLookup.make af (data.map (fun r => r.id)) (data.map (fun r => r.flags))
    (data.map (fun r => r.bbox)) jobs

/-- Constructor of `ReflectionManager`. -/
def ReflectionManager.make {α : Type} (af : Flags) (jobs : JobList)
    (data : reflection_table α) : Option (ReflectionManager α) :=
  match ReflectionManager.init af jobs data with
  | none => none
  | some lookup =>
    let finished := List.replicate lookup.size false
    if ¬ (finished.length > 0) then none
    else some ⟨lookup, data, finished⟩

/-- The method `ReflectionManager::finished`: `finished_.all_eq(true)`. -/
def ReflectionManager.finished {α : Type} (self : ReflectionManager α) : Bool :=
  self.finished_.all (fun b => b == true)

/-- The method `ReflectionManager::data`. -/
def ReflectionManager.data {α : Type} (self : ReflectionManager α) :
    Option (reflection_table α) :=
  if ¬ (self.finished = true) then none else some self.data_

/-- The method `ReflectionManager::size`. -/
def ReflectionManager.size {α : Type} (self : ReflectionManager α) : Nat :=
  self.finished_.length

/-- The method `ReflectionManager::split`.  The result is the table returned and the
manager after the call; the source writes to no member.  The loop over `flags`
sets the bit on row `i` of the copy when `msk[i] == false`; `result` and `msk`
have the same length there. -/
def ReflectionManager.split {α : Type} (af : Flags) (self : ReflectionManager α)
    (index : Nat) : Option (reflection_table α × ReflectionManager α) :=
  if ¬ (index < self.finished_.length) then none
  else
    match self.lookup_.indices index, self.lookup_.mask index with
    | some ind, some msk =>
      if ¬ (ind.length = msk.length) then none
      else
        match select_rows_index self.data_ ind with
        | none => none
        | some result =>
          some (List.zipWith (fun (row : Row α) (m : Bool) =>
              if m = false then { row with flags := row.flags ||| af.DontIntegrate } else row)
            result msk, self)
    | _, _ => none

/-- The method `ReflectionManager::accumulate`.  Every assertion precedes the two
writes, so a failed call returns the manager it was given. -/
def ReflectionManager.accumulate {α : Type} (self : ReflectionManager α) (index : Nat)
    (result : reflection_table α) : Outcome (ReflectionManager α) :=
  if ¬ (index < self.finished_.length) then ⟨false, self⟩
  else if ¬ (self.finished_.getD index false = false) then ⟨false, self⟩
  else
    match self.lookup_.indices index, self.lookup_.mask index with
    | some ind, some msk =>
      if ¬ (ind.length = msk.length) then ⟨false, self⟩
      else if ¬ (ind.length = result.length) then ⟨false, self⟩
      else
        ⟨true, { self with
          data_ := set_selected_rows_index_mask self.data_ ind msk result
          finished_ := self.finished_.set index true }⟩
    | _, _ => ⟨false, self⟩

/-- The states of a manager built from `jobs` and `data`: the fresh manager, and
every state a call of `accumulate` leaves.  The list records the job indices
of the successful calls, latest first. -/
inductive ReflectionManager.Reached {α : Type} (af : Flags) (jobs : JobList)
    (data : reflection_table α) : List Nat → ReflectionManager α → Prop
  | fresh (m : ReflectionManager α) :
      ReflectionManager.make af jobs data = some m →
      ReflectionManager.Reached af jobs data [] m
  | accumulated (done : List Nat) (m : ReflectionManager α) (index : Nat)
      (result : reflection_table α) :
      ReflectionManager.Reached af jobs data done m →
      (m.accumulate index result).ok = true →
      ReflectionManager.Reached af jobs data (index :: done) (m.accumulate index result).state
  | rejected (done : List Nat) (m : ReflectionManager α) (index : Nat)
      (result : reflection_table α) :
      ReflectionManager.Reached af jobs data done m →
      (m.accumulate index result).ok = false →
      ReflectionManager.Reached af jobs data done (m.accumulate index result).state

/-- Feeding the split of each job of `order` straight back with `accumulate`, one job
after the other; `none` when a call fails. -/
def ReflectionManager.round_trip {α : Type} (af : Flags) :
    ReflectionManager α → List Nat → Option (ReflectionManager α)
  | m, [] => some m
  | m, j :: order =>
    match m.split af j with
    | none => none
    | some (part, m1) =>
      if (m1.accumulate j part).ok = true then
        ReflectionManager.round_trip af (m1.accumulate j part).state order
      else none

/-- The values of the type `int` (32 bit). -/
def is_int (x : Int) : Prop := -2147483648 ≤ x ∧ x ≤ 2147483647

instance (x : Int) : Decidable (is_int x) := by
  unfold is_int; infer_instance

/-- The job lists a program can hold: the empty list, and the result of a successful
`add`, with arguments of type `int`, on such a list.  (A failed `add` throws; the
list it was called on is not used further.) -/
inductive JobList.Built : JobList → Prop
  | empty : JobList.Built JobList.empty
  | add (self new : JobList) (expr range : Int × Int) (block_size : Int) :
      JobList.Built self → is_int expr.1 → is_int expr.2 → is_int range.1 →
      is_int range.2 → is_int block_size →
      self.add expr range block_size = some new → JobList.Built new

/-! ### Notions used to state the properties -/

/-- The window of job number `k` fully contains the frame extent `[z0, z1)`: the
test `z0 >= jz0 && z1 <= jz1` of the scan. -/
def JobList.contains_at (jobs : JobList) (k : Nat) (z0 z1 : Int) : Bool :=
  match jobs.jobs_[k]? with
  | some job => decide (z0 ≥ job.frames_.1) && decide (z1 ≤ job.frames_.2)
  | none => false

/-- The doubled `d` of the scan for job number `k`: twice the distance between the
centre of `[z0, z1)` and the centre of the window of the job, as the source
computes it, both sums being `int` operations. -/
def JobList.dist2_at (jobs : JobList) (k : Nat) (z0 z1 : Int) : Int :=
  match jobs.jobs_[k]? with
  | some job => |to_int (z1 + z0) - to_int (job.frames_.2 + job.frames_.1)|
  | none => 0

/-- Job `jmin` is the job the scan selects among the jobs `lo ≤ k < hi`: its window
contains `[z0, z1)`, its computed distance `d` is the least among the containing
jobs, and the lowest job index wins a tie. -/
def ReflectionLookup.Owner (jobs : JobList) (lo hi : Nat) (z0 z1 : Int) (jmin : Nat) : Prop :=
  lo ≤ jmin ∧ jmin < hi ∧ jobs.contains_at jmin z0 z1 = true
  ∧ ∀ k, lo ≤ k → k < hi → jobs.contains_at k z0 z1 = true →
      jobs.dist2_at jmin z0 z1 ≤ jobs.dist2_at k z0 z1
      ∧ (jobs.dist2_at k z0 z1 = jobs.dist2_at jmin z0 z1 → jmin ≤ k)

/-- What the scan variables hold once the jobs `lo ≤ k < hi` have been visited. -/
def ReflectionLookup.Scan.Selected (jobs : JobList) (lo hi : Nat) (z0 z1 : Int)
    (st : ReflectionLookup.Scan) : Prop :=
  (st.inside = true →
    ReflectionLookup.Owner jobs lo hi z0 z1 st.jmin ∧ st.dmin = jobs.dist2_at st.jmin z0 z1)
  ∧ (st.inside = false → ∀ k, lo ≤ k → k < hi → jobs.contains_at k z0 z1 = false)

/-- Record `index`, with experiment id `eid`, frame extent `[z0, z1)` and flags `f`, is
to be listed in job `j` with owned flag `o`: it is not excluded, and either `j`
is the job the scan selects among the candidates `first .. last` and `o` is
true, or it is a reference spot, `j` is another candidate that contains the
extent, and `o` is false. -/
def ReflectionLookup.Listed (af : Flags) (jobs : JobList)
    (lookup : ReflectionLookup.JobRangeLookup) (eid : Nat) (z0 z1 : Int) (f : Nat)
    (j : Nat) (o : Bool) : Prop :=
  f &&& af.DontIntegrate = 0
  ∧ ∃ j0 j1 jmin, lookup.first eid z0 = some j0 ∧ lookup.last eid (z1 - 1) = some j1
      ∧ ReflectionLookup.Owner jobs j0 (j1 + 1) z0 z1 jmin
      ∧ ((j = jmin ∧ o = true)
        ∨ (j ≠ jmin ∧ o = false ∧ f &&& af.ReferenceSpot ≠ 0 ∧ j0 ≤ j ∧ j ≤ j1
            ∧ jobs.contains_at j z0 z1 = true))

/-- The property `Listed` for record number `i` of the three columns. -/
def ReflectionLookup.ListedRecord (af : Flags) (jobs : JobList)
    (lookup : ReflectionLookup.JobRangeLookup) (id flags : List Nat) (bbox : List int6)
    (i j : Nat) (o : Bool) : Prop :=
  ReflectionLookup.Listed af jobs lookup (id.getD i 0) ((bbox.map (fun b => b.z0)).getD i 0)
    ((bbox.map (fun b => b.z1)).getD i 0) (flags.getD i 0) j o

/-- The list of job `j` as pairs (record index, owned): `indices(j)` and `mask(j)` side
by side; empty when `j` is not a job. -/
def ReflectionLookup.entries (self : ReflectionLookup) (j : Nat) : List (Nat × Bool) :=
  match self.indices j, self.mask j with
  | some ind, some msk => ind.zip msk
  | _, _ => []

/-- The `i`-th boundary mark of the block scheme as the specification words it:
start at `frame0`, step by `half`, clamp at `frame1`. -/
def JobList.mark (frame0 frame1 half : Int) (i : Nat) : Int :=
  min (frame0 + (i : Int) * half) frame1

/-- The frame windows of one group as the specification words them: unit windows
when the clamped block size is 1, otherwise `[mark i, mark (i + 2))` for the
`K - 1` first marks, `K = ceil (n / half)`. -/
def JobList.spec_windows (frame0 frame1 block_size : Int) : List (Int × Int) :=
  let n := frame1 - frame0
  let b := min block_size n
  if b = 1 then
    (List.range n.toNat).map (fun (i : Nat) => (frame0 + (i : Int), frame0 + (i : Int) + 1))
  else
    let num_blocks := ceil_div (2 * n) b
    let half := ceil_div n num_blocks
    let K := ceil_div n half
    (List.range (K.toNat - 1)).map
      (fun i => (JobList.mark frame0 frame1 half i, JobList.mark frame0 frame1 half (i + 2)))

/-- The `int` operations of `add_jobs` on the frame range `[frame0, frame1)` with
block size `block_size` stay in the 32-bit range: the frame count
`frame1 - frame0` and, when the clamped block size is not 1, the last mark
computed before clamping, `frame0 + K * half` (the earlier marks lie between
`frame0` and that one). -/
def JobList.fits (frame0 frame1 block_size : Int) : Prop :=
  is_int (frame1 - frame0)
  ∧ (min block_size (frame1 - frame0) ≠ 1 →
      is_int (frame0
        + ceil_div (frame1 - frame0)
            (ceil_div (frame1 - frame0)
              (ceil_div (2 * (frame1 - frame0)) (min block_size (frame1 - frame0))))
          * ceil_div (frame1 - frame0)
              (ceil_div (2 * (frame1 - frame0)) (min block_size (frame1 - frame0)))))

instance (frame0 frame1 block_size : Int) : Decidable (JobList.fits frame0 frame1 block_size) := by
  unfold JobList.fits; infer_instance

/-- The distance `|zc - jc|` between the centre `zc = (z1 + z0) / 2` of the frame extent
`[z0, z1)` and the centre `jc = (jz1 + jz0) / 2` of the window of `job`. -/
def center_dist (z0 z1 : Int) (job : JobList.Job) : ℚ :=
  |((z1 + z0 : Int) : ℚ) / 2 - ((job.frames_.2 + job.frames_.1 : Int) : ℚ) / 2|

/-- The job list of the worked example: one group, experiments `[0, 1)`, frames
`[0, 10)`, block size 4. -/
def example_jobs : JobList :=
  ⟨[⟨0, (0, 1), (0, 4)⟩, ⟨0, (0, 1), (2, 6)⟩, ⟨0, (0, 1), (4, 8)⟩, ⟨0, (0, 1), (6, 10)⟩],
    ⟨[⟨(0, 4), (0, 1), (0, 10)⟩]⟩⟩

/-- The record indices listed as owned, job after job: a list, so an index listed
as owned twice would be in it twice. -/
def ReflectionLookup.owned_indices (self : ReflectionLookup) : List Nat :=
  (List.range self.size).flatMap
    (fun j => ((self.entries j).filter (fun e => e.2)).map Prod.fst)

/-- Sample values of the two flag bits. -/
def example_af : Flags := ⟨128, 64⟩

/-- The `id` column of the worked example: four records of experiment 0. -/
def example_id : List Nat := [0, 0, 0, 0]

/-- The `flags` column of the worked example: a plain record, a reference spot, an
excluded record, a reference spot. -/
def example_flags : List Nat := [0, 64, 128, 64]

/-- The `bbox` column of the worked example, with frame extents `[3,5)`, `[2,4)`,
`[3,5)` and `[4,6)`. -/
def example_bbox : List int6 :=
  [⟨0, 1, 0, 1, 3, 5⟩, ⟨0, 1, 0, 1, 2, 4⟩, ⟨0, 1, 0, 1, 3, 5⟩, ⟨0, 1, 0, 1, 4, 6⟩]

/-- The lookup that the constructor builds from the worked example. -/
def example_lookup : ReflectionLookup :=
  ⟨example_jobs, [0, 1, 4, 5, 5], [1, 0, 1, 3, 3], [true, true, false, true, false]⟩

/-- The table of the worked example: the four records with a payload column. -/
def example_table : reflection_table Nat :=
  [⟨0, 0, ⟨0, 1, 0, 1, 3, 5⟩, 10⟩, ⟨0, 64, ⟨0, 1, 0, 1, 2, 4⟩, 11⟩,
   ⟨0, 128, ⟨0, 1, 0, 1, 3, 5⟩, 12⟩, ⟨0, 64, ⟨0, 1, 0, 1, 4, 6⟩, 13⟩]

/-- The manager that the constructor builds from the worked example. -/
def example_manager : ReflectionManager Nat :=
  ⟨example_lookup, example_table, [false, false, false, false]⟩

/-- A processed result for job 1 of the worked example (records 0, 1 and 3). -/
def example_result : reflection_table Nat :=
  [⟨0, 256, ⟨0, 1, 0, 1, 3, 5⟩, 20⟩, ⟨0, 320, ⟨0, 1, 0, 1, 2, 4⟩, 21⟩,
   ⟨0, 320, ⟨0, 1, 0, 1, 4, 6⟩, 23⟩]

/-! ## Theorems -/

/-! ### The 32-bit range -/

theorem to_int_of_is_int (x : Int) (h : is_int x) : to_int x = x := by
  unfold is_int at h
  unfold to_int
  omega

theorem to_int_add_to_int (a b : Int) : to_int (a + to_int b) = to_int (a + b) := by
  unfold to_int
  omega

/-- An exact result above the range, by less than `2 ^ 32`, comes out `2 ^ 32` lower. -/
theorem to_int_above (x : Int) (h1 : 2147483647 < x) (h2 : x < 6442450944) :
    to_int x = x - 4294967296 := by
  unfold to_int
  omega

/-! ### Arithmetic of the block scheme -/

theorem ceil_div_spec (a b : Int) (hb : 0 < b) :
    a ≤ ceil_div a b * b ∧ (ceil_div a b - 1) * b < a := by
  unfold ceil_div
  have h1 := Int.emod_add_ediv (a + b - 1) b
  have h2 := Int.emod_nonneg (a + b - 1) (ne_of_gt hb)
  have h3 := Int.emod_lt_of_pos (a + b - 1) hb
  have h4 : (a + b - 1) / b * b = b * ((a + b - 1) / b) := Int.mul_comm _ _
  constructor
  · linarith
  · have h5 : ((a + b - 1) / b - 1) * b = (a + b - 1) / b * b - b := by ring
    linarith

/-- Facts about `nblocks`, `half_block_size` and the number `K` of half blocks
used by `add_jobs` when the clamped block size `b` is at least 2. -/
theorem block_scheme (n b : Int) (hb2 : 2 ≤ b) (hbn : b ≤ n) :
    let nblocks := ceil_div (2 * n) b
    let half := ceil_div n nblocks
    let K := ceil_div n half
    2 ≤ nblocks ∧ nblocks ≤ n ∧ 1 ≤ half ∧ half < n ∧ 2 ≤ K ∧ K ≤ nblocks
      ∧ n ≤ K * half ∧ (K - 1) * half < n := by
  intro nblocks half K
  obtain ⟨a1, a2⟩ := ceil_div_spec (2 * n) b (by omega)
  have hnb2 : 2 ≤ nblocks := by
    by_contra hc
    have : nblocks ≤ 1 := by omega
    have : nblocks * b ≤ 1 * b := Int.mul_le_mul_of_nonneg_right this (by omega)
    have e : ceil_div (2 * n) b = nblocks := rfl
    rw [e] at a1
    omega
  have hnbn : nblocks ≤ n := by
    have e : ceil_div (2 * n) b = nblocks := rfl
    rw [e] at a2
    have : (nblocks - 1) * 2 ≤ (nblocks - 1) * b :=
      Int.mul_le_mul_of_nonneg_left hb2 (by omega)
    omega
  obtain ⟨b1, b2⟩ := ceil_div_spec n nblocks (by omega)
  have eh : ceil_div n nblocks = half := rfl
  rw [eh] at b1 b2
  have hh1 : 1 ≤ half := by
    by_contra hc
    have : half ≤ 0 := by omega
    have : half * nblocks ≤ 0 * nblocks := Int.mul_le_mul_of_nonneg_right this (by omega)
    omega
  have hhn : half < n := by
    by_contra hc
    have h1 : n - 1 ≤ half - 1 := by omega
    have h2 : (n - 1) * nblocks ≤ (half - 1) * nblocks :=
      Int.mul_le_mul_of_nonneg_right h1 (by omega)
    have h3 : (n - 1) * 2 ≤ (n - 1) * nblocks := Int.mul_le_mul_of_nonneg_left hnb2 (by omega)
    omega
  obtain ⟨c1, c2⟩ := ceil_div_spec n half (by omega)
  have eK : ceil_div n half = K := rfl
  rw [eK] at c1 c2
  have hK2 : 2 ≤ K := by
    by_contra hc
    have : K ≤ 1 := by omega
    have : K * half ≤ 1 * half := Int.mul_le_mul_of_nonneg_right this (by omega)
    omega
  have hKnb : K ≤ nblocks := by
    by_contra hc
    have h1 : nblocks ≤ K - 1 := by omega
    have h2 : nblocks * half ≤ (K - 1) * half := Int.mul_le_mul_of_nonneg_right h1 (by omega)
    have h3 : nblocks * half = half * nblocks := Int.mul_comm _ _
    omega
  exact ⟨hnb2, hnbn, hh1, hhn, hK2, hKnb, c1, c2⟩

/-! ### The loops of `add_jobs` in closed form -/

theorem range_succ_map_shift {α : Type} (f : Nat → α) (m : Nat) :
    (List.range (m + 1)).map f = f 0 :: (List.range m).map (fun k => f (k + 1)) := by
  rw [List.range_succ_eq_map]
  simp [List.map_map, Function.comp_def]

theorem unit_loop_eq (index : Nat) (expr : Int × Int) (he : 0 ≤ expr.1 ∧ expr.1 < expr.2) :
    ∀ (count : Nat) (f : Int) (jobs : List JobList.Job),
      JobList.unit_loop index expr count f jobs
        = some (jobs ++ (List.range count).map
            (fun (k : Nat) => (⟨index, expr, (f + (k : Int), f + (k : Int) + 1)⟩ : JobList.Job))) := by
  intro count
  induction count with
  | zero => intro f jobs; simp [JobList.unit_loop]
  | succ c ih =>
    intro f jobs
    have hm : JobList.Job.make index expr (f, f + 1) = some ⟨index, expr, (f, f + 1)⟩ := by
      simp [JobList.Job.make, he.1, he.2]
    simp only [JobList.unit_loop, hm]
    rw [ih, range_succ_map_shift]
    simp only [List.append_assoc, List.singleton_append, Nat.cast_zero, add_zero, Nat.cast_add,
      Nat.cast_one]
    congr 3
    apply List.map_congr_left
    intro k _
    have e : f + 1 + (k : Int) = f + ((k : Int) + 1) := by ring
    rw [e]

theorem mark_loop_eq (f0 f1 half : Int) (K : Nat) (hh : 0 < half)
    (hK1 : ((K : Int) - 1) * half < f1 - f0) (hK2 : f1 - f0 ≤ (K : Int) * half)
    (hlo : -2147483648 ≤ f0) (hhi : f0 + (K : Int) * half ≤ 2147483647) :
    ∀ (count i : Nat) (acc : List Int), i < K → K ≤ i + count →
      JobList.mark_loop f0 f1 half count (i : Int) acc
        = acc ++ (List.range (K - i)).map (fun k => JobList.mark f0 f1 half (i + 1 + k)) := by
  intro count
  induction count with
  | zero => intro i acc h1 h2; omega
  | succ c ih =>
    intro i acc h1 h2
    have hfr : (if f0 + ((i : Int) + 1) * half > f1 then f1 else f0 + ((i : Int) + 1) * half)
        = JobList.mark f0 f1 half (i + 1) := by
      unfold JobList.mark
      push_cast
      rw [min_def]
      split_ifs <;> omega
    have hv : to_int (f0 + to_int (((i : Int) + 1) * half)) = f0 + ((i : Int) + 1) * half := by
      have h3 : (i : Int) + 1 ≤ (K : Int) := by omega
      have h4 := Int.mul_le_mul_of_nonneg_right h3 (le_of_lt hh)
      have h5 : 0 ≤ ((i : Int) + 1) * half := Int.mul_nonneg (by omega) (le_of_lt hh)
      rw [to_int_add_to_int]
      exact to_int_of_is_int _ ⟨by omega, by omega⟩
    simp only [JobList.mark_loop, hv, hfr]
    by_cases hend : JobList.mark f0 f1 half (i + 1) = f1
    · rw [if_pos hend]
      have hKi : K = i + 1 := by
        by_contra hne
        have h3 : (i : Int) + 1 ≤ (K : Int) - 1 := by omega
        have h4 := Int.mul_le_mul_of_nonneg_right h3 (le_of_lt hh)
        unfold JobList.mark at hend
        push_cast at hend
        rw [min_def] at hend
        split_ifs at hend <;> omega
      have e : K - i = 1 := by omega
      rw [e]
      simp [List.range_succ, hend]
    · rw [if_neg hend]
      have hlt : i + 1 < K := by
        by_contra hge
        have h3 : (K : Int) ≤ (i : Int) + 1 := by omega
        have h4 := Int.mul_le_mul_of_nonneg_right h3 (le_of_lt hh)
        apply hend
        unfold JobList.mark
        push_cast
        rw [min_def]
        split_ifs <;> omega
      have hc : ((i : Int) + 1) = ((i + 1 : Nat) : Int) := by push_cast; rfl
      rw [hc, ih (i + 1) _ hlt (by omega)]
      have e : K - i = (K - (i + 1)) + 1 := by omega
      rw [e, range_succ_map_shift]
      simp only [List.append_assoc, List.singleton_append, add_zero]
      congr 2
      apply List.map_congr_left
      intro k _
      congr 1
      omega

theorem window_loop_eq (index : Nat) (expr : Int × Int) (he : 0 ≤ expr.1 ∧ expr.1 < expr.2)
    (indices : List Int)
    (hinc : ∀ i, i + 2 < indices.length → indices.getD i 0 < indices.getD (i + 2) 0) :
    ∀ (count i : Nat) (jobs : List JobList.Job), i + count + 2 ≤ indices.length →
      JobList.window_loop index expr indices count i jobs
        = some (jobs ++ (List.range count).map
            (fun k => (⟨index, expr, (indices.getD (i + k) 0, indices.getD (i + k + 2) 0)⟩
              : JobList.Job))) := by
  intro count
  induction count with
  | zero => intro i jobs _; simp [JobList.window_loop]
  | succ c ih =>
    intro i jobs hlen
    have hlt := hinc i (by omega)
    have hm : JobList.Job.make index expr (indices.getD i 0, indices.getD (i + 2) 0)
        = some ⟨index, expr, (indices.getD i 0, indices.getD (i + 2) 0)⟩ := by
      simp only [JobList.Job.make, ge_iff_le, gt_iff_lt, he.1, he.2, hlt, and_self, if_true]
    simp only [JobList.window_loop, gt_iff_lt, hlt, if_true, hm]
    rw [ih (i + 1) _ (by omega), range_succ_map_shift]
    simp only [List.append_assoc, List.singleton_append, add_zero]
    congr 3
    apply List.map_congr_left
    intro k _
    have e : i + 1 + k = i + (k + 1) := by omega
    rw [e]

theorem mark_zero (f0 f1 half : Int) (hf : f0 < f1) : JobList.mark f0 f1 half 0 = f0 := by
  unfold JobList.mark
  simp only [Nat.cast_zero, zero_mul, add_zero]
  exact min_eq_left (le_of_lt hf)

theorem mark_of_lt (f0 f1 half : Int) (K i : Nat) (hh : 0 < half)
    (hK1 : ((K : Int) - 1) * half < f1 - f0) (hi : i < K) :
    JobList.mark f0 f1 half i = f0 + (i : Int) * half ∧ JobList.mark f0 f1 half i < f1 := by
  have h3 : (i : Int) ≤ (K : Int) - 1 := by omega
  have h4 := Int.mul_le_mul_of_nonneg_right h3 (le_of_lt hh)
  unfold JobList.mark
  rw [min_def]
  split_ifs <;> constructor <;> omega

theorem mark_of_ge (f0 f1 half : Int) (K i : Nat) (hh : 0 < half)
    (hK2 : f1 - f0 ≤ (K : Int) * half) (hi : K ≤ i) :
    JobList.mark f0 f1 half i = f1 := by
  have h3 : (K : Int) ≤ (i : Int) := by omega
  have h4 := Int.mul_le_mul_of_nonneg_right h3 (le_of_lt hh)
  unfold JobList.mark
  rw [min_def]
  split_ifs <;> omega

theorem mark_le (f0 f1 half : Int) (i : Nat) : JobList.mark f0 f1 half i ≤ f1 := by
  unfold JobList.mark
  exact min_le_right _ _

theorem mark_mono (f0 f1 half : Int) (hh : 0 < half) (i j : Nat) (hij : i ≤ j) :
    JobList.mark f0 f1 half i ≤ JobList.mark f0 f1 half j := by
  have h3 : (i : Int) ≤ (j : Int) := by omega
  have h4 := Int.mul_le_mul_of_nonneg_right h3 (le_of_lt hh)
  unfold JobList.mark
  apply min_le_min _ (le_refl _)
  omega

theorem marks_list (f0 f1 half : Int) (K count : Nat) (hf : f0 < f1) (hh : 0 < half)
    (hK1 : ((K : Int) - 1) * half < f1 - f0) (hK2 : f1 - f0 ≤ (K : Int) * half)
    (hc : K ≤ count) (hlo : -2147483648 ≤ f0) (hhi : f0 + (K : Int) * half ≤ 2147483647) :
    JobList.mark_loop f0 f1 half count 0 [f0]
      = (List.range (K + 1)).map (JobList.mark f0 f1 half) := by
  have hKpos : 0 < K := by
    by_contra h0
    have : K = 0 := by omega
    subst this
    simp at hK2
    omega
  have h := mark_loop_eq f0 f1 half K hh hK1 hK2 hlo hhi count 0 [f0] hKpos (by omega)
  simp only [Nat.cast_zero] at h
  rw [h, range_succ_map_shift, mark_zero f0 f1 half hf]
  simp only [List.singleton_append, Nat.sub_zero]
  congr 1
  apply List.map_congr_left
  intro k _
  congr 1
  omega

theorem getD_marks (f0 f1 half : Int) (K i : Nat) (hi : i ≤ K) :
    ((List.range (K + 1)).map (JobList.mark f0 f1 half)).getD i 0
      = JobList.mark f0 f1 half i := by
  rw [List.getD_eq_getElem?_getD, List.getElem?_map, List.getElem?_range (by omega)]
  rfl

/-- Closed form of `add_jobs`: on a valid experiment range, a non-empty frame range
and a positive block size it succeeds and appends one job per window of
`spec_windows`. -/
theorem add_jobs_eq (self : JobList) (index : Nat) (expr : Int × Int)
    (he : 0 ≤ expr.1 ∧ expr.1 < expr.2) (f0 f1 bs : Int) (hf : f0 < f1) (hb : 1 ≤ bs)
    (i0 : is_int f0) (hfit : JobList.fits f0 f1 bs) :
    self.add_jobs index expr (f0, f1) bs
      = some (self.jobs_ ++ (JobList.spec_windows f0 f1 bs).map
          (fun w => (⟨index, expr, w⟩ : JobList.Job))) := by
  have hclamp : (if bs > f1 - f0 then f1 - f0 else bs) = min bs (f1 - f0) := by
    rw [min_def]; split_ifs <;> omega
  obtain ⟨hfit1, hfit2⟩ := hfit
  have hwrap : to_int (f1 - f0) = f1 - f0 := to_int_of_is_int _ hfit1
  unfold JobList.add_jobs JobList.spec_windows
  simp only [hwrap, hclamp]
  have hn : f1 - f0 > 0 := by omega
  have hbpos : min bs (f1 - f0) > 0 := by
    rw [min_def]; split_ifs <;> omega
  simp only [gt_iff_lt, hf, hn, hbpos, not_true_eq_false, if_false]
  by_cases h1 : min bs (f1 - f0) = 1
  · simp only [h1, if_true]
    rw [unit_loop_eq index expr he]
    simp only [List.map_map, Function.comp_def]
  · simp only [h1, if_false]
    have hb2 : 2 ≤ min bs (f1 - f0) := by omega
    have hbn : min bs (f1 - f0) ≤ f1 - f0 := min_le_right _ _
    obtain ⟨s1, s2, s3, s4, s5, s6, s7, s8⟩ := block_scheme (f1 - f0) (min bs (f1 - f0)) hb2 hbn
    generalize ceil_div (2 * (f1 - f0)) (min bs (f1 - f0)) = nblocks at *
    generalize hhalf : ceil_div (f1 - f0) nblocks = half at *
    generalize hK : ceil_div (f1 - f0) half = Kz at *
    obtain ⟨K, rfl⟩ : ∃ K : Nat, Kz = (K : Int) := ⟨Kz.toNat, by omega⟩
    have hnbpos : 0 < nblocks := by omega
    simp only [hnbpos, s2, and_self, not_true_eq_false, if_false, Int.toNat_ofNat]
    have hhi := (hfit2 h1).2
    have hml := marks_list f0 f1 half K nblocks.toNat hf (by omega) s8 s7 (by omega) i0.1 hhi
    rw [hml]
    have hK2 : 2 ≤ K := by omega
    have hhead : ((List.range (K + 1)).map (JobList.mark f0 f1 half)).head? = some f0 := by
      rw [range_succ_map_shift, mark_zero f0 f1 half hf]; rfl
    have hlast : ((List.range (K + 1)).map (JobList.mark f0 f1 half)).getLast? = some f1 := by
      rw [List.range_succ, List.map_append, List.map_singleton, List.getLast?_append]
      simp [mark_of_ge f0 f1 half K K (by omega) s7 (le_refl _)]
    have hlen : ((List.range (K + 1)).map (JobList.mark f0 f1 half)).length = K + 1 := by
      simp
    simp only [hhead, hlast, hlen, not_true_eq_false, if_false]
    have h3 : K + 1 > 2 := by omega
    simp only [h3, not_true_eq_false, if_false]
    have hinc : ∀ i, i + 2 < ((List.range (K + 1)).map (JobList.mark f0 f1 half)).length →
        ((List.range (K + 1)).map (JobList.mark f0 f1 half)).getD i 0
          < ((List.range (K + 1)).map (JobList.mark f0 f1 half)).getD (i + 2) 0 := by
      intro i hi
      rw [hlen] at hi
      rw [getD_marks f0 f1 half K i (by omega), getD_marks f0 f1 half K (i + 2) (by omega)]
      obtain ⟨m1, m2⟩ := mark_of_lt f0 f1 half K i (by omega) s8 (by omega)
      by_cases hi2 : i + 2 < K
      · obtain ⟨m3, _⟩ := mark_of_lt f0 f1 half K (i + 2) (by omega) s8 hi2
        rw [m1, m3]
        push_cast
        have : (i : Int) * half < ((i : Int) + 2) * half := by
          have : ((i : Int) + 2) * half = (i : Int) * half + 2 * half := by ring
          omega
        omega
      · rw [mark_of_ge f0 f1 half K (i + 2) (by omega) s7 (by omega)]
        exact m2
    rw [window_loop_eq index expr he _ hinc (K + 1 - 2) 0 self.jobs_ (by rw [hlen]; omega)]
    have hpos : (self.jobs_ ++ List.map
        (fun k => (⟨index, expr,
          (((List.range (K + 1)).map (JobList.mark f0 f1 half)).getD (0 + k) 0,
           ((List.range (K + 1)).map (JobList.mark f0 f1 half)).getD (0 + k + 2) 0)⟩
           : JobList.Job)) (List.range (K + 1 - 2))).length > 0 := by
      simp only [List.length_append, List.length_map, List.length_range]
      omega
    simp only [hpos, if_true]
    have e : K + 1 - 2 = K - 1 := by omega
    rw [e, List.map_map]
    congr 2
    apply List.map_congr_left
    intro k hk
    rw [List.mem_range] at hk
    simp only [Function.comp_def, Nat.zero_add]
    rw [getD_marks f0 f1 half K k (by omega), getD_marks f0 f1 half K (k + 2) (by omega)]

/-! ### Shape of the windows of one group -/

/-- The two shapes of `spec_windows`: unit windows, or pairs of half blocks. -/
theorem spec_windows_cases (f0 f1 bs : Int) (hf : f0 < f1) (hb : 1 ≤ bs) :
    (min bs (f1 - f0) = 1 ∧ JobList.spec_windows f0 f1 bs
        = (List.range (f1 - f0).toNat).map
            (fun (i : Nat) => (f0 + (i : Int), f0 + (i : Int) + 1)))
    ∨ (2 ≤ min bs (f1 - f0) ∧ ∃ (half : Int) (K : Nat),
        half = ceil_div (f1 - f0) (ceil_div (2 * (f1 - f0)) (min bs (f1 - f0)))
        ∧ (K : Int) = ceil_div (f1 - f0) half
        ∧ 0 < half ∧ half < f1 - f0 ∧ 2 ≤ K
        ∧ ((K : Int) - 1) * half < f1 - f0 ∧ f1 - f0 ≤ (K : Int) * half
        ∧ JobList.spec_windows f0 f1 bs = (List.range (K - 1)).map
            (fun i => (JobList.mark f0 f1 half i, JobList.mark f0 f1 half (i + 2)))) := by
  have hbpos : min bs (f1 - f0) > 0 := by
    rw [min_def]; split_ifs <;> omega
  by_cases h1 : min bs (f1 - f0) = 1
  · left
    refine ⟨h1, ?_⟩
    unfold JobList.spec_windows
    simp only [h1, if_true]
  · right
    have hb2 : 2 ≤ min bs (f1 - f0) := by omega
    have hbn : min bs (f1 - f0) ≤ f1 - f0 := min_le_right _ _
    obtain ⟨s1, s2, s3, s4, s5, s6, s7, s8⟩ := block_scheme (f1 - f0) (min bs (f1 - f0)) hb2 hbn
    refine ⟨hb2, _, (ceil_div (f1 - f0) (ceil_div (f1 - f0)
      (ceil_div (2 * (f1 - f0)) (min bs (f1 - f0))))).toNat, rfl, ?_, by omega, s4, ?_, ?_, ?_, ?_⟩
    · exact Int.toNat_of_nonneg (by omega)
    · omega
    · rw [Int.toNat_of_nonneg (by omega)]; exact s8
    · rw [Int.toNat_of_nonneg (by omega)]; exact s7
    · unfold JobList.spec_windows
      simp only [h1, if_false]

theorem mark_ge (f0 f1 half : Int) (hf : f0 < f1) (hh : 0 < half) (i : Nat) :
    f0 ≤ JobList.mark f0 f1 half i := by
  have h4 : 0 ≤ (i : Int) * half := Int.mul_nonneg (by omega) (le_of_lt hh)
  unfold JobList.mark
  rw [min_def]
  split_ifs <;> omega

theorem mark_strict (f0 f1 half : Int) (K i : Nat) (hh : 0 < half)
    (hK1 : ((K : Int) - 1) * half < f1 - f0) (hi : i < K) :
    JobList.mark f0 f1 half i < JobList.mark f0 f1 half (i + 1) := by
  obtain ⟨m1, m2⟩ := mark_of_lt f0 f1 half K i hh hK1 hi
  have e : ((i + 1 : Nat) : Int) * half = (i : Int) * half + half := by push_cast; ring
  rw [m1] at m2 ⊢
  unfold JobList.mark
  rw [min_def, e]
  split_ifs <;> omega

theorem mark_lt_add_two (f0 f1 half : Int) (K i : Nat) (hh : 0 < half)
    (hK1 : ((K : Int) - 1) * half < f1 - f0) (hi : i < K) :
    JobList.mark f0 f1 half i < JobList.mark f0 f1 half (i + 2) :=
  lt_of_lt_of_le (mark_strict f0 f1 half K i hh hK1 hi)
    (mark_mono f0 f1 half hh (i + 1) (i + 2) (by omega))

/-- Every frame of the range lies in a pair of half blocks. -/
theorem marks_cover (f0 f1 half : Int) (K : Nat) (hh : 0 < half) (hK : 2 ≤ K)
    (hK1 : ((K : Int) - 1) * half < f1 - f0) (hK2 : f1 - f0 ≤ (K : Int) * half)
    (f : Int) (h0 : f0 ≤ f) (h1 : f < f1) :
    ∃ i, i < K - 1 ∧ JobList.mark f0 f1 half i ≤ f ∧ f < JobList.mark f0 f1 half (i + 2) := by
  have q1 := Int.emod_add_ediv (f - f0) half
  have q2 := Int.emod_nonneg (f - f0) (ne_of_gt hh)
  have q3 := Int.emod_lt_of_pos (f - f0) hh
  have q4 : 0 ≤ (f - f0) / half := Int.ediv_nonneg (by omega) (le_of_lt hh)
  obtain ⟨q, hq⟩ : ∃ q : Nat, (f - f0) / half = (q : Int) := ⟨((f - f0) / half).toNat, by omega⟩
  rw [hq] at q1
  have q5 : half * (q : Int) = (q : Int) * half := Int.mul_comm _ _
  have hqK : q < K := by
    by_contra hc
    have h3 : (K : Int) ≤ (q : Int) := by omega
    have h4 := Int.mul_le_mul_of_nonneg_right h3 (le_of_lt hh)
    omega
  obtain ⟨m1, _⟩ := mark_of_lt f0 f1 half K q hh hK1 hqK
  by_cases hq2 : q + 2 ≤ K
  · refine ⟨q, by omega, by omega, ?_⟩
    apply lt_of_lt_of_le _ (mark_mono f0 f1 half hh (q + 1) (q + 2) (by omega))
    have e : ((q + 1 : Nat) : Int) * half = (q : Int) * half + half := by push_cast; ring
    unfold JobList.mark
    rw [min_def, e]
    split_ifs <;> omega
  · have hqe : q = K - 1 := by omega
    refine ⟨K - 2, by omega, ?_, ?_⟩
    · have := mark_mono f0 f1 half hh (K - 2) q (by omega)
      omega
    · have e : K - 2 + 2 = K := by omega
      rw [e, mark_of_ge f0 f1 half K K hh hK2 (le_refl _)]
      exact h1

/-- Coverage, on the windows: first start, last end, containment, no gap. -/
theorem spec_windows_cover (f0 f1 bs : Int) (hf : f0 < f1) (hb : 1 ≤ bs) :
    (∃ w, (JobList.spec_windows f0 f1 bs).head? = some w ∧ w.1 = f0)
    ∧ (∃ w, (JobList.spec_windows f0 f1 bs).getLast? = some w ∧ w.2 = f1)
    ∧ (∀ w ∈ JobList.spec_windows f0 f1 bs, f0 ≤ w.1 ∧ w.1 < w.2 ∧ w.2 ≤ f1)
    ∧ (∀ f, f0 ≤ f → f < f1 → ∃ w ∈ JobList.spec_windows f0 f1 bs, w.1 ≤ f ∧ f < w.2) := by
  rcases spec_windows_cases f0 f1 bs hf hb with ⟨_, hw⟩ | ⟨_, half, K, _, _, hh, _, hK, hK1, hK2, hw⟩
  · rw [hw]
    obtain ⟨m, hm⟩ : ∃ m : Nat, (f1 - f0).toNat = m + 1 := ⟨(f1 - f0).toNat - 1, by omega⟩
    refine ⟨?_, ?_, ?_, ?_⟩
    · rw [hm, range_succ_map_shift]
      exact ⟨_, rfl, by simp⟩
    · rw [hm, List.range_succ, List.map_append, List.map_singleton, List.getLast?_append]
      refine ⟨_, by simp; rfl, ?_⟩
      show f0 + (m : Int) + 1 = f1
      omega
    · intro w hw'
      rw [List.mem_map] at hw'
      obtain ⟨i, hi, rfl⟩ := hw'
      rw [List.mem_range] at hi
      refine ⟨by simp, by simp, ?_⟩
      show f0 + (i : Int) + 1 ≤ f1
      omega
    · intro f h0 h1
      refine ⟨(f0 + ((f - f0).toNat : Int), f0 + ((f - f0).toNat : Int) + 1), ?_, ?_, ?_⟩
      · rw [List.mem_map]
        exact ⟨(f - f0).toNat, by rw [List.mem_range]; omega, rfl⟩
      · show f0 + ((f - f0).toNat : Int) ≤ f
        omega
      · show f < f0 + ((f - f0).toNat : Int) + 1
        omega
  · rw [hw]
    obtain ⟨m, hm⟩ : ∃ m : Nat, K - 1 = m + 1 := ⟨K - 2, by omega⟩
    refine ⟨?_, ?_, ?_, ?_⟩
    · rw [hm, range_succ_map_shift]
      exact ⟨_, rfl, mark_zero f0 f1 half hf⟩
    · rw [hm, List.range_succ, List.map_append, List.map_singleton, List.getLast?_append]
      refine ⟨_, by simp; rfl, ?_⟩
      show JobList.mark f0 f1 half (m + 2) = f1
      exact mark_of_ge f0 f1 half K (m + 2) hh hK2 (by omega)
    · intro w hw'
      rw [List.mem_map] at hw'
      obtain ⟨i, hi, rfl⟩ := hw'
      rw [List.mem_range] at hi
      exact ⟨mark_ge f0 f1 half hf hh i,
        mark_lt_add_two f0 f1 half K i hh hK1 (by omega), mark_le f0 f1 half _⟩
    · intro f h0 h1
      obtain ⟨i, hi, a, b⟩ := marks_cover f0 f1 half K hh hK hK1 hK2 f h0 h1
      refine ⟨(JobList.mark f0 f1 half i, JobList.mark f0 f1 half (i + 2)), ?_, a, b⟩
      rw [List.mem_map]
      exact ⟨i, by rw [List.mem_range]; exact hi, rfl⟩

/-- A successful `add` leaves in `jobs_` what its call of `add_jobs` produced. -/
theorem add_jobs_of_add (self new : JobList) (expr range : Int × Int) (bs : Int)
    (h : self.add expr range bs = some new) :
    self.add_jobs self.groups_.size expr range bs = some new.jobs_ := by
  unfold JobList.add at h
  cases hj : self.add_jobs self.groups_.size expr range bs with
  | none => simp [hj] at h
  | some jobs =>
    simp only [hj] at h
    cases hg : self.groups_.add ((self.size : Int), (jobs.length : Int)) expr range with
    | none => simp [hg] at h
    | some groups =>
      simp only [hg, Option.some.injEq] at h
      rw [← h]

/-! ### The flat arrays of `ReflectionLookup` -/

theorem running_sum_length (acc : Nat) (xs : List Nat) :
    (ReflectionLookup.running_sum acc xs).length = xs.length := by
  induction xs generalizing acc with
  | nil => rfl
  | cons x xs ih => simp [ReflectionLookup.running_sum, ih]

/-- Entry `j` of the offsets is the total length of the first `j` lists. -/
theorem running_sum_getD {β : Type} (ls : List (List β)) :
    ∀ (acc j : Nat), j ≤ ls.length →
      (acc :: ReflectionLookup.running_sum acc (ls.map List.length)).getD j 0
        = acc + (ls.take j).flatten.length := by
  induction ls with
  | nil =>
    intro acc j hj
    have : j = 0 := by simpa using hj
    subst this
    simp
  | cons l ls ih =>
    intro acc j hj
    cases j with
    | zero => simp
    | succ j =>
      have hj' : j ≤ ls.length := by simpa using hj
      have := ih (acc + l.length) j hj'
      simp only [List.map_cons, ReflectionLookup.running_sum, List.getD_cons_succ, List.take_succ_cons,
        List.flatten_cons, List.length_append]
      rw [this]
      omega

/-- The slice of the flattened lists that starts after the first `j` lists and has the
length of list `j` is list `j`. -/
theorem flatten_slice {β : Type} (ls : List (List β)) :
    ∀ (j : Nat), j < ls.length →
      (ls.flatten.drop (ls.take j).flatten.length).take (ls.getD j []).length
        = ls.getD j [] := by
  induction ls with
  | nil => intro j hj; simp at hj
  | cons l ls ih =>
    intro j hj
    cases j with
    | zero => simp
    | succ j =>
      have hj' : j < ls.length := by simpa using hj
      have := ih j hj'
      simp only [List.take_succ_cons, List.flatten_cons, List.length_append, List.getD_cons_succ]
      rw [List.drop_append_eq_append_drop]
      have e1 : l.length + (List.take j ls).flatten.length - l.length
          = (List.take j ls).flatten.length := by omega
      rw [List.drop_eq_nil_of_le (by omega), List.nil_append, e1]
      exact this

theorem flatten_take_le {β : Type} (ls : List (List β)) (j : Nat) :
    (ls.take j).flatten.length ≤ ls.flatten.length := by
  conv_rhs => rw [← List.take_append_drop j ls]
  simp only [List.flatten_append, List.length_append]
  omega

theorem flatten_take_succ {β : Type} (ls : List (List β)) (j : Nat) (hj : j < ls.length) :
    (ls.take (j + 1)).flatten.length = (ls.take j).flatten.length + (ls.getD j []).length := by
  induction ls generalizing j with
  | nil => simp at hj
  | cons l ls ih =>
    cases j with
    | zero => simp
    | succ j =>
      have hj' : j < ls.length := by simpa using hj
      simp only [List.take_succ_cons, List.flatten_cons, List.length_append, List.getD_cons_succ]
      rw [ih j hj']
      omega

/-- The slices `indices(j)` and `mask(j)` of a lookup whose flat arrays were copied
from the per-job lists `ls` are the two components of list `j`. -/
theorem lookup_slices (jobs : JobList) (ls : List (List (Nat × Bool))) (j : Nat)
    (hj : j < ls.length) :
    ReflectionLookup.indices ⟨jobs, 0 :: ReflectionLookup.running_sum 0 (ls.map List.length),
        ls.flatten.map Prod.fst, ls.flatten.map Prod.snd⟩ j
      = some ((ls.getD j []).map Prod.fst)
    ∧ ReflectionLookup.mask ⟨jobs, 0 :: ReflectionLookup.running_sum 0 (ls.map List.length),
        ls.flatten.map Prod.fst, ls.flatten.map Prod.snd⟩ j
      = some ((ls.getD j []).map Prod.snd) := by
  have h0 := running_sum_getD ls 0 j (by omega)
  have h1 := running_sum_getD ls 0 (j + 1) (by omega)
  have h2 := flatten_take_succ ls j hj
  have h3 := flatten_take_le ls (j + 1)
  have h4 := flatten_slice ls j hj
  simp only [Nat.zero_add] at h0 h1
  have hlen : (0 :: ReflectionLookup.running_sum 0 (ls.map List.length)).length - 1
      = ls.length := by
    simp [running_sum_length]
  constructor
  · unfold ReflectionLookup.indices
    simp only [hlen, hj, h0, h1, h2, List.length_map, not_true_eq_false, if_false, ge_iff_le,
      Nat.le_add_right, Nat.add_sub_cancel_left]
    rw [if_neg (by omega)]
    rw [← List.map_drop, ← List.map_take, h4]
  · unfold ReflectionLookup.mask
    simp only [hlen, hj, h0, h1, h2, List.length_map, not_true_eq_false, if_false, ge_iff_le,
      Nat.le_add_right, Nat.add_sub_cancel_left]
    rw [if_neg (by omega)]
    rw [← List.map_drop, ← List.map_take, h4]

/-- Beyond the last job both slices fail. -/
theorem lookup_slices_none (jobs : JobList) (ls : List (List (Nat × Bool))) (j : Nat)
    (hj : ¬ j < ls.length) :
    ReflectionLookup.indices ⟨jobs, 0 :: ReflectionLookup.running_sum 0 (ls.map List.length),
        ls.flatten.map Prod.fst, ls.flatten.map Prod.snd⟩ j = none
    ∧ ReflectionLookup.mask ⟨jobs, 0 :: ReflectionLookup.running_sum 0 (ls.map List.length),
        ls.flatten.map Prod.fst, ls.flatten.map Prod.snd⟩ j = none := by
  have hlen : (0 :: ReflectionLookup.running_sum 0 (ls.map List.length)).length - 1
      = ls.length := by
    simp [running_sum_length]
  constructor
  · unfold ReflectionLookup.indices
    simp only [hlen, hj, not_false_eq_true, if_true]
  · unfold ReflectionLookup.mask
    simp only [hlen, hj, not_false_eq_true, if_true]

/-- What a successful construction of the lookup went through. -/
theorem make_some (af : Flags) (id flags : List Nat) (bbox : List int6) (jobs : JobList)
    (lk : ReflectionLookup) (h : ReflectionLookup.make af id flags bbox jobs = some lk) :
    ∃ (lookup : ReflectionLookup.JobRangeLookup) (ls : List (List (Nat × Bool)))
      (first_job last_job : JobList.Job),
      jobs.size > 0
      ∧ jobs.jobs_.head? = some first_job ∧ jobs.jobs_.getLast? = some last_job
      ∧ (∀ b ∈ bbox, b.z1 > b.z0 ∧ b.z0 ≥ first_job.frames_.1 ∧ b.z1 ≤ last_job.frames_.2)
      ∧ ReflectionLookup.JobRangeLookup.make jobs = some lookup
      ∧ ReflectionLookup.records_loop af jobs lookup id flags bbox bbox.length 0
          (List.replicate jobs.size []) = some ls
      ∧ (∀ k ∈ ls.flatten.map Prod.fst, k < bbox.length)
      ∧ lk = ⟨jobs, 0 :: ReflectionLookup.running_sum 0 (ls.map List.length),
          ls.flatten.map Prod.fst, ls.flatten.map Prod.snd⟩ := by
  unfold ReflectionLookup.make at h
  by_cases hsize : jobs.size > 0
  swap
  · rw [if_pos hsize] at h; exact absurd h (by simp)
  rw [if_neg (not_not.mpr hsize)] at h
  cases hhead : jobs.jobs_.head? with
  | none => simp [hhead] at h
  | some first_job =>
    cases hlast : jobs.jobs_.getLast? with
    | none => simp [hhead, hlast] at h
    | some last_job =>
      simp only [hhead, hlast] at h
      by_cases hfr : last_job.frames_.2 > first_job.frames_.1
      swap
      · rw [if_pos hfr] at h; exact absurd h (by simp)
      rw [if_neg (not_not.mpr hfr)] at h
      split at h
      · exact absurd h (by simp)
      rename_i hbox
      cases hlookup : ReflectionLookup.JobRangeLookup.make jobs with
      | none => simp [hlookup] at h
      | some lookup =>
        simp only [hlookup] at h
        cases hls : ReflectionLookup.records_loop af jobs lookup id flags bbox bbox.length 0
            (List.replicate jobs.size []) with
        | none => simp [hls] at h
        | some ls =>
          simp only [hls] at h
          split at h
          · exact absurd h (by simp)
          rename_i hall
          simp only [Option.some.injEq] at h
          refine ⟨lookup, ls, first_job, last_job, hsize, rfl, rfl, ?_, rfl, hls, ?_, h.symm⟩
          · intro b hb
            simp only [not_not, List.all_eq_true, Bool.and_eq_true, decide_eq_true_eq] at hbox
            have := hbox b hb
            exact ⟨this.1.1.2, this.1.2, this.2⟩
          · intro k hk
            simp only [not_not, List.all_eq_true, decide_eq_true_eq] at hall
            exact hall k hk

/-! ### The scan over the candidate jobs -/

theorem push_back_length (indices : List (List (Nat × Bool))) (j : Nat) (e : Nat × Bool) :
    (ReflectionLookup.push_back indices j e).length = indices.length := by
  simp [ReflectionLookup.push_back]

theorem push_back_getD (indices : List (List (Nat × Bool))) (j : Nat) (e : Nat × Bool)
    (hj : j < indices.length) (k : Nat) :
    (ReflectionLookup.push_back indices j e).getD k []
      = indices.getD k [] ++ (if k = j then [e] else []) := by
  unfold ReflectionLookup.push_back
  simp only [List.getD_eq_getElem?_getD, List.getElem?_set]
  by_cases hk : k = j
  · subst hk
    simp [hj]
  · have : ¬ j = k := fun h => hk h.symm
    simp [hk, this]

theorem owner_unique (jobs : JobList) (lo hi : Nat) (z0 z1 : Int) (a b : Nat)
    (ha : ReflectionLookup.Owner jobs lo hi z0 z1 a)
    (hb : ReflectionLookup.Owner jobs lo hi z0 z1 b) : a = b := by
  obtain ⟨a1, a2, a3, a4⟩ := ha
  obtain ⟨b1, b2, b3, b4⟩ := hb
  obtain ⟨x1, x2⟩ := a4 b b1 b2 b3
  obtain ⟨y1, y2⟩ := b4 a a1 a2 a3
  have e : jobs.dist2_at a z0 z1 = jobs.dist2_at b z0 z1 := le_antisymm x1 y1
  have := x2 e.symm
  have := y2 e
  omega

/-- One more job visited: the selection after job `j` from the selection before. -/
theorem selected_step (jobs : JobList) (lo j : Nat) (z0 z1 : Int) (st : ReflectionLookup.Scan)
    (indices : List (List (Nat × Bool))) (hlo : lo ≤ j)
    (hsel : ReflectionLookup.Scan.Selected jobs lo j z0 z1 st) :
    (jobs.contains_at j z0 z1 = false →
      ReflectionLookup.Scan.Selected jobs lo (j + 1) z0 z1 st)
    ∧ (jobs.contains_at j z0 z1 = true →
        (¬ st.inside ∨ jobs.dist2_at j z0 z1 < st.dmin) →
        ReflectionLookup.Scan.Selected jobs lo (j + 1) z0 z1
          ⟨indices, j, jobs.dist2_at j z0 z1, true⟩)
    ∧ (jobs.contains_at j z0 z1 = true →
        ¬ (¬ st.inside ∨ jobs.dist2_at j z0 z1 < st.dmin) →
        ReflectionLookup.Scan.Selected jobs lo (j + 1) z0 z1
          ⟨indices, st.jmin, st.dmin, st.inside⟩) := by
  obtain ⟨s1, s2⟩ := hsel
  refine ⟨?_, ?_, ?_⟩
  · intro hc
    refine ⟨?_, ?_⟩
    · intro hin
      obtain ⟨⟨o1, o2, o3, o4⟩, o5⟩ := s1 hin
      refine ⟨⟨o1, by omega, o3, ?_⟩, o5⟩
      intro k hk1 hk2 hk3
      by_cases hkj : k = j
      · subst hkj; rw [hc] at hk3; exact absurd hk3 (by simp)
      · exact o4 k hk1 (by omega) hk3
    · intro hin k hk1 hk2
      by_cases hkj : k = j
      · subst hkj; exact hc
      · exact s2 hin k hk1 (by omega)
  · intro hc hbetter
    refine ⟨?_, ?_⟩
    · intro _
      refine ⟨⟨hlo, by simp, hc, ?_⟩, rfl⟩
      intro k hk1 hk2 hk3
      simp only
      by_cases hkj : k = j
      · subst hkj; exact ⟨le_refl _, fun _ => le_refl _⟩
      · cases hin : st.inside with
        | false =>
          have := s2 hin k hk1 (by omega)
          rw [this] at hk3; exact absurd hk3 (by simp)
        | true =>
          obtain ⟨⟨o1, o2, o3, o4⟩, o5⟩ := s1 hin
          have hd : jobs.dist2_at j z0 z1 < st.dmin := by
            rcases hbetter with h | h
            · rw [hin] at h; exact absurd rfl h
            · exact h
          obtain ⟨p1, p2⟩ := o4 k hk1 (by omega) hk3
          constructor
          · omega
          · intro heq; omega
    · intro h; exact absurd h (by simp)
  · intro hc hnot
    have hin : st.inside = true := by
      by_contra hne
      exact hnot (Or.inl hne)
    have hd : st.dmin ≤ jobs.dist2_at j z0 z1 := by
      by_contra hne
      exact hnot (Or.inr (by omega))
    refine ⟨?_, ?_⟩
    · intro _
      obtain ⟨⟨o1, o2, o3, o4⟩, o5⟩ := s1 hin
      refine ⟨⟨o1, by simp only; omega, o3, ?_⟩, o5⟩
      intro k hk1 hk2 hk3
      simp only
      by_cases hkj : k = j
      · subst hkj
        exact ⟨by omega, fun _ => by omega⟩
      · exact o4 k hk1 (by omega) hk3
    · intro h; simp only at h; rw [hin] at h; exact absurd h (by simp)

theorem contains_at_eq (jobs : JobList) (k : Nat) (z0 z1 : Int) (job : JobList.Job)
    (h : jobs.jobs_[k]? = some job) :
    jobs.contains_at k z0 z1 = (decide (z0 ≥ job.frames_.1) && decide (z1 ≤ job.frames_.2)) := by
  unfold JobList.contains_at
  rw [h]

theorem dist2_at_eq (jobs : JobList) (k : Nat) (z0 z1 : Int) (job : JobList.Job)
    (h : jobs.jobs_[k]? = some job) :
    jobs.dist2_at k z0 z1
      = |to_int (z1 + z0) - to_int (job.frames_.2 + job.frames_.1)| := by
  unfold JobList.dist2_at
  rw [h]

/-- The scan from job `j` over `count` jobs that all exist: it returns; a reference
spot has been appended, not owned, to every visited job that contains the
extent; and the selection has advanced over the visited jobs. -/
theorem scan_loop_spec (af : Flags) (jobs : JobList) (index : Nat) (z0 z1 : Int) (f : Nat) :
    ∀ (count j : Nat) (st : ReflectionLookup.Scan),
      j + count ≤ jobs.size → st.indices.length = jobs.size →
      ∃ st', ReflectionLookup.scan_loop af jobs index z0 z1 f count j st = some st'
        ∧ st'.indices.length = jobs.size
        ∧ (∀ k, st'.indices.getD k [] = st.indices.getD k []
            ++ (if f &&& af.ReferenceSpot ≠ 0 ∧ j ≤ k ∧ k < j + count
                  ∧ jobs.contains_at k z0 z1 = true then [(index, false)] else []))
        ∧ (∀ lo, lo ≤ j → ReflectionLookup.Scan.Selected jobs lo j z0 z1 st →
            ReflectionLookup.Scan.Selected jobs lo (j + count) z0 z1 st') := by
  intro count
  induction count with
  | zero =>
    intro j st _ hlen
    refine ⟨st, rfl, hlen, ?_, fun lo _ h => h⟩
    intro k
    have : ¬ (f &&& af.ReferenceSpot ≠ 0 ∧ j ≤ k ∧ k < j + 0
        ∧ jobs.contains_at k z0 z1 = true) := by
      intro h; omega
    rw [if_neg this, List.append_nil]
  | succ c ih =>
    intro j st hj hlen
    have hjs : j < jobs.jobs_.length := by unfold JobList.size at hj; omega
    have hjob : jobs.jobs_[j]? = some jobs.jobs_[j] := List.getElem?_eq_getElem hjs
    have hc := contains_at_eq jobs j z0 z1 _ hjob
    have hd := dist2_at_eq jobs j z0 z1 _ hjob
    obtain ⟨st1, hstep, h1, h2, h3⟩ : ∃ st1 : ReflectionLookup.Scan,
        ReflectionLookup.scan_loop af jobs index z0 z1 f (c + 1) j st
          = ReflectionLookup.scan_loop af jobs index z0 z1 f c (j + 1) st1
        ∧ st1.indices.length = jobs.size
        ∧ (∀ k, st1.indices.getD k [] = st.indices.getD k []
            ++ (if f &&& af.ReferenceSpot ≠ 0 ∧ k = j
                  ∧ jobs.contains_at j z0 z1 = true then [(index, false)] else []))
        ∧ (∀ lo, lo ≤ j → ReflectionLookup.Scan.Selected jobs lo j z0 z1 st →
            ReflectionLookup.Scan.Selected jobs lo (j + 1) z0 z1 st1) := by
      simp only [ReflectionLookup.scan_loop, hjob]
      by_cases hcon : z0 ≥ (jobs.jobs_[j]).frames_.1 ∧ z1 ≤ (jobs.jobs_[j]).frames_.2
      · have hct : jobs.contains_at j z0 z1 = true := by
          rw [hc]; simp [hcon.1, hcon.2]
        rw [if_pos hcon, ← hd]
        have hlen1 : (if f &&& af.ReferenceSpot ≠ 0 then
            ReflectionLookup.push_back st.indices j (index, false) else st.indices).length
            = jobs.size := by
          split_ifs
          · rw [push_back_length, hlen]
          · exact hlen
        have hget1 : ∀ k, (if f &&& af.ReferenceSpot ≠ 0 then
            ReflectionLookup.push_back st.indices j (index, false) else st.indices).getD k []
            = st.indices.getD k [] ++ (if f &&& af.ReferenceSpot ≠ 0 ∧ k = j
                  ∧ jobs.contains_at j z0 z1 = true then [(index, false)] else []) := by
          intro k
          by_cases hr : f &&& af.ReferenceSpot ≠ 0
          · rw [if_pos hr, push_back_getD _ _ _ (by rw [hlen]; exact hjs)]
            by_cases hk : k = j
            · rw [if_pos hk, if_pos ⟨hr, hk, hct⟩]
            · rw [if_neg hk, if_neg (fun h => hk h.2.1)]
          · rw [if_neg hr, if_neg (fun h => hr h.1), List.append_nil]
        by_cases hb : ¬ st.inside ∨ jobs.dist2_at j z0 z1 < st.dmin
        · rw [if_pos hb]
          exact ⟨_, rfl, hlen1, hget1, fun lo hlo hsel =>
            (selected_step jobs lo j z0 z1 st _ hlo hsel).2.1 hct hb⟩
        · rw [if_neg hb]
          exact ⟨_, rfl, hlen1, hget1, fun lo hlo hsel =>
            (selected_step jobs lo j z0 z1 st _ hlo hsel).2.2 hct hb⟩
      · have hcf : jobs.contains_at j z0 z1 = false := by
          rw [hc]
          by_cases ha : z0 ≥ (jobs.jobs_[j]).frames_.1
          · have : ¬ z1 ≤ (jobs.jobs_[j]).frames_.2 := fun h => hcon ⟨ha, h⟩
            simp [this]
          · simp [ha]
        rw [if_neg hcon]
        refine ⟨st, rfl, hlen, ?_, fun lo hlo hsel =>
          (selected_step jobs lo j z0 z1 st st.indices hlo hsel).1 hcf⟩
        intro k
        rw [if_neg (fun h => by rw [hcf] at h; exact absurd h.2.2 (by simp)), List.append_nil]
    obtain ⟨st', g0, g1, g2, g3⟩ := ih (j + 1) st1 (by omega) h1
    refine ⟨st', by rw [hstep, g0], g1, ?_, ?_⟩
    · intro k
      rw [g2 k, h2 k, List.append_assoc]
      congr 1
      by_cases hk : k = j
      · subst hk
        have hn : ¬ (f &&& af.ReferenceSpot ≠ 0 ∧ k + 1 ≤ k ∧ k < k + 1 + c
            ∧ jobs.contains_at k z0 z1 = true) := by intro h; omega
        rw [if_neg hn, List.append_nil]
        by_cases hq : f &&& af.ReferenceSpot ≠ 0 ∧ jobs.contains_at k z0 z1 = true
        · rw [if_pos ⟨hq.1, rfl, hq.2⟩, if_pos ⟨hq.1, le_refl _, by omega, hq.2⟩]
        · rw [if_neg (fun h => hq ⟨h.1, h.2.2⟩), if_neg (fun h => hq ⟨h.1, h.2.2.2⟩)]
      · rw [if_neg (fun h => hk h.2.1), List.nil_append]
        by_cases hq : f &&& af.ReferenceSpot ≠ 0 ∧ j + 1 ≤ k ∧ k < j + 1 + c
            ∧ jobs.contains_at k z0 z1 = true
        · rw [if_pos hq, if_pos ⟨hq.1, by omega, by omega, hq.2.2.2⟩]
        · rw [if_neg hq, if_neg (fun h => hq ⟨h.1, by omega, by omega, h.2.2.2⟩)]
    · intro lo hlo hsel
      have := g3 lo (by omega) (h3 lo hlo hsel)
      have e : j + 1 + c = j + (c + 1) := by omega
      rw [e] at this
      exact this

/-! ### One record -/

theorem of_guard {β : Type} {c : Prop} [Decidable c] {x : Option β} {y : β}
    (h : (if ¬ c then none else x) = some y) : c ∧ x = some y := by
  by_cases hc : c
  · rw [if_neg (not_not.mpr hc)] at h; exact ⟨hc, h⟩
  · rw [if_pos hc] at h; exact absurd h (by simp)

theorem set_getD {β : Type} (l : List (List β)) (j : Nat) (v : List β) (hj : j < l.length)
    (k : Nat) : (l.set j v).getD k [] = if k = j then v else l.getD k [] := by
  simp only [List.getD_eq_getElem?_getD, List.getElem?_set]
  by_cases hk : k = j
  · subst hk; simp [hj]
  · have : ¬ j = k := fun h => hk h.symm
    simp [hk, this]

/-- The effect of the loop body for one record on the per-job lists: each list gains
at most one entry, an entry of this record, exactly as `Listed` says. -/
theorem record_step_spec (af : Flags) (jobs : JobList)
    (lookup : ReflectionLookup.JobRangeLookup) (index eid : Nat) (z0 z1 : Int) (f : Nat)
    (indices indices' : List (List (Nat × Bool))) (hlen : indices.length = jobs.size)
    (h : ReflectionLookup.record_step af jobs lookup index eid z0 z1 f indices = some indices') :
    indices'.length = jobs.size
    ∧ (f &&& af.DontIntegrate = 0 →
        ∃ k, ReflectionLookup.Listed af jobs lookup eid z0 z1 f k true)
    ∧ ∀ k, ∃ extra : List (Nat × Bool),
        indices'.getD k [] = indices.getD k [] ++ extra ∧ extra.length ≤ 1
        ∧ ∀ e, e ∈ extra ↔ (e.1 = index
            ∧ ReflectionLookup.Listed af jobs lookup eid z0 z1 f k e.2) := by
  unfold ReflectionLookup.record_step at h
  by_cases hdi : f &&& af.DontIntegrate ≠ 0
  · rw [if_neg (not_not.mpr hdi)] at h
    simp only [Option.some.injEq] at h
    subst h
    refine ⟨hlen, fun h0 => absurd h0 hdi, fun k => ⟨[], by simp, by simp, ?_⟩⟩
    intro e
    constructor
    · intro he; simp at he
    · intro he; exact absurd he.2.1 hdi
  · rw [if_pos hdi] at h
    have hdi0 : f &&& af.DontIntegrate = 0 := not_not.mp hdi
    cases hfirst : lookup.first eid z0 with
    | none => simp [hfirst] at h
    | some j0 =>
      cases hlast : lookup.last eid (z1 - 1) with
      | none => simp [hfirst, hlast] at h
      | some j1 =>
        simp only [hfirst, hlast] at h
        obtain ⟨a1, h⟩ := of_guard h
        obtain ⟨a2, h⟩ := of_guard h
        obtain ⟨a3, h⟩ := of_guard h
        obtain ⟨_, h⟩ := of_guard h
        obtain ⟨_, h⟩ := of_guard h
        obtain ⟨st, g0, g1, g2, g3⟩ := scan_loop_spec af jobs index z0 z1 f (j1 + 1 - j0) j0
          ⟨indices, 0, 0, false⟩ (by omega) hlen
        have e1 : j0 + (j1 + 1 - j0) = j1 + 1 := by omega
        rw [e1] at g2 g3
        have hsel := g3 j0 (le_refl _)
          ⟨fun hh => absurd hh (by simp), fun _ k hk1 hk2 => by omega⟩
        simp only [g0] at h
        cases hjob : jobs.jobs_[st.jmin]? with
        | none => simp [hjob] at h
        | some job =>
          simp only [hjob] at h
          obtain ⟨hin, h⟩ := of_guard h
          obtain ⟨_, h⟩ := of_guard h
          obtain ⟨hown, _⟩ := hsel.1 hin
          have hjm : st.jmin < st.indices.length := by
            rw [g1]; have := hown.2.1; omega
          have key : ∀ k, indices'.getD k [] = indices.getD k []
              ++ (if k = st.jmin then [(index, true)]
                  else if f &&& af.ReferenceSpot ≠ 0 ∧ j0 ≤ k ∧ k < j1 + 1
                    ∧ jobs.contains_at k z0 z1 = true then [(index, false)] else [])
              ∧ indices'.length = jobs.size := by
            intro k
            by_cases hr : f &&& af.ReferenceSpot ≠ 0
            · rw [if_pos hr] at h
              have hback : st.indices.getD st.jmin []
                  = indices.getD st.jmin [] ++ [(index, false)] := by
                rw [g2 st.jmin, if_pos ⟨hr, hown.1, hown.2.1, hown.2.2.1⟩]
              rw [hback, List.getLast?_concat] at h
              simp only [List.dropLast_concat] at h
              obtain ⟨_, h⟩ := of_guard h
              simp only [Option.some.injEq] at h
              subst h
              refine ⟨?_, by rw [List.length_set, g1]⟩
              rw [set_getD _ _ _ hjm]
              by_cases hk : k = st.jmin
              · simp only [if_pos hk]; rw [hk]
              · simp only [if_neg hk]; rw [g2 k]
            · rw [if_neg hr] at h
              simp only [Option.some.injEq] at h
              subst h
              refine ⟨?_, by rw [push_back_length, g1]⟩
              rw [push_back_getD _ _ _ hjm, g2 k, if_neg (fun hh => hr hh.1), List.append_nil]
          refine ⟨(key 0).2, fun _ => ⟨st.jmin, hdi0, j0, j1, st.jmin, hfirst, hlast, hown,
            Or.inl ⟨rfl, rfl⟩⟩, fun k => ⟨_, (key k).1, ?_, ?_⟩⟩
          · split_ifs <;> simp
          · intro e
            constructor
            · intro he
              by_cases hk : k = st.jmin
              · rw [if_pos hk] at he
                simp only [List.mem_singleton] at he
                subst he
                exact ⟨rfl, hdi0, j0, j1, st.jmin, hfirst, hlast, hown, Or.inl ⟨hk, rfl⟩⟩
              · rw [if_neg hk] at he
                by_cases hq : f &&& af.ReferenceSpot ≠ 0 ∧ j0 ≤ k ∧ k < j1 + 1
                    ∧ jobs.contains_at k z0 z1 = true
                · rw [if_pos hq] at he
                  simp only [List.mem_singleton] at he
                  subst he
                  exact ⟨rfl, hdi0, j0, j1, st.jmin, hfirst, hlast, hown,
                    Or.inr ⟨hk, rfl, hq.1, hq.2.1, by omega, hq.2.2.2⟩⟩
                · rw [if_neg hq] at he
                  simp at he
            · rintro ⟨he1, _, j0', j1', jmin', hf', hl', hown', hcase⟩
              rw [hfirst] at hf'
              rw [hlast] at hl'
              simp only [Option.some.injEq] at hf' hl'
              subst hf' hl'
              have hu := owner_unique jobs _ _ z0 z1 _ _ hown hown'
              subst hu
              rcases hcase with ⟨c1, c2⟩ | ⟨c1, c2, c3, c4, c5, c6⟩
              · rw [if_pos c1]
                simp only [List.mem_singleton]
                exact Prod.ext he1 c2
              · rw [if_neg c1, if_pos ⟨c3, c4, by omega, c6⟩]
                simp only [List.mem_singleton]
                exact Prod.ext he1 c2

/-! ### All records -/

theorem pairwise_of_length_le_one {β : Type} (R : β → β → Prop) (l : List β)
    (h : l.length ≤ 1) : l.Pairwise R := by
  match l, h with
  | [], _ => exact List.Pairwise.nil
  | [a], _ => exact List.pairwise_singleton R a
  | _ :: _ :: _, h => simp at h

/-- The loop over the records `index ≤ i < index + count`: each per-job list gains the
entries of these records that `ListedRecord` names, in increasing record order. -/
theorem records_loop_spec (af : Flags) (jobs : JobList)
    (lookup : ReflectionLookup.JobRangeLookup) (id flags : List Nat) (bbox : List int6) :
    ∀ (count index : Nat) (indices ls : List (List (Nat × Bool))),
      indices.length = jobs.size →
      ReflectionLookup.records_loop af jobs lookup id flags bbox count index indices = some ls →
      ls.length = jobs.size
      ∧ (∀ i, index ≤ i → i < index + count → flags.getD i 0 &&& af.DontIntegrate = 0 →
          ∃ k, ReflectionLookup.ListedRecord af jobs lookup id flags bbox i k true)
      ∧ ∀ j, ∃ extra : List (Nat × Bool),
          ls.getD j [] = indices.getD j [] ++ extra
          ∧ extra.Pairwise (fun a b => a.1 < b.1)
          ∧ ∀ e, e ∈ extra ↔ (index ≤ e.1 ∧ e.1 < index + count
              ∧ ReflectionLookup.ListedRecord af jobs lookup id flags bbox e.1 j e.2) := by
  intro count
  induction count with
  | zero =>
    intro index indices ls hlen h
    simp only [ReflectionLookup.records_loop, Option.some.injEq] at h
    subst h
    refine ⟨hlen, fun i h1 h2 => by omega, fun j => ⟨[], by simp, List.Pairwise.nil, ?_⟩⟩
    intro e
    constructor
    · intro he; simp at he
    · intro he; omega
  | succ c ih =>
    intro index indices ls hlen h
    rw [ReflectionLookup.records_loop] at h
    cases hstep : ReflectionLookup.record_step af jobs lookup index (id.getD index 0)
        ((bbox.map (fun b => b.z0)).getD index 0) ((bbox.map (fun b => b.z1)).getD index 0)
        (flags.getD index 0) indices with
    | none => rw [hstep] at h; exact absurd h (by simp)
    | some mid =>
      simp only [hstep] at h
      obtain ⟨m1, m3, m2⟩ := record_step_spec af jobs lookup index _ _ _ _ indices mid hlen hstep
      obtain ⟨r1, r3, r2⟩ := ih (index + 1) mid ls m1 h
      refine ⟨r1, ?_, fun j => ?_⟩
      · intro i hi1 hi2 hdi
        by_cases hii : i = index
        · subst hii
          exact m3 hdi
        · exact r3 i (by omega) (by omega) hdi
      obtain ⟨x1, hx1, hx2, hx3⟩ := m2 j
      obtain ⟨x2, hy1, hy2, hy3⟩ := r2 j
      refine ⟨x1 ++ x2, by rw [hy1, hx1, List.append_assoc], ?_, ?_⟩
      · rw [List.pairwise_append]
        refine ⟨pairwise_of_length_le_one _ _ hx2, hy2, ?_⟩
        intro a ha b hb
        have := ((hx3 a).1 ha).1
        have := ((hy3 b).1 hb).1
        omega
      · intro e
        rw [List.mem_append, hx3 e, hy3 e]
        constructor
        · rintro (⟨a1, a2⟩ | ⟨a1, a2, a3⟩)
          · refine ⟨by omega, by omega, ?_⟩
            unfold ReflectionLookup.ListedRecord
            rw [a1]; exact a2
          · exact ⟨by omega, by omega, a3⟩
        · rintro ⟨a1, a2, a3⟩
          by_cases hei : e.1 = index
          · left
            refine ⟨hei, ?_⟩
            unfold ReflectionLookup.ListedRecord at a3
            rw [hei] at a3; exact a3
          · right
            exact ⟨by omega, by omega, a3⟩

theorem zip_map_fst_snd {β γ : Type} (l : List (β × γ)) :
    (l.map Prod.fst).zip (l.map Prod.snd) = l := by
  induction l with
  | nil => rfl
  | cons a l ih => simp [ih]

/-- The lists of a lookup that was built: the entries of job `j` are those that
`ListedRecord` names, in strictly increasing record order; `indices` and `mask`
succeed on every job and have their two components; past the last job there
is no list. -/
theorem lookup_entries (af : Flags) (id flags : List Nat) (bbox : List int6) (jobs : JobList)
    (lk : ReflectionLookup) (h : ReflectionLookup.make af id flags bbox jobs = some lk) :
    ∃ lookup : ReflectionLookup.JobRangeLookup,
      ReflectionLookup.JobRangeLookup.make jobs = some lookup
      ∧ lk.jobs_ = jobs ∧ 0 < jobs.size
      ∧ (∀ j, j < jobs.size →
          lk.indices j = some ((lk.entries j).map Prod.fst)
          ∧ lk.mask j = some ((lk.entries j).map Prod.snd))
      ∧ (∀ j, ¬ j < jobs.size → lk.indices j = none ∧ lk.mask j = none ∧ lk.entries j = [])
      ∧ (∀ j, (lk.entries j).Pairwise (fun a b => a.1 < b.1))
      ∧ (∀ j, j < jobs.size → ∀ e, e ∈ lk.entries j ↔ (e.1 < bbox.length
          ∧ ReflectionLookup.ListedRecord af jobs lookup id flags bbox e.1 j e.2))
      ∧ (∀ j, ∀ e ∈ lk.entries j, e.1 < bbox.length)
      ∧ (∀ i, i < bbox.length → flags.getD i 0 &&& af.DontIntegrate = 0 →
          ∃ k, ReflectionLookup.ListedRecord af jobs lookup id flags bbox i k true) := by
  obtain ⟨lookup, ls, fj, lj, h1, _, _, _, h5, h6, h7, h8⟩ :=
    make_some af id flags bbox jobs lk h
  obtain ⟨r1, r3, r2⟩ := records_loop_spec af jobs lookup id flags bbox bbox.length 0
    (List.replicate jobs.size []) ls (by simp) h6
  have hrep : ∀ j, (List.replicate jobs.size ([] : List (Nat × Bool))).getD j [] = [] := by
    intro j
    rw [List.getD_eq_getElem?_getD, List.getElem?_replicate]
    split_ifs <;> rfl
  have hent : ∀ j, j < jobs.size → lk.entries j = ls.getD j [] := by
    intro j hj
    have := lookup_slices jobs ls j (by rw [r1]; exact hj)
    unfold ReflectionLookup.entries
    rw [h8, this.1, this.2]
    exact zip_map_fst_snd _
  have hnone : ∀ j, ¬ j < jobs.size → lk.indices j = none ∧ lk.mask j = none
      ∧ lk.entries j = [] := by
    intro j hj
    have := lookup_slices_none jobs ls j (by rw [r1]; exact hj)
    rw [h8]
    refine ⟨this.1, this.2, ?_⟩
    unfold ReflectionLookup.entries
    rw [this.1]
  have hchar : ∀ j, j < jobs.size → (lk.entries j).Pairwise (fun a b => a.1 < b.1)
      ∧ ∀ e, e ∈ lk.entries j ↔ (e.1 < bbox.length
          ∧ ReflectionLookup.ListedRecord af jobs lookup id flags bbox e.1 j e.2) := by
    intro j hj
    obtain ⟨extra, e1, e2, e3⟩ := r2 j
    rw [hrep j, List.nil_append] at e1
    rw [hent j hj, e1]
    refine ⟨e2, fun e => ?_⟩
    rw [e3 e]
    constructor
    · rintro ⟨_, a2, a3⟩; exact ⟨by omega, a3⟩
    · rintro ⟨a2, a3⟩; exact ⟨by omega, by omega, a3⟩
  refine ⟨lookup, h5, by rw [h8], h1, ?_, hnone, ?_, fun j hj => (hchar j hj).2, ?_,
    fun i hi hdi => r3 i (by omega) (by omega) hdi⟩
  · intro j hj
    have := lookup_slices jobs ls j (by rw [r1]; exact hj)
    rw [hent j hj]
    rw [h8]
    exact this
  · intro j
    by_cases hj : j < jobs.size
    · exact (hchar j hj).1
    · rw [(hnone j hj).2.2]; exact List.Pairwise.nil
  · intro j e he
    by_cases hj : j < jobs.size
    · exact (((hchar j hj).2 e).1 he).1
    · rw [(hnone j hj).2.2] at he; simp at he

/-! ### The sweeps of `JobRangeLookup` -/

theorem set_getD_nat (l : List Nat) (i v k : Nat) :
    (l.set i v).getD k 0 = if k = i ∧ i < l.length then v else l.getD k 0 := by
  simp only [List.getD_eq_getElem?_getD, List.getElem?_set]
  by_cases hk : k = i
  · subst hk
    by_cases hl : k < l.length
    · simp [hl]
    · have : l[k]? = none := List.getElem?_eq_none (by omega)
      simp [hl, this]
  · have : ¬ i = k := fun h => hk h.symm
    simp [hk, this]

theorem to_size_t_of_nonneg (x : Int) (h0 : 0 ≤ x) (h1 : x < 18446744073709551616) :
    to_size_t x = x.toNat := by
  unfold to_size_t
  rw [Int.emod_eq_of_lt h0 h1]

theorem fill0_length (off0 : Nat) (frame0 : Int) (i : Nat) :
    ∀ (count : Nat) (frame : Int) (l : List Nat),
      (ReflectionLookup.JobRangeLookup.fill0 off0 frame0 i count frame l).length = l.length := by
  intro count
  induction count with
  | zero => intro frame l; rfl
  | succ c ih =>
    intro frame l
    simp only [ReflectionLookup.JobRangeLookup.fill0]
    rw [ih, List.length_set]

/-- The inner loop of the upward sweep writes `i` to the cells of the frames
`frame ≤ f < frame + count` and leaves the other cells. -/
theorem fill0_spec (off0 : Nat) (frame0 : Int) (i : Nat) :
    ∀ (count : Nat) (frame : Int) (l : List Nat),
      0 ≤ (off0 : Int) + frame - frame0 →
      (off0 : Int) + frame - frame0 + (count : Int) ≤ (l.length : Int) →
      l.length < 18446744073709551616 →
      ∀ p, (ReflectionLookup.JobRangeLookup.fill0 off0 frame0 i count frame l).getD p 0
        = if ((off0 : Int) + frame - frame0).toNat ≤ p
            ∧ p < ((off0 : Int) + frame - frame0).toNat + count then i else l.getD p 0 := by
  intro count
  induction count with
  | zero =>
    intro frame l _ _ _ p
    simp only [ReflectionLookup.JobRangeLookup.fill0]
    rw [if_neg (by omega)]
  | succ c ih =>
    intro frame l h0 h1 h2 p
    simp only [ReflectionLookup.JobRangeLookup.fill0]
    have e : to_size_t ((off0 : Int) + frame - frame0) = ((off0 : Int) + frame - frame0).toNat :=
      to_size_t_of_nonneg _ h0 (by omega)
    rw [ih (frame + 1) _ (by omega) (by rw [List.length_set]; push_cast at h1 ⊢; omega)
      (by rw [List.length_set]; exact h2) p, set_getD_nat, e]
    have e2 : ((off0 : Int) + (frame + 1) - frame0).toNat
        = ((off0 : Int) + frame - frame0).toNat + 1 := by omega
    rw [e2]
    by_cases hp : p = ((off0 : Int) + frame - frame0).toNat
    · rw [if_neg (by omega), if_pos ⟨hp, by omega⟩, if_pos (by omega)]
    · by_cases hq : ((off0 : Int) + frame - frame0).toNat + 1 ≤ p
          ∧ p < ((off0 : Int) + frame - frame0).toNat + 1 + c
      · rw [if_pos hq, if_pos (by omega)]
      · rw [if_neg hq, if_neg (fun h => hp h.1), if_neg (by omega)]

/-- The upward sweep from job `i` over `count` jobs, started at `frame`: the cell of
every frame `f` it passes holds a job `m` of the sweep whose window contains
`f`, and every swept job before `m` ends at or before `f`. -/
theorem sweep0_spec (jobs : JobList) (off0 : Nat) (frame0 : Int) :
    ∀ (count i : Nat) (frame : Int) (l : List Nat) (frame' : Int) (l' : List Nat),
      0 ≤ (off0 : Int) + frame - frame0 → l.length < 18446744073709551616 →
      ReflectionLookup.JobRangeLookup.sweep0 jobs off0 frame0 count i frame l
        = some (frame', l') →
      (off0 : Int) + frame' - frame0 ≤ (l.length : Int) →
      frame ≤ frame' ∧ l'.length = l.length
      ∧ (∀ f, frame ≤ f → f < frame' →
          ∃ job, jobs.jobs_[l'.getD ((off0 : Int) + f - frame0).toNat 0]? = some job
            ∧ job.frames_.1 ≤ f ∧ f < job.frames_.2
            ∧ i ≤ l'.getD ((off0 : Int) + f - frame0).toNat 0
            ∧ l'.getD ((off0 : Int) + f - frame0).toNat 0 < i + count
            ∧ ∀ j, i ≤ j → j < l'.getD ((off0 : Int) + f - frame0).toNat 0 →
                ∀ job', jobs.jobs_[j]? = some job' → job'.frames_.2 ≤ f)
      ∧ (∀ p, p < ((off0 : Int) + frame - frame0).toNat → l'.getD p 0 = l.getD p 0) := by
  intro count
  induction count with
  | zero =>
    intro i frame l frame' l' _ _ h _
    simp only [ReflectionLookup.JobRangeLookup.sweep0, Option.some.injEq, Prod.mk.injEq] at h
    obtain ⟨rfl, rfl⟩ := h
    exact ⟨le_refl _, rfl, fun f h1 h2 => by omega, fun p _ => rfl⟩
  | succ c ih =>
    intro i frame l frame' l' h0 hsz h hB
    rw [ReflectionLookup.JobRangeLookup.sweep0] at h
    cases hjob : jobs.jobs_[i]? with
    | none => rw [hjob] at h; exact absurd h (by simp)
    | some job =>
      simp only [hjob] at h
      obtain ⟨hge, h⟩ := of_guard h
      have hlen1 := fill0_length off0 frame0 i (job.frames_.2 - frame).toNat frame l
      obtain ⟨r1, r2, r3, r4⟩ := ih (i + 1) _ _ frame' l' (by omega) (by rw [hlen1]; exact hsz) h
        (by rw [hlen1]; exact hB)
      have hfill := fill0_spec off0 frame0 i (job.frames_.2 - frame).toNat frame l h0
        (by omega) hsz
      refine ⟨by omega, by rw [r2, hlen1], ?_, ?_⟩
      · intro f hf1 hf2
        by_cases hlt : f < frame + ((job.frames_.2 - frame).toNat : Int)
        · have hval : l'.getD ((off0 : Int) + f - frame0).toNat 0 = i := by
            rw [r4 _ (by omega), hfill, if_pos (by omega)]
          rw [hval]
          exact ⟨job, hjob, by omega, by omega, le_refl _, by omega, fun j hj1 hj2 => by omega⟩
        · obtain ⟨job2, q1, q2, q3, q4, q5, q6⟩ := r3 f (by omega) hf2
          refine ⟨job2, q1, q2, q3, by omega, by omega, ?_⟩
          intro j hj1 hj2 job' hjob'
          by_cases hji : j = i
          · subst hji
            rw [hjob] at hjob'
            simp only [Option.some.injEq] at hjob'
            subst hjob'
            omega
          · exact q6 j (by omega) hj2 job' hjob'
      · intro p hp
        rw [r4 p (by omega), hfill, if_neg (by omega)]

theorem fill1_length (off0 : Nat) (frame0 : Int) (job : Nat) :
    ∀ (count : Nat) (frame : Int) (l : List Nat),
      (ReflectionLookup.JobRangeLookup.fill1 off0 frame0 job count frame l).length
        = l.length := by
  intro count
  induction count with
  | zero => intro frame l; rfl
  | succ c ih =>
    intro frame l
    simp only [ReflectionLookup.JobRangeLookup.fill1]
    rw [ih, List.length_set]

/-- The inner loop of the downward sweep writes `job` to the cells of the frames
`frame - count ≤ f < frame` and leaves the other cells. -/
theorem fill1_spec (off0 : Nat) (frame0 : Int) (job : Nat) :
    ∀ (count : Nat) (frame : Int) (l : List Nat),
      0 ≤ (off0 : Int) + frame - frame0 - (count : Int) →
      (off0 : Int) + frame - frame0 ≤ (l.length : Int) →
      l.length < 18446744073709551616 →
      ∀ p, (ReflectionLookup.JobRangeLookup.fill1 off0 frame0 job count frame l).getD p 0
        = if (off0 : Int) + frame - frame0 - (count : Int) ≤ (p : Int)
            ∧ (p : Int) < (off0 : Int) + frame - frame0 then job else l.getD p 0 := by
  intro count
  induction count with
  | zero =>
    intro frame l _ _ _ p
    simp only [ReflectionLookup.JobRangeLookup.fill1]
    rw [if_neg (by omega)]
  | succ c ih =>
    intro frame l h0 h1 h2 p
    simp only [ReflectionLookup.JobRangeLookup.fill1]
    have e : to_size_t ((off0 : Int) + frame - frame0 - 1)
        = ((off0 : Int) + frame - frame0 - 1).toNat :=
      to_size_t_of_nonneg _ (by omega) (by omega)
    rw [ih (frame - 1) _ (by push_cast at h0; omega) (by rw [List.length_set]; omega)
      (by rw [List.length_set]; exact h2) p, set_getD_nat, e]
    by_cases hp : p = ((off0 : Int) + frame - frame0 - 1).toNat
    · rw [if_neg (by omega), if_pos ⟨hp, by omega⟩, if_pos (by push_cast; omega)]
    · by_cases hq : (off0 : Int) + (frame - 1) - frame0 - (c : Int) ≤ (p : Int)
          ∧ (p : Int) < (off0 : Int) + (frame - 1) - frame0
      · rw [if_pos hq, if_pos (by push_cast; omega)]
      · rw [if_neg hq, if_neg (fun h => hp h.1), if_neg (by push_cast; omega)]

/-- The downward sweep from job `i - 1` over `count` jobs, started at `frame`: the cell
of every frame `f` it passes holds a job `m` of the sweep whose window contains
`f`, and every swept job after `m` starts after `f`. -/
theorem sweep1_spec (jobs : JobList) (off0 : Nat) (frame0 : Int) :
    ∀ (count i : Nat) (frame : Int) (l : List Nat) (frame' : Int) (l' : List Nat),
      count ≤ i → (off0 : Int) + frame - frame0 ≤ (l.length : Int) →
      l.length < 18446744073709551616 →
      ReflectionLookup.JobRangeLookup.sweep1 jobs off0 frame0 count i frame l
        = some (frame', l') →
      0 ≤ (off0 : Int) + frame' - frame0 →
      frame' ≤ frame ∧ l'.length = l.length
      ∧ (∀ f, frame' ≤ f → f < frame →
          ∃ job, jobs.jobs_[l'.getD ((off0 : Int) + f - frame0).toNat 0]? = some job
            ∧ job.frames_.1 ≤ f ∧ f < job.frames_.2
            ∧ i - count ≤ l'.getD ((off0 : Int) + f - frame0).toNat 0
            ∧ l'.getD ((off0 : Int) + f - frame0).toNat 0 < i
            ∧ ∀ j, l'.getD ((off0 : Int) + f - frame0).toNat 0 < j → j < i →
                ∀ job', jobs.jobs_[j]? = some job' → f < job'.frames_.1)
      ∧ (∀ p : Nat, (off0 : Int) + frame - frame0 ≤ (p : Int) → l'.getD p 0 = l.getD p 0) := by
  intro count
  induction count with
  | zero =>
    intro i frame l frame' l' _ _ _ h _
    simp only [ReflectionLookup.JobRangeLookup.sweep1, Option.some.injEq, Prod.mk.injEq] at h
    obtain ⟨rfl, rfl⟩ := h
    exact ⟨le_refl _, rfl, fun f h1 h2 => by omega, fun p _ => rfl⟩
  | succ c ih =>
    intro i frame l frame' l' hci hB hsz h h0
    rw [ReflectionLookup.JobRangeLookup.sweep1] at h
    cases hjob : jobs.jobs_[i - 1]? with
    | none => rw [hjob] at h; exact absurd h (by simp)
    | some job =>
      simp only [hjob] at h
      obtain ⟨hle, h⟩ := of_guard h
      have hlen1 := fill1_length off0 frame0 (i - 1) (frame - job.frames_.1).toNat frame l
      obtain ⟨r1, r2, r3, r4⟩ := ih (i - 1) _ _ frame' l' (by omega)
        (by rw [hlen1]; omega) (by rw [hlen1]; exact hsz) h h0
      have hfill := fill1_spec off0 frame0 (i - 1) (frame - job.frames_.1).toNat frame l
        (by omega) hB hsz
      refine ⟨by omega, by rw [r2, hlen1], ?_, ?_⟩
      · intro f hf1 hf2
        by_cases hge : frame - ((frame - job.frames_.1).toNat : Int) ≤ f
        · have hval : l'.getD ((off0 : Int) + f - frame0).toNat 0 = i - 1 := by
            rw [r4 _ (by omega), hfill, if_pos (by omega)]
          rw [hval]
          exact ⟨job, hjob, by omega, by omega, by omega, by omega,
            fun j hj1 hj2 => by omega⟩
        · obtain ⟨job2, q1, q2, q3, q4, q5, q6⟩ := r3 f hf1 (by omega)
          refine ⟨job2, q1, q2, q3, by omega, by omega, ?_⟩
          intro j hj1 hj2 job' hjob'
          by_cases hji : j = i - 1
          · subst hji
            rw [hjob] at hjob'
            simp only [Option.some.injEq] at hjob'
            subst hjob'
            omega
          · exact q6 j hj1 (by omega) job' hjob'
      · intro p hp
        rw [r4 p (by omega), hfill, if_neg (by omega)]

/-! ### Job lists built by `add` -/

theorem group_make_some (index expr frames : Int × Int) (g : GroupList.Group)
    (h : GroupList.Group.make index expr frames = some g) : g = ⟨index, expr, frames⟩ := by
  unfold GroupList.Group.make at h
  split_ifs at h
  simp only [Option.some.injEq] at h
  exact h.symm

/-- What a successful `GroupList::add` checked and recorded. -/
theorem group_add_some (self new : GroupList) (index expr range : Int × Int)
    (h : self.add index expr range = some new) :
    0 ≤ expr.1 ∧ expr.1 < expr.2 ∧ range.1 < range.2 ∧ index.1 < index.2
    ∧ new.groups_ = self.groups_ ++ [⟨index, expr, range⟩]
    ∧ (self.groups_ = [] → expr.1 = 0)
    ∧ (∀ g, self.groups_.getLast? = some g → expr.1 = g.expr_.2 ∧ index.1 = g.expr_.2) := by
  unfold GroupList.add at h
  by_cases a1 : expr.1 ≥ 0
  swap
  · rw [if_pos a1] at h; exact absurd h (by simp)
  rw [if_neg (not_not.mpr a1)] at h
  obtain ⟨a2, h⟩ := of_guard h
  obtain ⟨a3, h⟩ := of_guard h
  obtain ⟨a4, h⟩ := of_guard h
  cases hl : self.groups_.getLast? with
  | some g =>
    simp only [hl] at h
    obtain ⟨a5, h⟩ := of_guard h
    obtain ⟨a6, h⟩ := of_guard h
    cases hm : GroupList.Group.make index expr range with
    | none => rw [hm] at h; exact absurd h (by simp)
    | some n =>
      rw [hm] at h
      simp only [Option.map_some', Option.some.injEq] at h
      have := group_make_some _ _ _ _ hm
      subst this
      refine ⟨a1, a2, a3, a4, by rw [← h], ?_, ?_⟩
      · intro he; rw [he] at hl; simp at hl
      · intro g' hg'
        simp only [Option.some.injEq] at hg'
        subst hg'
        exact ⟨a5, a6⟩
  | none =>
    simp only [hl] at h
    obtain ⟨a5, h⟩ := of_guard h
    cases hm : GroupList.Group.make index expr range with
    | none => rw [hm] at h; exact absurd h (by simp)
    | some n =>
      rw [hm] at h
      simp only [Option.map_some', Option.some.injEq] at h
      have := group_make_some _ _ _ _ hm
      subst this
      refine ⟨a1, a2, a3, a4, by rw [← h], fun _ => a5, ?_⟩
      intro g' hg'
      exact absurd hg' (by simp)

/-- A successful `add_jobs` had a non-empty frame range and a positive block size. -/
theorem add_jobs_some (self : JobList) (index : Nat) (expr : Int × Int) (f0 f1 bs : Int)
    (jobs : List JobList.Job) (h : self.add_jobs index expr (f0, f1) bs = some jobs) :
    f0 < f1 ∧ 1 ≤ bs := by
  unfold JobList.add_jobs at h
  by_cases a1 : f1 > f0
  swap
  · rw [if_pos a1] at h; exact absurd h (by simp)
  rw [if_neg (not_not.mpr a1)] at h
  obtain ⟨a2, h⟩ := of_guard h
  obtain ⟨a3, h⟩ := of_guard h
  refine ⟨a1, ?_⟩
  split_ifs at a3 <;> omega

/-- When every step of the mark loop computes a value below `frame1`, no step clamps
or breaks, and the last mark is not `frame1`. -/
theorem mark_loop_last_ne (f0 f1 half : Int) :
    ∀ (count i : Nat) (acc : List Int), acc.getLast? ≠ some f1 →
      (∀ j : Nat, i ≤ j → j < i + count →
        to_int (f0 + to_int (((j : Int) + 1) * half)) < f1) →
      (JobList.mark_loop f0 f1 half count (i : Int) acc).getLast? ≠ some f1 := by
  intro count
  induction count with
  | zero => intro i acc h _; simpa [JobList.mark_loop] using h
  | succ c ih =>
    intro i acc _ hstep
    have hv := hstep i (le_refl _) (by omega)
    have h1 : ¬ (to_int (f0 + to_int (((i : Int) + 1) * half)) > f1) := by omega
    have h2 : ¬ (to_int (f0 + to_int (((i : Int) + 1) * half)) = f1) := by omega
    simp only [JobList.mark_loop, if_neg h1, if_neg h2]
    have hc : ((i : Int) + 1) = ((i + 1 : Nat) : Int) := by push_cast; rfl
    rw [hc]
    apply ih (i + 1)
    · rw [List.getLast?_concat]
      intro he
      rw [Option.some.injEq] at he
      rw [← hc] at he
      exact h2 he
    · intro j hj1 hj2
      exact hstep j (by omega) (by omega)

/-- A successful `add_jobs` on a frame range of `int` bounds went through no overflow. -/
theorem add_jobs_fits (self : JobList) (index : Nat) (expr : Int × Int) (f0 f1 bs : Int)
    (jobs : List JobList.Job) (i0 : is_int f0) (i1 : is_int f1)
    (h : self.add_jobs index expr (f0, f1) bs = some jobs) : JobList.fits f0 f1 bs := by
  unfold JobList.add_jobs at h
  by_cases a1 : f1 > f0
  swap
  · rw [if_pos a1] at h; exact absurd h (by simp)
  rw [if_neg (not_not.mpr a1)] at h
  obtain ⟨a2, h⟩ := of_guard h
  have hn : is_int (f1 - f0) := by
    unfold is_int at i0 i1 ⊢
    unfold to_int at a2
    simp only at a2
    omega
  have hwrap : to_int (f1 - f0) = f1 - f0 := to_int_of_is_int _ hn
  simp only [hwrap] at h
  have hclamp : (if bs > f1 - f0 then f1 - f0 else bs) = min bs (f1 - f0) := by
    rw [min_def]; split_ifs <;> omega
  simp only [hclamp] at h
  obtain ⟨a3, h⟩ := of_guard h
  refine ⟨hn, fun hb1 => ?_⟩
  rw [if_neg hb1] at h
  obtain ⟨a4, h⟩ := of_guard h
  obtain ⟨_, h⟩ := of_guard h
  obtain ⟨a6, _⟩ := of_guard h
  have hb2 : 2 ≤ min bs (f1 - f0) := by omega
  have hbn : min bs (f1 - f0) ≤ f1 - f0 := min_le_right _ _
  obtain ⟨s1, s2, s3, s4, s5, s6, s7, s8⟩ := block_scheme (f1 - f0) (min bs (f1 - f0)) hb2 hbn
  obtain ⟨_, c2⟩ := ceil_div_spec (f1 - f0) (ceil_div (2 * (f1 - f0)) (min bs (f1 - f0)))
    (by omega)
  generalize ceil_div (2 * (f1 - f0)) (min bs (f1 - f0)) = nblocks at *
  generalize hhalf : ceil_div (f1 - f0) nblocks = half at *
  generalize hK : ceil_div (f1 - f0) half = Kz at *
  obtain ⟨K, rfl⟩ : ∃ K : Nat, Kz = (K : Int) := ⟨Kz.toNat, by omega⟩
  unfold is_int at i0 i1 hn ⊢
  refine ⟨by omega, ?_⟩
  by_contra hover
  apply mark_loop_last_ne f0 f1 half nblocks.toNat 0 [f0] (by simp; omega) ?_ a6
  intro j _ hj
  have hjn : (j : Int) + 1 ≤ nblocks := by omega
  have e1 : (half - 1) * nblocks = nblocks * half - nblocks := by ring
  have p1 := Int.mul_le_mul_of_nonneg_right hjn (le_of_lt s3)
  rw [to_int_add_to_int]
  by_cases hjK : j + 1 < K
  · have h3 : (j : Int) + 1 ≤ (K : Int) - 1 := by omega
    have h4 := Int.mul_le_mul_of_nonneg_right h3 (le_of_lt s3)
    have h5 : 0 ≤ ((j : Int) + 1) * half := Int.mul_nonneg (by omega) (le_of_lt s3)
    rw [to_int_of_is_int _ ⟨by omega, by omega⟩]
    omega
  · have h3 : (K : Int) ≤ (j : Int) + 1 := by omega
    have h4 := Int.mul_le_mul_of_nonneg_right h3 (le_of_lt s3)
    rw [to_int_above _ (by omega) (by omega)]
    omega

/-- What a successful `add` checked and appended. -/
theorem add_some (self new : JobList) (expr : Int × Int) (f0 f1 bs : Int)
    (i0 : is_int f0) (i1 : is_int f1) (h : self.add expr (f0, f1) bs = some new) :
    0 ≤ expr.1 ∧ expr.1 < expr.2 ∧ f0 < f1 ∧ 1 ≤ bs
    ∧ new.jobs_ = self.jobs_ ++ (JobList.spec_windows f0 f1 bs).map
        (fun w => (⟨self.groups_.size, expr, w⟩ : JobList.Job))
    ∧ new.groups_.groups_ = self.groups_.groups_
        ++ [⟨((self.size : Int), (new.jobs_.length : Int)), expr, (f0, f1)⟩]
    ∧ (self.groups_.groups_ = [] → expr.1 = 0)
    ∧ (∀ g, self.groups_.groups_.getLast? = some g →
        expr.1 = g.expr_.2 ∧ (self.size : Int) = g.expr_.2) := by
  have hj := add_jobs_of_add self new expr (f0, f1) bs h
  obtain ⟨b1, b2⟩ := add_jobs_some self _ expr f0 f1 bs _ hj
  unfold JobList.add at h
  rw [hj] at h
  simp only at h
  cases hg : self.groups_.add ((self.size : Int), (new.jobs_.length : Int)) expr (f0, f1) with
  | none => rw [hg] at h; exact absurd h (by simp)
  | some groups =>
    rw [hg] at h
    simp only [Option.some.injEq] at h
    obtain ⟨g1, g2, _, _, g5, g6, g7⟩ := group_add_some _ _ _ _ _ hg
    rw [add_jobs_eq self _ expr ⟨g1, g2⟩ f0 f1 bs b1 b2 i0
      (add_jobs_fits self _ expr f0 f1 bs _ i0 i1 hj), Option.some.injEq] at hj
    refine ⟨g1, g2, b1, b2, hj.symm, ?_, g6, g7⟩
    rw [← h]
    exact g5

/-- The two ways the job-list properties are used: `add_jobs` returns the windows of
`spec_windows` when no `int` operation overflows, and a successful `add` has
appended exactly these windows. -/
theorem add_appends (self : JobList) (expr : Int × Int) (f0 f1 bs : Int)
    (i0 : is_int f0) (i1 : is_int f1) (hf : f0 < f1) (hb : 1 ≤ bs) :
    (0 ≤ expr.1 ∧ expr.1 < expr.2 → JobList.fits f0 f1 bs →
      self.add_jobs self.groups_.size expr (f0, f1) bs
        = some (self.jobs_ ++ (JobList.spec_windows f0 f1 bs).map
            (fun w => (⟨self.groups_.size, expr, w⟩ : JobList.Job))))
    ∧ (∀ new, self.add expr (f0, f1) bs = some new →
        JobList.appended self new = (JobList.spec_windows f0 f1 bs).map
          (fun w => (⟨self.groups_.size, expr, w⟩ : JobList.Job))) := by
  refine ⟨fun he hfit => add_jobs_eq self _ expr he f0 f1 bs hf hb i0 hfit, ?_⟩
  intro new h
  obtain ⟨_, _, _, _, a5, _⟩ := add_some self new expr f0 f1 bs i0 i1 h
  unfold JobList.appended JobList.size
  rw [a5]
  simp

/-! ### Claims on the job list -/

/-- C1 (coverage). For a frame range `[f0, f1)` of `int` bounds with `f1 > f0` and a
block size of at least 1 there is a list `js` of jobs such that: `add_jobs`
returns the old jobs followed by `js` whenever the experiment range is valid and
no `int` operation overflows; every successful `add` has appended exactly `js`;
and `js` starts at `f0`, ends at `f1`, lies inside `[f0, f1)`, and every frame
of `[f0, f1)` is in one of its windows. -/
theorem C1_coverage (self : JobList) (expr : Int × Int) (f0 f1 bs : Int)
    (i0 : is_int f0) (i1 : is_int f1) (hf : f0 < f1) (hb : 1 ≤ bs) :
    ∃ js : List JobList.Job,
      (0 ≤ expr.1 ∧ expr.1 < expr.2 → JobList.fits f0 f1 bs →
        self.add_jobs self.groups_.size expr (f0, f1) bs = some (self.jobs_ ++ js))
      ∧ (∀ new, self.add expr (f0, f1) bs = some new → JobList.appended self new = js)
      ∧ (∃ j, js.head? = some j ∧ j.frames_.1 = f0)
      ∧ (∃ j, js.getLast? = some j ∧ j.frames_.2 = f1)
      ∧ (∀ j ∈ js, f0 ≤ j.frames_.1 ∧ j.frames_.1 < j.frames_.2 ∧ j.frames_.2 ≤ f1)
      ∧ (∀ f, f0 ≤ f → f < f1 → ∃ j ∈ js, j.has_frame f) := by
  have hj := add_appends self expr f0 f1 bs i0 i1 hf hb
  obtain ⟨⟨w0, c1, c1'⟩, ⟨w1, c2, c2'⟩, c3, c4⟩ := spec_windows_cover f0 f1 bs hf hb
  refine ⟨_, hj.1, hj.2, ?_, ?_, ?_, ?_⟩
  · exact ⟨⟨self.groups_.size, expr, w0⟩, by rw [List.head?_map, c1]; rfl, c1'⟩
  · exact ⟨⟨self.groups_.size, expr, w1⟩, by rw [List.getLast?_map, c2]; rfl, c2'⟩
  · intro j hjm
    rw [List.mem_map] at hjm
    obtain ⟨w, hw, rfl⟩ := hjm
    exact c3 w hw
  · intro f h0 h1
    obtain ⟨w, hw, a, b⟩ := c4 f h0 h1
    exact ⟨⟨self.groups_.size, expr, w⟩, List.mem_map_of_mem _ hw, a, b⟩

/-- Instance of C1: the first group over frames `[0, 10)` with block size 4. -/
theorem C1_coverage_witness :
    ∃ js : List JobList.Job,
      ((0 : Int) ≤ ((0, 1) : Int × Int).1 ∧ ((0, 1) : Int × Int).1 < ((0, 1) : Int × Int).2 →
        JobList.fits 0 10 4 →
        JobList.empty.add_jobs JobList.empty.groups_.size (0, 1) (0, 10) 4
          = some (JobList.empty.jobs_ ++ js))
      ∧ (∀ new, JobList.empty.add (0, 1) (0, 10) 4 = some new
          → JobList.appended JobList.empty new = js)
      ∧ (∃ j, js.head? = some j ∧ j.frames_.1 = 0)
      ∧ (∃ j, js.getLast? = some j ∧ j.frames_.2 = 10)
      ∧ (∀ j ∈ js, 0 ≤ j.frames_.1 ∧ j.frames_.1 < j.frames_.2 ∧ j.frames_.2 ≤ 10)
      ∧ (∀ f, 0 ≤ f → f < 10 → ∃ j ∈ js, j.has_frame f) :=
  C1_coverage JobList.empty (0, 1) 0 10 4 (by decide) (by decide) (by decide) (by decide)

/-- C10 (mark scheme). For a frame range of `int` bounds whose clamped block size
`b = min block_size n` exceeds 1, with `num_blocks = ceil (2n / b)`,
`half = ceil (n / num_blocks)`, marks `m i = min (f0 + i * half) f1` and
`K = ceil (n / half)`, there is a list `js` of exactly `K - 1` jobs, the `i`-th
with window `[m i, m (i + 2))`, such that `add_jobs` returns the old jobs
followed by `js` whenever the experiment range is valid and no `int` operation
overflows, and every successful `add` has appended exactly `js`; for `[0, 10)`
and block size 4 the marks are `0, 2, 4, 6, 8, 10` and `add` on the empty list
yields `[0,4), [2,6), [4,8), [6,10)`. -/
theorem C10_mark_scheme (self : JobList) (expr : Int × Int) (f0 f1 bs : Int)
    (i0 : is_int f0) (i1 : is_int f1) (hb : 1 < min bs (f1 - f0)) :
    (∃ js : List JobList.Job,
        (0 ≤ expr.1 ∧ expr.1 < expr.2 → JobList.fits f0 f1 bs →
          self.add_jobs self.groups_.size expr (f0, f1) bs = some (self.jobs_ ++ js))
        ∧ (∀ new, self.add expr (f0, f1) bs = some new → JobList.appended self new = js)
        ∧ (js.length : Int)
            = ceil_div (f1 - f0) (ceil_div (f1 - f0)
                (ceil_div (2 * (f1 - f0)) (min bs (f1 - f0)))) - 1
        ∧ ∀ i, i < js.length → js[i]? = some ⟨self.groups_.size, expr,
            (JobList.mark f0 f1 (ceil_div (f1 - f0)
                (ceil_div (2 * (f1 - f0)) (min bs (f1 - f0)))) i,
             JobList.mark f0 f1 (ceil_div (f1 - f0)
                (ceil_div (2 * (f1 - f0)) (min bs (f1 - f0)))) (i + 2))⟩)
    ∧ ceil_div (2 * (10 - 0)) (min 4 (10 - 0)) = 5 ∧ ceil_div (10 - 0) 5 = 2
    ∧ JobList.mark_loop 0 10 2 5 0 [0] = [0, 2, 4, 6, 8, 10]
    ∧ (List.range 6).map (JobList.mark 0 10 2) = [0, 2, 4, 6, 8, 10]
    ∧ (JobList.empty.add (0, 1) (0, 10) 4).map (fun l => l.jobs_.map (fun j => j.frames_))
        = some [(0, 4), (2, 6), (4, 8), (6, 10)] := by
  refine ⟨?_, by decide, by decide, by decide, by decide, by decide⟩
  have hf : f0 < f1 := by
    have := min_le_right bs (f1 - f0)
    omega
  have hb1 : 1 ≤ bs := by
    have := min_le_left bs (f1 - f0)
    omega
  have hj := add_appends self expr f0 f1 bs i0 i1 hf hb1
  refine ⟨_, hj.1, hj.2, ?_, ?_⟩
  · rcases spec_windows_cases f0 f1 bs hf hb1 with ⟨h1, _⟩ | ⟨_, half, K, e1, e2, _, _, hK, _, _, hw⟩
    · omega
    · rw [hw, ← e1, ← e2]
      simp only [List.length_map, List.length_range]
      omega
  · intro i hi
    rcases spec_windows_cases f0 f1 bs hf hb1 with ⟨h1, _⟩ | ⟨_, half, K, e1, e2, _, _, hK, _, _, hw⟩
    · omega
    · rw [hw] at hi ⊢
      simp only [List.length_map, List.length_range] at hi
      rw [← e1]
      simp only [List.getElem?_map, List.getElem?_range hi, Option.map_some']

/-- Instance of C10: frames `[3, 20)` with block size 5 appended to the empty list. -/
theorem C10_mark_scheme_witness :
    (∃ js : List JobList.Job,
        ((0 : Int) ≤ ((0, 2) : Int × Int).1 ∧ ((0, 2) : Int × Int).1 < ((0, 2) : Int × Int).2 →
          JobList.fits 3 20 5 →
          JobList.empty.add_jobs JobList.empty.groups_.size (0, 2) (3, 20) 5
            = some (JobList.empty.jobs_ ++ js))
        ∧ (∀ new, JobList.empty.add (0, 2) (3, 20) 5 = some new
            → JobList.appended JobList.empty new = js)
        ∧ (js.length : Int)
            = ceil_div (20 - 3) (ceil_div (20 - 3)
                (ceil_div (2 * (20 - 3)) (min 5 (20 - 3)))) - 1
        ∧ ∀ i, i < js.length → js[i]? = some ⟨JobList.empty.groups_.size, (0, 2),
            (JobList.mark 3 20 (ceil_div (20 - 3)
                (ceil_div (2 * (20 - 3)) (min 5 (20 - 3)))) i,
             JobList.mark 3 20 (ceil_div (20 - 3)
                (ceil_div (2 * (20 - 3)) (min 5 (20 - 3)))) (i + 2))⟩)
    ∧ ceil_div (2 * (10 - 0)) (min 4 (10 - 0)) = 5 ∧ ceil_div (10 - 0) 5 = 2
    ∧ JobList.mark_loop 0 10 2 5 0 [0] = [0, 2, 4, 6, 8, 10]
    ∧ (List.range 6).map (JobList.mark 0 10 2) = [0, 2, 4, 6, 8, 10]
    ∧ (JobList.empty.add (0, 1) (0, 10) 4).map (fun l => l.jobs_.map (fun j => j.frames_))
        = some [(0, 4), (2, 6), (4, 8), (6, 10)] :=
  C10_mark_scheme JobList.empty (0, 2) 3 20 5 (by decide) (by decide) (by decide)

theorem built_groups_nil (jl : JobList) (hb : JobList.Built jl)
    (h : jl.groups_.groups_ = []) : jl = JobList.empty := by
  induction hb with
  | empty => rfl
  | add self new expr range bs hs _ _ i3 i4 _ hadd _ =>
    have := (add_some self new expr range.1 range.2 bs i3 i4 hadd).2.2.2.2.2.1
    rw [this] at h
    simp at h

/-- Every group of a built list has a non-empty frame range of `int` bounds. -/
theorem built_groups_frames (jl : JobList) (hb : JobList.Built jl) :
    ∀ g ∈ jl.groups_.groups_, is_int g.frames_.1 ∧ is_int g.frames_.2
      ∧ g.frames_.1 < g.frames_.2 := by
  induction hb with
  | empty => intro g hg; simp [JobList.empty] at hg
  | add self new expr range bs hs _ _ i3 i4 _ hadd ih =>
    obtain ⟨_, _, a3, _, _, a6, _⟩ := add_some self new expr range.1 range.2 bs i3 i4 hadd
    intro g hg
    rw [a6, List.mem_append, List.mem_singleton] at hg
    rcases hg with hg | hg
    · exact ih g hg
    · subst hg
      exact ⟨i3, i4, a3⟩

theorem to_size_t_of_is_int_diff (a b : Int) (ha : is_int a) (hb : is_int b) (hab : a < b) :
    to_size_t (b - a) = (b - a).toNat ∧ 0 < (b - a).toNat ∧ (b - a).toNat < 4294967296 := by
  unfold is_int at ha hb
  refine ⟨to_size_t_of_nonneg _ (by omega) (by omega), by omega, by omega⟩

/-- A built list with exactly one group is the result of one `add` on the empty list. -/
theorem built_single (jl : JobList) (hb : JobList.Built jl) (g : GroupList.Group)
    (hg : jl.groups_.groups_ = [g]) :
    ∃ (E f0 f1 bs : Int), 0 < E ∧ is_int E ∧ is_int f0 ∧ is_int f1 ∧ f0 < f1 ∧ 1 ≤ bs
      ∧ jl.jobs_ = (JobList.spec_windows f0 f1 bs).map
          (fun w => (⟨0, (0, E), w⟩ : JobList.Job))
      ∧ g = ⟨(0, (jl.jobs_.length : Int)), (0, E), (f0, f1)⟩ := by
  induction hb with
  | empty => simp [JobList.empty] at hg
  | add self new expr range bs hs _ i2 i3 i4 _ hadd _ =>
    obtain ⟨a1, a2, a3, a4, a5, a6, a7, _⟩ :=
      add_some self new expr range.1 range.2 bs i3 i4 hadd
    rw [a6] at hg
    have hnil : self.groups_.groups_ = [] := by
      cases hsg : self.groups_.groups_ with
      | nil => rfl
      | cons x xs =>
        rw [hsg] at hg
        have := congrArg List.length hg
        simp at this
    have hse := built_groups_nil self hs hnil
    have he1 := a7 hnil
    have hex : expr = (0, expr.2) := Prod.ext he1 rfl
    rw [hnil, List.nil_append, List.cons.injEq] at hg
    refine ⟨expr.2, range.1, range.2, bs, by omega, i2, i3, i4, a3, a4, ?_, ?_⟩
    · rw [a5, hse]
      simp only [JobList.empty, List.nil_append, GroupList.size, List.length_nil]
      rw [← hex]
    · rw [← hg.1, hse]
      simp only [JobList.empty, JobList.size, List.length_nil, Nat.cast_zero]
      rw [← hex]

theorem spec_windows_length_le (f0 f1 bs : Int) (hf : f0 < f1) (hb : 1 ≤ bs) :
    (JobList.spec_windows f0 f1 bs).length ≤ (f1 - f0).toNat := by
  rcases spec_windows_cases f0 f1 bs hf hb with ⟨_, hw⟩ | ⟨_, half, K, _, _, hh, _, hK, hK1, _, hw⟩
  · rw [hw]; simp
  · rw [hw]
    simp only [List.length_map, List.length_range]
    have h1 : ((K : Int) - 1) * 1 ≤ ((K : Int) - 1) * half :=
      Int.mul_le_mul_of_nonneg_left (by omega) (by omega)
    omega

/-! ### Construction of the job range lookup -/

/-- What a successful construction of the job range lookup went through. -/
theorem range_lookup_make_some (jobs : JobList) (lookup : ReflectionLookup.JobRangeLookup)
    (h : ReflectionLookup.JobRangeLookup.make jobs = some lookup) :
    ∃ (g0 gl : GroupList.Group) (l0 l1 : List Nat),
      jobs.groups_.groups_.head? = some g0 ∧ jobs.groups_.groups_.getLast? = some gl
      ∧ 0 = g0.expr_.1
      ∧ (ReflectionLookup.JobRangeLookup.group_fill jobs.groups_.groups_ 0).length
          = to_size_t gl.expr_.2
      ∧ ReflectionLookup.JobRangeLookup.groups_loop jobs
          (0 :: jobs.groups_.groups_.map (fun g => to_size_t (g.frames_.2 - g.frames_.1)))
          jobs.groups_.groups_ 0
          (List.replicate ((0 :: jobs.groups_.groups_.map
            (fun g => to_size_t (g.frames_.2 - g.frames_.1))).getLastD 0) 0)
          (List.replicate ((0 :: jobs.groups_.groups_.map
            (fun g => to_size_t (g.frames_.2 - g.frames_.1))).getLastD 0) 0) = some (l0, l1)
      ∧ lookup = ⟨l0, l1,
          0 :: jobs.groups_.groups_.map (fun g => to_size_t (g.frames_.2 - g.frames_.1)),
          ReflectionLookup.JobRangeLookup.group_fill jobs.groups_.groups_ 0,
          jobs.groups_.groups_.map (fun g => g.frames_.1)⟩ := by
  unfold ReflectionLookup.JobRangeLookup.make at h
  cases hhead : jobs.groups_.groups_.head? with
  | none => simp [hhead] at h
  | some g0 =>
    cases hlast : jobs.groups_.groups_.getLast? with
    | none => simp [hhead, hlast] at h
    | some gl =>
      simp only [hhead, hlast] at h
      obtain ⟨a1, h⟩ := of_guard h
      obtain ⟨a2, h⟩ := of_guard h
      obtain ⟨_, h⟩ := of_guard h
      obtain ⟨_, h⟩ := of_guard h
      cases hloop : ReflectionLookup.JobRangeLookup.groups_loop jobs
          (0 :: jobs.groups_.groups_.map (fun g => to_size_t (g.frames_.2 - g.frames_.1)))
          jobs.groups_.groups_ 0
          (List.replicate ((0 :: jobs.groups_.groups_.map
            (fun g => to_size_t (g.frames_.2 - g.frames_.1))).getLastD 0) 0)
          (List.replicate ((0 :: jobs.groups_.groups_.map
            (fun g => to_size_t (g.frames_.2 - g.frames_.1))).getLastD 0) 0) with
      | none => rw [hloop] at h; exact absurd h (by simp)
      | some res =>
        rw [hloop] at h
        simp only [Option.some.injEq] at h
        exact ⟨g0, gl, res.1, res.2, rfl, rfl, a1, a2, rfl, h.symm⟩

/-- The loop body fails on a second group: its two offsets are the frame counts of
the first and of the second group, and their difference is not the frame count
of the second. -/
theorem group_step_second_none (jobs : JobList) (g1 : GroupList.Group) (n0 : Nat)
    (rest : List Nat) (l0 l1 : List Nat) (h0 : 0 < n0) :
    ReflectionLookup.JobRangeLookup.group_step jobs
      (0 :: n0 :: to_size_t (g1.frames_.2 - g1.frames_.1) :: rest) 1 g1 l0 l1 = none := by
  unfold ReflectionLookup.JobRangeLookup.group_step
  simp only [List.getD_cons_succ, List.getD_cons_zero]
  split_ifs <;> first | rfl | omega

/-- The job range lookup cannot be built over two or more groups. -/
theorem range_lookup_single_group (jl : JobList) (hb : JobList.Built jl)
    (lookup : ReflectionLookup.JobRangeLookup)
    (h : ReflectionLookup.JobRangeLookup.make jl = some lookup) :
    ∃ g, jl.groups_.groups_ = [g] := by
  obtain ⟨g0, gl, l0, l1, h1, _, _, _, h5, _⟩ := range_lookup_make_some jl lookup h
  have hfr := built_groups_frames jl hb
  cases hgs : jl.groups_.groups_ with
  | nil => rw [hgs] at h1; simp at h1
  | cons a rest =>
    cases rest with
    | nil => exact ⟨a, rfl⟩
    | cons b rest2 =>
      exfalso
      rw [hgs] at h5 hfr
      obtain ⟨i1, i2, i3⟩ := hfr a (by simp)
      obtain ⟨e1, e2, _⟩ := to_size_t_of_is_int_diff _ _ i1 i2 i3
      simp only [List.map_cons, ReflectionLookup.JobRangeLookup.groups_loop] at h5
      simp only [Nat.zero_add] at h5
      split at h5
      · exact absurd h5 (by simp)
      · rw [group_step_second_none jl b _ _ _ _ (by rw [e1]; exact e2)] at h5
        exact absurd h5 (by simp)

/-- What a successful pass of the loop body over one group went through. -/
theorem group_step_some (jobs : JobList) (offset_ : List Nat) (i : Nat) (g : GroupList.Group)
    (l0 l1 r0 r1 : List Nat)
    (h : ReflectionLookup.JobRangeLookup.group_step jobs offset_ i g l0 l1 = some (r0, r1)) :
    to_size_t g.index_.2 > to_size_t g.index_.1 ∧ to_size_t g.index_.2 ≤ jobs.size
    ∧ offset_.getD (i + 1) 0 > offset_.getD i 0 ∧ offset_.getD (i + 1) 0 ≤ l0.length
    ∧ g.frames_.2 > g.frames_.1
    ∧ to_size_t (g.frames_.2 - g.frames_.1) = offset_.getD (i + 1) 0 - offset_.getD i 0
    ∧ ReflectionLookup.JobRangeLookup.sweep0 jobs (offset_.getD i 0) g.frames_.1
        (to_size_t g.index_.2 - to_size_t g.index_.1) (to_size_t g.index_.1) g.frames_.1 l0
        = some (g.frames_.2, r0)
    ∧ ReflectionLookup.JobRangeLookup.sweep1 jobs (offset_.getD i 0) g.frames_.1
        (to_size_t g.index_.2 - to_size_t g.index_.1) (to_size_t g.index_.2) g.frames_.2 l1
        = some (g.frames_.1, r1)
    ∧ ReflectionLookup.JobRangeLookup.check_monotonic r0 r1 (offset_.getD i 0)
        (offset_.getD (i + 1) 0) = true := by
  unfold ReflectionLookup.JobRangeLookup.group_step at h
  simp only at h
  obtain ⟨a1, h⟩ := of_guard h
  obtain ⟨a2, h⟩ := of_guard h
  obtain ⟨a3, h⟩ := of_guard h
  obtain ⟨a4, h⟩ := of_guard h
  cases hs0 : ReflectionLookup.JobRangeLookup.sweep0 jobs (offset_.getD i 0) g.frames_.1
      (to_size_t g.index_.2 - to_size_t g.index_.1) (to_size_t g.index_.1) g.frames_.1 l0 with
  | none => rw [hs0] at h; exact absurd h (by simp)
  | some res0 =>
    obtain ⟨fr0, t0⟩ := res0
    rw [hs0] at h
    simp only at h
    obtain ⟨a5, h⟩ := of_guard h
    subst a5
    cases hs1 : ReflectionLookup.JobRangeLookup.sweep1 jobs (offset_.getD i 0) g.frames_.1
        (to_size_t g.index_.2 - to_size_t g.index_.1) (to_size_t g.index_.2) g.frames_.2 l1 with
    | none => rw [hs1] at h; exact absurd h (by simp)
    | some res1 =>
      obtain ⟨fr1, t1⟩ := res1
      rw [hs1] at h
      simp only at h
      obtain ⟨a6, h⟩ := of_guard h
      subst a6
      by_cases hm : ReflectionLookup.JobRangeLookup.check_monotonic t0 t1 (offset_.getD i 0)
          (offset_.getD (i + 1) 0) = true
      · rw [if_pos hm] at h
        simp only [Option.some.injEq, Prod.mk.injEq] at h
        obtain ⟨rfl, rfl⟩ := h
        exact ⟨a1.1, a1.2, a2.1, a2.2, a3, a4, rfl, rfl, hm⟩
      · rw [if_neg hm] at h
        exact absurd h (by simp)

/-- The job range lookup of a list with one group over all its jobs: the keys, and
the meaning of the two tables on every frame of the group. -/
theorem range_lookup_single (jl : JobList) (E f0 f1 : Int)
    (lookup : ReflectionLookup.JobRangeLookup)
    (hg : jl.groups_.groups_ = [⟨(0, (jl.jobs_.length : Int)), (0, E), (f0, f1)⟩])
    (hE : 0 < E) (iE : is_int E) (i0 : is_int f0) (i1 : is_int f1) (hf : f0 < f1)
    (hJ : jl.jobs_.length < 18446744073709551616)
    (h : ReflectionLookup.JobRangeLookup.make jl = some lookup) :
    lookup.group_ = List.replicate E.toNat 0 ∧ lookup.offset_ = [0, (f1 - f0).toNat]
    ∧ lookup.frame0_ = [f0]
    ∧ lookup.lookup0_.length = (f1 - f0).toNat ∧ lookup.lookup1_.length = (f1 - f0).toNat
    ∧ (∀ f, f0 ≤ f → f < f1 →
        ∃ job, jl.jobs_[lookup.lookup0_.getD (f - f0).toNat 0]? = some job
          ∧ job.frames_.1 ≤ f ∧ f < job.frames_.2
          ∧ ∀ j, j < lookup.lookup0_.getD (f - f0).toNat 0 →
              ∀ job', jl.jobs_[j]? = some job' → job'.frames_.2 ≤ f)
    ∧ (∀ f, f0 ≤ f → f < f1 →
        ∃ job, jl.jobs_[lookup.lookup1_.getD (f - f0).toNat 0]? = some job
          ∧ job.frames_.1 ≤ f ∧ f < job.frames_.2
          ∧ ∀ j, lookup.lookup1_.getD (f - f0).toNat 0 < j →
              ∀ job', jl.jobs_[j]? = some job' → f < job'.frames_.1) := by
  obtain ⟨g0, gl, l0, l1, _, _, _, _, h5, h6⟩ := range_lookup_make_some jl lookup h
  obtain ⟨n1, n2, n3⟩ := to_size_t_of_is_int_diff f0 f1 i0 i1 hf
  have hE' : to_size_t E = E.toNat := by
    unfold is_int at iE
    exact to_size_t_of_nonneg _ (by omega) (by omega)
  have hz : to_size_t 0 = 0 := by decide
  have hJ' : to_size_t (jl.jobs_.length : Int) = jl.jobs_.length := by
    rw [to_size_t_of_nonneg _ (by omega) (by omega)]
    exact Int.toNat_ofNat _
  rw [hg] at h5 h6
  simp only [List.map_cons, List.map_nil, n1, List.getLastD_cons, List.getLastD_nil,
    ReflectionLookup.JobRangeLookup.groups_loop] at h5
  simp only [List.map_cons, List.map_nil, n1, ReflectionLookup.JobRangeLookup.group_fill,
    hE', hz, Nat.sub_zero, List.append_nil] at h6
  cases hs : ReflectionLookup.JobRangeLookup.group_step jl [0, (f1 - f0).toNat] 0
      ⟨(0, (jl.jobs_.length : Int)), (0, E), (f0, f1)⟩
      (List.replicate (f1 - f0).toNat 0) (List.replicate (f1 - f0).toNat 0) with
  | none => rw [hs] at h5; exact absurd h5 (by simp)
  | some res =>
    obtain ⟨r0, r1⟩ := res
    rw [hs] at h5
    simp only [Option.some.injEq, Prod.mk.injEq] at h5
    obtain ⟨rfl, rfl⟩ := h5
    obtain ⟨_, _, _, _, _, _, s0, s1, _⟩ := group_step_some _ _ _ _ _ _ _ _ hs
    simp only [hz, hJ', Nat.sub_zero, List.getD_cons_zero] at s0 s1
    obtain ⟨_, u2, u3, _⟩ := sweep0_spec jl 0 f0 _ 0 f0 _ _ _ (by omega)
      (by rw [List.length_replicate]; omega) s0 (by rw [List.length_replicate]; omega)
    obtain ⟨_, v2, v3, _⟩ := sweep1_spec jl 0 f0 _ _ f1 _ _ _ (le_refl _)
      (by rw [List.length_replicate]; omega) (by rw [List.length_replicate]; omega) s1 (by omega)
    rw [List.length_replicate] at u2 v2
    subst h6
    refine ⟨rfl, rfl, rfl, u2, v2, ?_, ?_⟩
    · intro f hf0 hf1
      obtain ⟨job, q1, q2, q3, _, _, q6⟩ := u3 f hf0 hf1
      have e : ((0 : Nat) : Int) + f - f0 = f - f0 := by omega
      rw [e] at q1 q6
      exact ⟨job, q1, q2, q3, fun j hj => q6 j (by omega) hj⟩
    · intro f hf0 hf1
      obtain ⟨job, q1, q2, q3, _, q5, q6⟩ := v3 f hf0 hf1
      have e : ((0 : Nat) : Int) + f - f0 = f - f0 := by omega
      rw [e] at q1 q5 q6
      refine ⟨job, q1, q2, q3, ?_⟩
      intro j hj job' hjob'
      have hjl : j < jl.jobs_.length := by
        by_contra hc
        rw [List.getElem?_eq_none (by omega)] at hjob'
        exact absurd hjob' (by simp)
      exact q6 j hj hjl job' hjob'

theorem contains_at_true (jobs : JobList) (k : Nat) (z0 z1 : Int)
    (h : jobs.contains_at k z0 z1 = true) :
    ∃ job, jobs.jobs_[k]? = some job ∧ job.frames_.1 ≤ z0 ∧ z1 ≤ job.frames_.2 := by
  unfold JobList.contains_at at h
  cases hj : jobs.jobs_[k]? with
  | none => rw [hj] at h; exact absurd h (by simp)
  | some job =>
    rw [hj] at h
    simp only [Bool.and_eq_true, decide_eq_true_eq] at h
    exact ⟨job, rfl, h.1, h.2⟩

/-- Reading `first` or `last` in a lookup with the keys of a single group: on a frame of
the group a successful call returns the cell of that frame. -/
theorem first_last_single (lookup : ReflectionLookup.JobRangeLookup) (E f0 f1 : Int)
    (hgroup : lookup.group_ = List.replicate E.toNat 0)
    (hoff : lookup.offset_ = [0, (f1 - f0).toNat]) (hfr : lookup.frame0_ = [f0])
    (i0 : is_int f0) (i1 : is_int f1) (eid : Nat) (frame : Int)
    (hframe : f0 ≤ frame ∧ frame < f1) :
    (∀ j0, lookup.first eid frame = some j0 → j0 = lookup.lookup0_.getD (frame - f0).toNat 0)
    ∧ (∀ j1, lookup.last eid frame = some j1 →
        j1 = lookup.lookup1_.getD (frame - f0).toNat 0) := by
  have hgrp : lookup.group_.getD eid 0 = 0 := by
    rw [hgroup, List.getD_eq_getElem?_getD, List.getElem?_replicate]
    split_ifs <;> rfl
  have hidx : to_size_t frame ≥ to_size_t f0 →
      (0 + to_size_t frame - to_size_t f0) % 18446744073709551616 = (frame - f0).toNat := by
    unfold is_int at i0 i1
    unfold to_size_t
    omega
  constructor
  · intro j0 h
    unfold ReflectionLookup.JobRangeLookup.first at h
    obtain ⟨_, h⟩ := of_guard h
    obtain ⟨_, h⟩ := of_guard h
    obtain ⟨a3, h⟩ := of_guard h
    obtain ⟨_, h⟩ := of_guard h
    obtain ⟨_, h⟩ := of_guard h
    simp only [hgrp, hoff, hfr, List.getD_cons_zero, Option.some.injEq] at h a3
    rw [hidx a3] at h
    exact h.symm
  · intro j1 h
    unfold ReflectionLookup.JobRangeLookup.last at h
    obtain ⟨_, h⟩ := of_guard h
    obtain ⟨_, h⟩ := of_guard h
    obtain ⟨a3, h⟩ := of_guard h
    obtain ⟨_, h⟩ := of_guard h
    obtain ⟨_, h⟩ := of_guard h
    simp only [hgrp, hoff, hfr, List.getD_cons_zero, Option.some.injEq] at h a3
    rw [hidx a3] at h
    exact h.symm


theorem getD_map_of_lt (bbox : List int6) (g : int6 → Int) (i : Nat)
    (hi : i < bbox.length) : (bbox.map g).getD i 0 = g bbox[i] := by
  rw [List.getD_eq_getElem?_getD, List.getElem?_map, List.getElem?_eq_getElem hi]
  rfl

/-- The lists of a lookup built over a built job list.  The construction succeeds
only over a single group, whose candidate range of a record spans every job
containing its extent; so the entries of a record are decided by the job the
scan selects among all jobs. -/
theorem lookup_global (af : Flags) (id flags : List Nat) (bbox : List int6) (jl : JobList)
    (lk : ReflectionLookup) (hb : JobList.Built jl)
    (h : ReflectionLookup.make af id flags bbox jl = some lk) :
    0 < jl.size ∧ lk.jobs_ = jl
    ∧ (∀ j, (lk.entries j).Pairwise (fun a b => a.1 < b.1))
    ∧ (∀ j, ∀ e ∈ lk.entries j, e.1 < bbox.length ∧ j < jl.size)
    ∧ (∀ j, j < jl.size → lk.indices j = some ((lk.entries j).map Prod.fst)
        ∧ lk.mask j = some ((lk.entries j).map Prod.snd))
    ∧ ∀ i, i < bbox.length →
        (flags.getD i 0 &&& af.DontIntegrate ≠ 0 → ∀ j o, (i, o) ∉ lk.entries j)
        ∧ (flags.getD i 0 &&& af.DontIntegrate = 0 →
            ∃ jmin, ReflectionLookup.Owner jl 0 jl.size ((bbox.map (fun b => b.z0)).getD i 0)
                ((bbox.map (fun b => b.z1)).getD i 0) jmin
              ∧ ∀ j o, (i, o) ∈ lk.entries j ↔
                  ((j = jmin ∧ o = true)
                  ∨ (j ≠ jmin ∧ o = false ∧ flags.getD i 0 &&& af.ReferenceSpot ≠ 0
                      ∧ j < jl.size
                      ∧ jl.contains_at j ((bbox.map (fun b => b.z0)).getD i 0)
                          ((bbox.map (fun b => b.z1)).getD i 0) = true))) := by
  obtain ⟨lookup, hlk, hjobs, hpos, hslices, hnone, hpw, hchar, hlt, hex⟩ :=
    lookup_entries af id flags bbox jl lk h
  obtain ⟨g, hg⟩ := range_lookup_single_group jl hb lookup hlk
  obtain ⟨E, f0, f1, bs, hE, iE, i0, i1, hf, hbs, hjobsw, hge⟩ := built_single jl hb g hg
  have hJ : jl.jobs_.length < 18446744073709551616 := by
    have := spec_windows_length_le f0 f1 bs hf hbs
    have := (to_size_t_of_is_int_diff f0 f1 i0 i1 hf).2.2
    rw [hjobsw, List.length_map]
    omega
  subst hge
  obtain ⟨t1, t2, t3, _, _, T0, T1⟩ :=
    range_lookup_single jl E f0 f1 lookup hg hE iE i0 i1 hf hJ hlk
  obtain ⟨_, _, fj, lj, _, hhead, hlast, hbox, _⟩ := make_some af id flags bbox jl lk h
  obtain ⟨⟨w0, c1, c1'⟩, ⟨w1, c2, c2'⟩, _, _⟩ := spec_windows_cover f0 f1 bs hf hbs
  have hfj : fj.frames_.1 = f0 := by
    rw [hjobsw, List.head?_map, c1] at hhead
    simp only [Option.map_some', Option.some.injEq] at hhead
    rw [← hhead]; exact c1'
  have hlj : lj.frames_.2 = f1 := by
    rw [hjobsw, List.getLast?_map, c2] at hlast
    simp only [Option.map_some', Option.some.injEq] at hlast
    rw [← hlast]; exact c2'
  have hin : ∀ j (e : Nat × Bool), e ∈ lk.entries j → j < jl.size := by
    intro j e he
    by_contra hc
    rw [(hnone j hc).2.2] at he
    simp at he
  refine ⟨hpos, hjobs, hpw, fun j e he => ⟨hlt j e he, hin j e he⟩, hslices, ?_⟩
  intro i hi
  have hz0 := getD_map_of_lt bbox (fun b => b.z0) i hi
  have hz1 := getD_map_of_lt bbox (fun b => b.z1) i hi
  obtain ⟨b1, b2, b3⟩ := hbox bbox[i] (List.getElem_mem hi)
  rw [hfj] at b2
  rw [hlj] at b3
  constructor
  · intro hdi j o hmem
    have hL : ReflectionLookup.ListedRecord af jl lookup id flags bbox i j o :=
      ((hchar j (hin j _ hmem) (i, o)).1 hmem).2
    exact hdi hL.1
  · intro hdi
    obtain ⟨k, _, j0, j1, jmin, hfirst, hlast', hown, _⟩ := hex i hi hdi
    rw [hz0] at hfirst hown ⊢
    rw [hz1] at hlast' hown ⊢
    have e0 := (first_last_single lookup E f0 f1 t1 t2 t3 i0 i1 (id.getD i 0) bbox[i].z0
      ⟨b2, by omega⟩).1 j0 hfirst
    have e1 := (first_last_single lookup E f0 f1 t1 t2 t3 i0 i1 (id.getD i 0) (bbox[i].z1 - 1)
      ⟨by omega, by omega⟩).2 j1 hlast'
    obtain ⟨_, _, _, _, p0⟩ := T0 bbox[i].z0 b2 (by omega)
    obtain ⟨job1, q0, _, _, p1⟩ := T1 (bbox[i].z1 - 1) (by omega) (by omega)
    rw [← e0] at p0
    rw [← e1] at p1 q0
    have hj1 : j1 < jl.jobs_.length := by
      by_contra hc
      rw [List.getElem?_eq_none (by omega)] at q0
      exact absurd q0 (by simp)
    have hrange : ∀ k, jl.contains_at k bbox[i].z0 bbox[i].z1 = true → j0 ≤ k ∧ k ≤ j1 := by
      intro k hk
      obtain ⟨job, r1, r2, r3⟩ := contains_at_true jl k _ _ hk
      constructor
      · by_contra hc
        have := p0 k (by omega) job r1
        omega
      · by_contra hc
        have := p1 k (by omega) job r1
        omega
    have hown0 : ReflectionLookup.Owner jl 0 jl.size bbox[i].z0 bbox[i].z1 jmin := by
      obtain ⟨o1, o2, o3, o4⟩ := hown
      refine ⟨Nat.zero_le _, by unfold JobList.size; omega, o3, ?_⟩
      intro k _ _ hk
      exact o4 k (hrange k hk).1 (by have := (hrange k hk).2; omega) hk
    refine ⟨jmin, hown0, ?_⟩
    intro j o
    constructor
    · intro hmem
      have hj := hin j _ hmem
      have hL : ReflectionLookup.ListedRecord af jl lookup id flags bbox i j o :=
        ((hchar j hj (i, o)).1 hmem).2
      unfold ReflectionLookup.ListedRecord ReflectionLookup.Listed at hL
      rw [hz0, hz1] at hL
      obtain ⟨_, j0', j1', jmin', hf', hl', hown', hcase⟩ := hL
      rw [hfirst] at hf'
      rw [hlast'] at hl'
      simp only [Option.some.injEq] at hf' hl'
      subst hf' hl'
      have hu := owner_unique jl _ _ _ _ _ _ hown hown'
      subst hu
      rcases hcase with ⟨c1, c2⟩ | ⟨c1, c2, c3, _, _, c6⟩
      · exact Or.inl ⟨c1, c2⟩
      · exact Or.inr ⟨c1, c2, c3, hj, c6⟩
    · intro hcase
      have hj : j < jl.size := by
        rcases hcase with ⟨c1, _⟩ | ⟨_, _, _, c4, _⟩
        · rw [c1]; exact hown0.2.1
        · exact c4
      refine (hchar j hj (i, o)).2 ⟨hi, ?_⟩
      show ReflectionLookup.ListedRecord af jl lookup id flags bbox i j o
      unfold ReflectionLookup.ListedRecord ReflectionLookup.Listed
      rw [hz0, hz1]
      refine ⟨hdi, j0, j1, jmin, hfirst, hlast', hown, ?_⟩
      rcases hcase with ⟨c1, c2⟩ | ⟨c1, c2, c3, _, c5⟩
      · exact Or.inl ⟨c1, c2⟩
      · exact Or.inr ⟨c1, c2, c3, (hrange j c5).1, (hrange j c5).2, c5⟩

theorem example_jobs_built : JobList.Built example_jobs :=
  JobList.Built.add JobList.empty example_jobs (0, 1) (0, 10) 4 JobList.Built.empty
    (by decide) (by decide) (by decide) (by decide) (by decide) (by decide)

/-- The scan beyond the range: over the frames `[1073741815, 1073741835)` with block
size 8 the record `[1073741823, 1073741825)` lies in jobs 1 and 2, at distances
1 and 3 from their centres, and is owned by job 2: the sums `z1 + z0` of the
record and `jz1 + jz0` of job 2 have left the 32-bit range, that of job 1 has
not. -/
theorem scan_overflow_example :
    ∃ big lkb, JobList.empty.add (0, 1) (1073741815, 1073741835) 8 = some big
      ∧ big.jobs_.map (fun j => j.frames_)
          = [(1073741815, 1073741823), (1073741819, 1073741827),
             (1073741823, 1073741831), (1073741827, 1073741835)]
      ∧ ReflectionLookup.make example_af [0] [0]
          [⟨0, 1, 0, 1, 1073741823, 1073741825⟩] big = some lkb
      ∧ lkb.indices 1 = some [] ∧ lkb.indices 2 = some [0] ∧ lkb.mask 2 = some [true]
      ∧ big.contains_at 1 1073741823 1073741825 = true
      ∧ big.contains_at 2 1073741823 1073741825 = true
      ∧ center_dist 1073741823 1073741825 ⟨0, (0, 1), (1073741819, 1073741827)⟩ = 1
      ∧ center_dist 1073741823 1073741825 ⟨0, (0, 1), (1073741823, 1073741831)⟩ = 3 :=
  ⟨⟨[⟨0, (0, 1), (1073741815, 1073741823)⟩, ⟨0, (0, 1), (1073741819, 1073741827)⟩,
      ⟨0, (0, 1), (1073741823, 1073741831)⟩, ⟨0, (0, 1), (1073741827, 1073741835)⟩],
      ⟨[⟨(0, 4), (0, 1), (1073741815, 1073741835)⟩]⟩⟩,
    ⟨⟨[⟨0, (0, 1), (1073741815, 1073741823)⟩, ⟨0, (0, 1), (1073741819, 1073741827)⟩,
      ⟨0, (0, 1), (1073741823, 1073741831)⟩, ⟨0, (0, 1), (1073741827, 1073741835)⟩],
      ⟨[⟨(0, 4), (0, 1), (1073741815, 1073741835)⟩]⟩⟩, [0, 0, 0, 1, 1], [0], [true]⟩,
    by decide, by decide, by decide, by decide, by decide, by decide, by decide, by decide,
    by norm_num [center_dist], by norm_num [center_dist]⟩

theorem entries_fst_nodup (l : List (Nat × Bool)) (h : l.Pairwise (fun a b => a.1 < b.1)) :
    (l.map Prod.fst).Nodup := by
  unfold List.Nodup
  rw [List.pairwise_map]
  exact h.imp (fun hab => ne_of_lt hab)

theorem mem_owned_part (l : List (Nat × Bool)) (i : Nat) :
    i ∈ (l.filter (fun e => e.2)).map Prod.fst ↔ (i, true) ∈ l := by
  rw [List.mem_map]
  constructor
  · rintro ⟨e, he, rfl⟩
    rw [List.mem_filter] at he
    have : e = (e.1, true) := Prod.ext rfl he.2
    rw [← this]; exact he.1
  · intro h
    exact ⟨(i, true), by rw [List.mem_filter]; exact ⟨h, rfl⟩, rfl⟩

/-- C3 (uniqueness). Over a built job list, when the construction of the lookup
succeeds: a record without the `DontIntegrate` bit is listed as owned in exactly
one job, once in the list of that job, and in no other job unless it is a
reference spot; an entry that is not owned is of a reference spot; a record with
the `DontIntegrate` bit is in no list; and the owned record indices over all
jobs are, each once, the records without the `DontIntegrate` bit. -/
theorem C3_uniqueness (af : Flags) (id flags : List Nat) (bbox : List int6) (jl : JobList)
    (lk : ReflectionLookup) (hb : JobList.Built jl)
    (h : ReflectionLookup.make af id flags bbox jl = some lk) :
    (∀ i, i < bbox.length → flags.getD i 0 &&& af.DontIntegrate = 0 →
      ∃ j, (∀ j', (i, true) ∈ lk.entries j' ↔ j' = j)
        ∧ ((lk.entries j).map Prod.fst).count i = 1
        ∧ (flags.getD i 0 &&& af.ReferenceSpot = 0 →
            ∀ j' o, (i, o) ∈ lk.entries j' → j' = j))
    ∧ (∀ j i, (i, false) ∈ lk.entries j → flags.getD i 0 &&& af.ReferenceSpot ≠ 0)
    ∧ (∀ i, i < bbox.length → flags.getD i 0 &&& af.DontIntegrate ≠ 0 →
        ∀ j o, (i, o) ∉ lk.entries j)
    ∧ lk.owned_indices.Perm ((List.range bbox.length).filter
        (fun i => decide (flags.getD i 0 &&& af.DontIntegrate = 0))) := by
  obtain ⟨_, hjobs, hpw, hlt, _, hrec⟩ := lookup_global af id flags bbox jl lk hb h
  have howned : ∀ i, i < bbox.length → flags.getD i 0 &&& af.DontIntegrate = 0 →
      ∃ j, j < jl.size ∧ ∀ j', (i, true) ∈ lk.entries j' ↔ j' = j := by
    intro i hi hdi
    obtain ⟨jmin, hown, hiff⟩ := (hrec i hi).2 hdi
    refine ⟨jmin, hown.2.1, fun j' => ?_⟩
    rw [hiff j' true]
    constructor
    · rintro (⟨c1, _⟩ | ⟨_, c2, _⟩)
      · exact c1
      · exact absurd c2 (by simp)
    · intro hj; exact Or.inl ⟨hj, rfl⟩
  refine ⟨?_, ?_, fun i hi hdi => (hrec i hi).1 hdi, ?_⟩
  · intro i hi hdi
    obtain ⟨jmin, hown, hiff⟩ := (hrec i hi).2 hdi
    refine ⟨jmin, ?_, ?_, ?_⟩
    · intro j'
      rw [hiff j' true]
      constructor
      · rintro (⟨c1, _⟩ | ⟨_, c2, _⟩)
        · exact c1
        · exact absurd c2 (by simp)
      · intro hj; exact Or.inl ⟨hj, rfl⟩
    · apply List.count_eq_one_of_mem (entries_fst_nodup _ (hpw jmin))
      rw [List.mem_map]
      exact ⟨(i, true), (hiff jmin true).2 (Or.inl ⟨rfl, rfl⟩), rfl⟩
    · intro hnr j' o hmem
      rcases (hiff j' o).1 hmem with ⟨c1, _⟩ | ⟨_, _, c3, _⟩
      · exact c1
      · exact absurd hnr c3
  · intro j i hmem
    have hi := (hlt j _ hmem).1
    by_cases hdi : flags.getD i 0 &&& af.DontIntegrate = 0
    · obtain ⟨jmin, _, hiff⟩ := (hrec i hi).2 hdi
      rcases (hiff j false).1 hmem with ⟨_, c2⟩ | ⟨_, _, c3, _⟩
      · exact absurd c2 (by simp)
      · exact c3
    · exact absurd hmem ((hrec i hi).1 hdi j false)
  · have hmem : ∀ i, i ∈ lk.owned_indices ↔ ∃ j, (i, true) ∈ lk.entries j := by
      intro i
      unfold ReflectionLookup.owned_indices
      rw [List.mem_flatMap]
      constructor
      · rintro ⟨j, _, hj⟩
        exact ⟨j, (mem_owned_part _ i).1 hj⟩
      · rintro ⟨j, hj⟩
        refine ⟨j, ?_, (mem_owned_part _ i).2 hj⟩
        rw [List.mem_range]
        unfold ReflectionLookup.size
        rw [hjobs]
        exact (hlt j _ hj).2
    apply (List.perm_ext_iff_of_nodup ?_ ((List.nodup_range _).filter _)).2
    · intro i
      rw [hmem i, List.mem_filter, List.mem_range, decide_eq_true_eq]
      constructor
      · rintro ⟨j, hj⟩
        have hi := (hlt j _ hj).1
        refine ⟨hi, ?_⟩
        by_contra hdi
        exact (hrec i hi).1 hdi j true hj
      · rintro ⟨hi, hdi⟩
        obtain ⟨j, _, hj⟩ := howned i hi hdi
        exact ⟨j, (hj j).2 rfl⟩
    · unfold ReflectionLookup.owned_indices
      rw [List.nodup_flatMap]
      constructor
      · intro j _
        exact (entries_fst_nodup _ (hpw j)).sublist
          ((List.filter_sublist _).map Prod.fst)
      · apply (List.nodup_range _).pairwise_of_forall_ne
        intro a _ b _ hab
        intro i hia hib
        have ha := (mem_owned_part _ i).1 hia
        have hb' := (mem_owned_part _ i).1 hib
        have hi := (hlt a _ ha).1
        have hdi : flags.getD i 0 &&& af.DontIntegrate = 0 := by
          by_contra hdi
          exact (hrec i hi).1 hdi a true ha
        obtain ⟨j, _, hj⟩ := howned i hi hdi
        exact hab (((hj a).1 ha).trans ((hj b).1 hb').symm)



/-- Instance of C3: the four records of the worked example. -/
theorem C3_uniqueness_witness :
    (∀ i, i < example_bbox.length → example_flags.getD i 0 &&& example_af.DontIntegrate = 0 →
      ∃ j, (∀ j', (i, true) ∈ example_lookup.entries j' ↔ j' = j)
        ∧ ((example_lookup.entries j).map Prod.fst).count i = 1
        ∧ (example_flags.getD i 0 &&& example_af.ReferenceSpot = 0 →
            ∀ j' o, (i, o) ∈ example_lookup.entries j' → j' = j))
    ∧ (∀ j i, (i, false) ∈ example_lookup.entries j →
        example_flags.getD i 0 &&& example_af.ReferenceSpot ≠ 0)
    ∧ (∀ i, i < example_bbox.length → example_flags.getD i 0 &&& example_af.DontIntegrate ≠ 0 →
        ∀ j o, (i, o) ∉ example_lookup.entries j)
    ∧ example_lookup.owned_indices.Perm ((List.range example_bbox.length).filter
        (fun i => decide (example_flags.getD i 0 &&& example_af.DontIntegrate = 0))) :=
  C3_uniqueness example_af example_id example_flags example_bbox example_jobs example_lookup
    example_jobs_built (by decide)

/-- Selection succeeds on indices inside the table and returns the rows they name. -/
theorem select_rows_index_spec {α : Type} (data : reflection_table α) :
    ∀ (ind : List Nat), (∀ i ∈ ind, i < data.length) →
      ∃ rows, select_rows_index data ind = some rows ∧ rows.length = ind.length
        ∧ ∀ (p i : Nat), ind[p]? = some i → rows[p]? = data[i]? := by
  intro ind
  induction ind with
  | nil => intro _; exact ⟨[], rfl, rfl, fun p i h => by simp at h⟩
  | cons a rest ih =>
    intro hall
    obtain ⟨rows, h1, h2, h3⟩ := ih (fun i hi => hall i (List.mem_cons_of_mem _ hi))
    have ha : a < data.length := hall a (List.mem_cons_self _ _)
    refine ⟨data[a] :: rows, ?_, by simp [h2], ?_⟩
    · simp only [select_rows_index, List.getElem?_eq_getElem ha, h1]
    · intro p i hp
      cases p with
      | zero =>
        simp only [List.getElem?_cons_zero, Option.some.injEq] at hp
        subst hp
        simp [List.getElem?_eq_getElem ha]
      | succ p =>
        simp only [List.getElem?_cons_succ] at hp ⊢
        exact h3 p i hp

theorem scatter_length {α : Type} :
    ∀ (ind : List Nat) (msk : List Bool) (rows data : reflection_table α),
      (set_selected_rows_index_mask data ind msk rows).length = data.length := by
  intro ind
  induction ind with
  | nil => intro msk rows data; simp [set_selected_rows_index_mask]
  | cons i rest ih =>
    intro msk rows data
    cases msk with
    | nil => simp [set_selected_rows_index_mask]
    | cons m ms =>
      cases rows with
      | nil => simp [set_selected_rows_index_mask]
      | cons row rs =>
        simp only [set_selected_rows_index_mask]
        rw [ih]
        split_ifs <;> simp

/-- A row that no owned position names is left as it was. -/
theorem scatter_other {α : Type} :
    ∀ (ind : List Nat) (msk : List Bool) (rows data : reflection_table α) (r : Nat),
      (∀ p : Nat, ind[p]? = some r → msk[p]? ≠ some true) →
      (set_selected_rows_index_mask data ind msk rows)[r]? = data[r]? := by
  intro ind
  induction ind with
  | nil => intro msk rows data r _; simp [set_selected_rows_index_mask]
  | cons i rest ih =>
    intro msk rows data r hr
    cases msk with
    | nil => simp [set_selected_rows_index_mask]
    | cons m ms =>
      cases rows with
      | nil => simp [set_selected_rows_index_mask]
      | cons row rs =>
        simp only [set_selected_rows_index_mask]
        rw [ih ms rs _ r (fun p hp => by simpa using hr (p + 1) (by simpa using hp))]
        by_cases hm : m = true
        · rw [if_pos hm]
          have hne : i ≠ r := by
            intro hir
            exact hr 0 (by simp [hir]) (by simp [hm])
          exact List.getElem?_set_ne hne
        · rw [if_neg hm]

/-- An owned position receives its row of the result, when no record index occurs
twice and all are inside the table. -/
theorem scatter_owned {α : Type} :
    ∀ (ind : List Nat) (msk : List Bool) (rows data : reflection_table α),
      ind.Nodup → (∀ i ∈ ind, i < data.length) → ind.length = rows.length →
      ∀ (p r : Nat), ind[p]? = some r → msk[p]? = some true →
        (set_selected_rows_index_mask data ind msk rows)[r]? = rows[p]? := by
  intro ind
  induction ind with
  | nil => intro msk rows data _ _ _ p r hp; simp at hp
  | cons i rest ih =>
    intro msk rows data hnd hall hlen p r hp hm
    cases msk with
    | nil => simp at hm
    | cons m ms =>
      cases rows with
      | nil => simp at hlen
      | cons row rs =>
        rw [List.nodup_cons] at hnd
        simp only [set_selected_rows_index_mask]
        cases p with
        | zero =>
          simp only [List.getElem?_cons_zero, Option.some.injEq] at hp hm ⊢
          subst hp hm
          rw [scatter_other rest ms rs _ i (fun q hq => absurd (List.getElem?_mem hq) hnd.1)]
          simp only [if_true]
          exact List.getElem?_set_self (hall i (List.mem_cons_self _ _))
        | succ p =>
          simp only [List.getElem?_cons_succ] at hp hm ⊢
          apply ih ms rs _ hnd.2 _ (by simpa using hlen) p r hp hm
          intro k hk
          have := hall k (List.mem_cons_of_mem _ hk)
          split_ifs <;> simpa using this

/-- Writing back rows equal to the rows in place changes nothing. -/
theorem scatter_same {α : Type} :
    ∀ (ind : List Nat) (msk : List Bool) (rows data : reflection_table α),
      (∀ (p i : Nat), ind[p]? = some i → msk[p]? = some true →
        ∃ row, rows[p]? = some row ∧ data[i]? = some row) →
      set_selected_rows_index_mask data ind msk rows = data := by
  intro ind
  induction ind with
  | nil => intro msk rows data _; simp [set_selected_rows_index_mask]
  | cons i rest ih =>
    intro msk rows data hsame
    cases msk with
    | nil => simp [set_selected_rows_index_mask]
    | cons m ms =>
      cases rows with
      | nil => simp [set_selected_rows_index_mask]
      | cons row rs =>
        simp only [set_selected_rows_index_mask]
        have hd : (if m = true then data.set i row else data) = data := by
          by_cases hm : m = true
          · rw [if_pos hm]
            obtain ⟨row', h1, h2⟩ := hsame 0 i (by simp) (by simp [hm])
            simp only [List.getElem?_cons_zero, Option.some.injEq] at h1
            subst h1
            apply List.ext_getElem? 
            intro k
            by_cases hk : i = k
            · subst hk
              rw [List.getElem?_set_self (by
                by_contra hc
                rw [List.getElem?_eq_none (by omega)] at h2
                exact absurd h2 (by simp)), h2]
            · rw [List.getElem?_set_ne hk]
          · rw [if_neg hm]
        rw [hd]
        exact ih ms rs data (fun p k hp hm => by
          simpa using hsame (p + 1) k (by simpa using hp) (by simpa using hm))

/-! ### The manager -/

/-- What a successful construction of the manager went through. -/
theorem manager_make_some {α : Type} (af : Flags) (jobs : JobList) (data : reflection_table α)
    (m : ReflectionManager α) (h : ReflectionManager.make af jobs data = some m) :
    ∃ lk, ReflectionLookup.make af (data.map (fun r => r.id)) (data.map (fun r => r.flags))
        (data.map (fun r => r.bbox)) jobs = some lk
      ∧ m = ⟨lk, data, List.replicate jobs.size false⟩
      ∧ 0 < data.length ∧ 0 < jobs.size := by
  unfold ReflectionManager.make at h
  cases hi : ReflectionManager.init af jobs data with
  | none => rw [hi] at h; exact absurd h (by simp)
  | some lk =>
    rw [hi] at h
    simp only at h
    obtain ⟨_, h⟩ := of_guard h
    unfold ReflectionManager.init at hi
    obtain ⟨a1, hi⟩ := of_guard hi
    obtain ⟨a2, hi⟩ := of_guard hi
    obtain ⟨_, _, hjobs, _⟩ := lookup_entries af _ _ _ jobs lk hi
    simp only [Option.some.injEq] at h
    refine ⟨lk, hi, ?_, a1, a2⟩
    rw [← h]
    unfold ReflectionLookup.size
    rw [hjobs]

/-- The two ways a call of `accumulate` ends. -/
theorem accumulate_cases {α : Type} (m : ReflectionManager α) (index : Nat)
    (result : reflection_table α) :
    ((m.accumulate index result).ok = true ∧ index < m.finished_.length
      ∧ m.finished_.getD index false = false
      ∧ ∃ ind msk, m.lookup_.indices index = some ind ∧ m.lookup_.mask index = some msk
        ∧ ind.length = msk.length ∧ ind.length = result.length
        ∧ (m.accumulate index result).state
            = ⟨m.lookup_, set_selected_rows_index_mask m.data_ ind msk result,
                m.finished_.set index true⟩)
    ∨ ((m.accumulate index result).ok = false ∧ (m.accumulate index result).state = m
      ∧ (¬ index < m.finished_.length ∨ m.finished_.getD index false = true
        ∨ ¬ ∃ ind msk, m.lookup_.indices index = some ind ∧ m.lookup_.mask index = some msk
            ∧ ind.length = msk.length ∧ ind.length = result.length)) := by
  unfold ReflectionManager.accumulate
  by_cases h1 : index < m.finished_.length
  swap
  · rw [if_pos h1]; exact Or.inr ⟨rfl, rfl, Or.inl h1⟩
  rw [if_neg (not_not.mpr h1)]
  by_cases h2 : m.finished_.getD index false = false
  swap
  · rw [if_pos h2]
    refine Or.inr ⟨rfl, rfl, Or.inr (Or.inl ?_)⟩
    cases hv : m.finished_.getD index false with
    | true => rfl
    | false => exact absurd hv h2
  rw [if_neg (not_not.mpr h2)]
  cases hi : m.lookup_.indices index with
  | none =>
    refine Or.inr ⟨rfl, rfl, Or.inr (Or.inr ?_)⟩
    rintro ⟨ind, msk, e, _⟩
    exact absurd e (by simp)
  | some ind =>
    cases hk : m.lookup_.mask index with
    | none =>
      refine Or.inr ⟨rfl, rfl, Or.inr (Or.inr ?_)⟩
      rintro ⟨ind', msk, _, e, _⟩
      exact absurd e (by simp)
    | some msk =>
      simp only
      by_cases h3 : ind.length = msk.length
      swap
      · rw [if_pos h3]
        refine Or.inr ⟨rfl, rfl, Or.inr (Or.inr ?_)⟩
        rintro ⟨ind', msk', e1, e2, e3, _⟩
        simp only [Option.some.injEq] at e1 e2
        subst e1 e2
        exact h3 e3
      rw [if_neg (not_not.mpr h3)]
      by_cases h4 : ind.length = result.length
      swap
      · rw [if_pos h4]
        refine Or.inr ⟨rfl, rfl, Or.inr (Or.inr ?_)⟩
        rintro ⟨ind', msk', e1, e2, _, e4⟩
        simp only [Option.some.injEq] at e1 e2
        subst e1 e2
        exact h4 e4
      rw [if_neg (not_not.mpr h4)]
      exact Or.inl ⟨rfl, h1, h2, ind, msk, rfl, rfl, h3, h4, rfl⟩

/-- The invariant of the reachable states: the lookup is the one built by the
constructor, the table and the flag vector keep their lengths, and the flag of
a job is set exactly when the job is among the accumulated ones. -/
theorem reached_inv {α : Type} (af : Flags) (jobs : JobList) (data : reflection_table α)
    (done : List Nat) (m : ReflectionManager α)
    (hr : ReflectionManager.Reached af jobs data done m) :
    ReflectionLookup.make af (data.map (fun r => r.id)) (data.map (fun r => r.flags))
        (data.map (fun r => r.bbox)) jobs = some m.lookup_
    ∧ m.finished_.length = jobs.size ∧ m.data_.length = data.length
    ∧ 0 < jobs.size
    ∧ (∀ j, j < jobs.size → (m.finished_.getD j false = true ↔ j ∈ done)) := by
  induction hr with
  | fresh m hm =>
    obtain ⟨lk, h1, h2, _, h4⟩ := manager_make_some af jobs data m hm
    subst h2
    refine ⟨h1, by simp, rfl, h4, ?_⟩
    intro j hj
    simp only [List.getD_eq_getElem?_getD, List.getElem?_replicate, hj, if_true,
      Option.getD_some, List.not_mem_nil]
    simp
  | accumulated done m index result _ hok ih =>
    obtain ⟨i1, i2, i3, i4, i5⟩ := ih
    rcases accumulate_cases m index result with ⟨_, c1, c2, ind, msk, _, _, _, _, c7⟩ |
      ⟨c1, _⟩
    · rw [c7]
      refine ⟨i1, by simp [i2], by simp [scatter_length, i3], i4, ?_⟩
      intro j hj
      simp only [List.getD_eq_getElem?_getD, List.getElem?_set, List.mem_cons]
      by_cases hji : index = j
      · subst hji
        simp [c1]
      · have : ¬ j = index := fun hh => hji hh.symm
        simp only [hji, if_false, this, false_or]
        rw [← List.getD_eq_getElem?_getD]
        exact i5 j hj
    · rw [c1] at hok; exact absurd hok (by simp)
  | rejected done m index result _ hok ih =>
    rcases accumulate_cases m index result with ⟨c1, _⟩ | ⟨_, c2, _⟩
    · rw [c1] at hok; exact absurd hok (by simp)
    · rw [c2]; exact ih

/-- In a reachable state the two slices of every job exist: they are the two
components of its entries, whose record indices are distinct and inside the
table. -/
theorem reached_slices {α : Type} (af : Flags) (jobs : JobList) (data : reflection_table α)
    (done : List Nat) (m : ReflectionManager α)
    (hr : ReflectionManager.Reached af jobs data done m) (j : Nat) (hj : j < m.size) :
    m.lookup_.indices j = some ((m.lookup_.entries j).map Prod.fst)
    ∧ m.lookup_.mask j = some ((m.lookup_.entries j).map Prod.snd)
    ∧ ((m.lookup_.entries j).map Prod.fst).Nodup
    ∧ ∀ i ∈ (m.lookup_.entries j).map Prod.fst, i < m.data_.length := by
  obtain ⟨i1, i2, i3, _, _⟩ := reached_inv af jobs data done m hr
  obtain ⟨_, _, _, _, h4, _, h6, _, h8, _⟩ := lookup_entries af _ _ _ jobs m.lookup_ i1
  have hj' : j < jobs.size := by unfold ReflectionManager.size at hj; omega
  refine ⟨(h4 j hj').1, (h4 j hj').2, entries_fst_nodup _ (h6 j), ?_⟩
  intro i hi
  rw [List.mem_map] at hi
  obtain ⟨e, he, rfl⟩ := hi
  have := h8 j e he
  rw [List.length_map] at this
  omega

/-- C6 (at most once, atomic rejection). In a reachable state `accumulate` fails
exactly when the index is not a job, or the job is already finished, or the
result has not as many rows as the index list of the job; a failed call
leaves the manager as it was; after a successful call every further call
for the same job fails. -/
theorem C6_accumulate_rejection {α : Type} (af : Flags) (jobs : JobList)
    (data : reflection_table α) (done : List Nat) (m : ReflectionManager α)
    (hr : ReflectionManager.Reached af jobs data done m) (index : Nat)
    (result : reflection_table α) :
    ((m.accumulate index result).ok = false ↔
      (¬ index < m.size ∨ m.finished_.getD index false = true
        ∨ (m.lookup_.indices index).map List.length ≠ some result.length))
    ∧ ((m.accumulate index result).ok = false → (m.accumulate index result).state = m)
    ∧ ((m.accumulate index result).ok = true →
        ∀ result', ((m.accumulate index result).state.accumulate index result').ok = false) := by
  refine ⟨?_, ?_, ?_⟩
  · constructor
    · intro hfail
      rcases accumulate_cases m index result with ⟨c1, _⟩ | ⟨_, _, c3⟩
      · rw [c1] at hfail; exact absurd hfail (by simp)
      · rcases c3 with c3 | c3 | c3
        · exact Or.inl c3
        · exact Or.inr (Or.inl c3)
        · by_cases hidx : index < m.size
          · obtain ⟨s1, s2, _, _⟩ := reached_slices af jobs data done m hr index hidx
            refine Or.inr (Or.inr ?_)
            rw [s1]
            simp only [Option.map_some', ne_eq, Option.some.injEq]
            intro hlen
            exact c3 ⟨_, _, s1, s2, by simp, hlen⟩
          · exact Or.inl hidx
    · intro hwhy
      rcases accumulate_cases m index result with ⟨_, c2, c3, ind, msk, c4, _, _, c7, _⟩ | ⟨c1, _⟩
      · rcases hwhy with h | h | h
        · exact absurd c2 h
        · rw [c3] at h; exact absurd h (by simp)
        · rw [c4] at h
          simp only [Option.map_some', ne_eq, Option.some.injEq] at h
          exact absurd c7 h
      · exact c1
  · intro hfail
    rcases accumulate_cases m index result with ⟨c1, _⟩ | ⟨_, c2, _⟩
    · rw [c1] at hfail; exact absurd hfail (by simp)
    · exact c2
  · intro hok result'
    rcases accumulate_cases m index result with ⟨_, c2, _, ind, msk, _, _, _, _, c8⟩ | ⟨c1, _⟩
    · rcases accumulate_cases (m.accumulate index result).state index result' with
        ⟨_, _, d3, _⟩ | ⟨d1, _⟩
      · rw [c8] at d3
        simp only [List.getD_eq_getElem?_getD, List.getElem?_set_self c2,
          Option.getD_some] at d3
        exact absurd d3 (by simp)
      · exact d1
    · rw [c1] at hok; exact absurd hok (by simp)

/-- Instance of C6: the fresh manager of the worked example, job 1. -/
theorem C6_accumulate_rejection_witness :
    ((example_manager.accumulate 1 example_result).ok = false ↔
      (¬ 1 < example_manager.size ∨ example_manager.finished_.getD 1 false = true
        ∨ (example_manager.lookup_.indices 1).map List.length ≠ some example_result.length))
    ∧ ((example_manager.accumulate 1 example_result).ok = false →
        (example_manager.accumulate 1 example_result).state = example_manager)
    ∧ ((example_manager.accumulate 1 example_result).ok = true →
        ∀ result', ((example_manager.accumulate 1 example_result).state.accumulate 1
          result').ok = false) :=
  C6_accumulate_rejection example_af example_jobs example_table [] example_manager
    (ReflectionManager.Reached.fresh example_manager (by decide)) 1 example_result

/-- C7 (effect of a successful accumulate). In a reachable state, after a successful
`accumulate` the row of every owned position of the job is the row of the
result at that position, every row that no owned position names is as before,
the flag of the job is set and the other flags and the lookup are as before. -/
theorem C7_accumulate_effect {α : Type} (af : Flags) (jobs : JobList)
    (data : reflection_table α) (done : List Nat) (m : ReflectionManager α)
    (hr : ReflectionManager.Reached af jobs data done m) (index : Nat)
    (result : reflection_table α) (hok : (m.accumulate index result).ok = true) :
    ∃ ind msk, m.lookup_.indices index = some ind ∧ m.lookup_.mask index = some msk
      ∧ ind.length = result.length ∧ msk.length = result.length
      ∧ (∀ (p r : Nat), ind[p]? = some r → msk[p]? = some true →
          (m.accumulate index result).state.data_[r]? = result[p]?
          ∧ ∃ row, result[p]? = some row)
      ∧ (∀ r : Nat, (∀ p : Nat, ind[p]? = some r → msk[p]? ≠ some true) →
          (m.accumulate index result).state.data_[r]? = m.data_[r]?)
      ∧ (m.accumulate index result).state.data_.length = m.data_.length
      ∧ (m.accumulate index result).state.finished_.getD index false = true
      ∧ (∀ j, j ≠ index →
          (m.accumulate index result).state.finished_[j]? = m.finished_[j]?)
      ∧ (m.accumulate index result).state.finished_.length = m.finished_.length
      ∧ (m.accumulate index result).state.lookup_ = m.lookup_ := by
  rcases accumulate_cases m index result with ⟨_, c2, _, ind, msk, c4, c5, c6, c7, c8⟩ | ⟨c1, _⟩
  swap
  · rw [c1] at hok; exact absurd hok (by simp)
  obtain ⟨s1, _, s3, s4⟩ := reached_slices af jobs data done m hr index c2
  rw [c4, Option.some.injEq] at s1
  rw [c8]
  refine ⟨ind, msk, c4, c5, c7, by omega, ?_, ?_, ?_, ?_, ?_, ?_, rfl⟩
  · intro p r hp hm
    refine ⟨scatter_owned ind msk result m.data_ (by rw [s1]; exact s3)
      (by rw [s1]; exact s4) c7 p r hp hm, ?_⟩
    have hp' : p < result.length := by
      have := (List.getElem?_eq_some_iff.1 hp).1
      omega
    exact ⟨result[p], List.getElem?_eq_getElem hp'⟩
  · intro r hr'
    exact scatter_other ind msk result m.data_ r hr'
  · exact scatter_length ind msk result m.data_
  · simp only [List.getD_eq_getElem?_getD, List.getElem?_set_self c2, Option.getD_some]
  · intro j hj
    exact List.getElem?_set_ne (fun hh => hj hh.symm)
  · simp

/-- Instance of C7: the fresh manager of the worked example, job 1. -/
theorem C7_accumulate_effect_witness :
    ∃ ind msk, example_manager.lookup_.indices 1 = some ind
      ∧ example_manager.lookup_.mask 1 = some msk
      ∧ ind.length = example_result.length ∧ msk.length = example_result.length
      ∧ (∀ (p r : Nat), ind[p]? = some r → msk[p]? = some true →
          (example_manager.accumulate 1 example_result).state.data_[r]? = example_result[p]?
          ∧ ∃ row, example_result[p]? = some row)
      ∧ (∀ r : Nat, (∀ p : Nat, ind[p]? = some r → msk[p]? ≠ some true) →
          (example_manager.accumulate 1 example_result).state.data_[r]?
            = example_manager.data_[r]?)
      ∧ (example_manager.accumulate 1 example_result).state.data_.length
          = example_manager.data_.length
      ∧ (example_manager.accumulate 1 example_result).state.finished_.getD 1 false = true
      ∧ (∀ j, j ≠ 1 →
          (example_manager.accumulate 1 example_result).state.finished_[j]?
            = example_manager.finished_[j]?)
      ∧ (example_manager.accumulate 1 example_result).state.finished_.length
          = example_manager.finished_.length
      ∧ (example_manager.accumulate 1 example_result).state.lookup_
          = example_manager.lookup_ :=
  C7_accumulate_effect example_af example_jobs example_table [] example_manager
    (ReflectionManager.Reached.fresh example_manager (by decide)) 1 example_result
    (by decide)

/-- C8 (split). In a reachable state, for a job index `index`, `split` succeeds and
returns as many rows as the job lists; row `p` is the table row of record
`indices(index)[p]`, with the `DontIntegrate` bit added to its flags when
`mask(index)[p]` is false and unchanged when it is true; the manager after the
call is the manager before it. -/
theorem C8_split {α : Type} (af : Flags) (jobs : JobList) (data : reflection_table α)
    (done : List Nat) (m : ReflectionManager α)
    (hr : ReflectionManager.Reached af jobs data done m) (index : Nat)
    (hidx : index < m.size) :
    ∃ ind msk part, m.lookup_.indices index = some ind ∧ m.lookup_.mask index = some msk
      ∧ m.split af index = some (part, m)
      ∧ part.length = ind.length ∧ msk.length = ind.length
      ∧ ∀ (p i : Nat) (b : Bool), ind[p]? = some i → msk[p]? = some b →
          ∃ row, m.data_[i]? = some row
            ∧ part[p]? = some (if b = false then
                { row with flags := row.flags ||| af.DontIntegrate } else row) := by
  obtain ⟨s1, s2, _, s4⟩ := reached_slices af jobs data done m hr index hidx
  obtain ⟨rows, r1, r2, r3⟩ := select_rows_index_spec m.data_ _ s4
  have hlen : ((m.lookup_.entries index).map Prod.fst).length
      = ((m.lookup_.entries index).map Prod.snd).length := by simp
  refine ⟨_, _, List.zipWith (fun (row : Row α) (b : Bool) =>
      if b = false then { row with flags := row.flags ||| af.DontIntegrate } else row)
    rows ((m.lookup_.entries index).map Prod.snd), s1, s2, ?_, ?_, hlen.symm, ?_⟩
  · unfold ReflectionManager.split
    unfold ReflectionManager.size at hidx
    rw [if_neg (not_not.mpr hidx), s1, s2]
    simp only
    rw [if_neg (not_not.mpr hlen), r1]
  · rw [List.length_zipWith, r2, ← hlen, Nat.min_self]
  · intro p i b hp hb
    have hpl : p < ((m.lookup_.entries index).map Prod.fst).length :=
      (List.getElem?_eq_some_iff.1 hp).1
    have hi : i < m.data_.length := s4 i (List.getElem?_mem hp)
    refine ⟨m.data_[i], List.getElem?_eq_getElem hi, ?_⟩
    rw [List.getElem?_zipWith, r3 p i hp, List.getElem?_eq_getElem hi, hb]

/-- Instance of C8: the fresh manager of the worked example, job 1. -/
theorem C8_split_witness :
    ∃ ind msk part, example_manager.lookup_.indices 1 = some ind
      ∧ example_manager.lookup_.mask 1 = some msk
      ∧ example_manager.split example_af 1 = some (part, example_manager)
      ∧ part.length = ind.length ∧ msk.length = ind.length
      ∧ ∀ (p i : Nat) (b : Bool), ind[p]? = some i → msk[p]? = some b →
          ∃ row, example_manager.data_[i]? = some row
            ∧ part[p]? = some (if b = false then
                { row with flags := row.flags ||| example_af.DontIntegrate } else row) :=
  C8_split example_af example_jobs example_table [] example_manager
    (ReflectionManager.Reached.fresh example_manager (by decide)) 1 (by decide)

theorem finished_iff {α : Type} (m : ReflectionManager α) :
    m.finished = true ↔ ∀ j, j < m.finished_.length → m.finished_.getD j false = true := by
  unfold ReflectionManager.finished
  rw [List.all_eq_true]
  constructor
  · intro h j hj
    rw [List.getD_eq_getElem?_getD, List.getElem?_eq_getElem hj, Option.getD_some]
    simpa using h _ (List.getElem_mem hj)
  · intro h x hx
    obtain ⟨j, hj, rfl⟩ := List.getElem_of_mem hx
    have := h j hj
    rw [List.getD_eq_getElem?_getD, List.getElem?_eq_getElem hj, Option.getD_some] at this
    simpa using this

/-- C9 (`data` and `finished`). In a reachable state `finished()` is true exactly when
every job has had a successful `accumulate`, that is when every flag is set;
`data()` returns the table exactly when `finished()` is true and fails
otherwise; a fresh manager has at least one job, all flags unset, and its
`data()` fails. -/
theorem C9_data_finished {α : Type} (af : Flags) (jobs : JobList)
    (data : reflection_table α) (done : List Nat) (m : ReflectionManager α)
    (hr : ReflectionManager.Reached af jobs data done m) :
    (m.finished = true ↔ ∀ j, j < m.size → j ∈ done)
    ∧ (m.finished = true ↔ ∀ j, j < m.size → m.finished_.getD j false = true)
    ∧ (m.finished = true → m.data = some m.data_)
    ∧ (m.finished = false → m.data = none)
    ∧ ((∃ t, m.data = some t) ↔ m.finished = true)
    ∧ (∀ m0, ReflectionManager.make af jobs data = some m0 →
        1 ≤ m0.size ∧ (∀ j, j < m0.size → m0.finished_.getD j false = false)
        ∧ m0.finished = false ∧ m0.data = none) := by
  obtain ⟨_, i2, _, _, i5⟩ := reached_inv af jobs data done m hr
  have hdata : ∀ (x : ReflectionManager α), (x.finished = true → x.data = some x.data_)
      ∧ (x.finished = false → x.data = none) := by
    intro x
    unfold ReflectionManager.data
    constructor
    · intro h; rw [if_neg (not_not.mpr h)]
    · intro h; rw [if_pos (by rw [h]; simp)]
  refine ⟨?_, finished_iff m, (hdata m).1, (hdata m).2, ?_, ?_⟩
  · rw [finished_iff]
    unfold ReflectionManager.size
    constructor
    · intro h j hj; exact (i5 j (by omega)).1 (h j hj)
    · intro h j hj; exact (i5 j (by omega)).2 (h j hj)
  · constructor
    · rintro ⟨t, ht⟩
      cases hf : m.finished with
      | true => rfl
      | false => rw [(hdata m).2 hf] at ht; exact absurd ht (by simp)
    · intro hf; exact ⟨_, (hdata m).1 hf⟩
  · intro m0 hm0
    obtain ⟨lk, _, h2, _, h4⟩ := manager_make_some af jobs data m0 hm0
    subst h2
    have hflags : ∀ j, j < (ReflectionManager.mk lk data (List.replicate jobs.size false)).size →
        (List.replicate jobs.size false).getD j false = false := by
      intro j _
      rw [List.getD_eq_getElem?_getD, List.getElem?_replicate]
      split_ifs <;> rfl
    have hfin : (ReflectionManager.mk lk data (List.replicate jobs.size false)).finished
        = false := by
      cases hf : (ReflectionManager.mk lk data (List.replicate jobs.size false)).finished with
      | false => rfl
      | true =>
        have := (finished_iff _).1 hf 0 (by simpa using h4)
        rw [hflags 0 (by simpa [ReflectionManager.size] using h4)] at this
        exact absurd this (by simp)
    refine ⟨by simpa [ReflectionManager.size] using h4, hflags, hfin, (hdata _).2 hfin⟩

/-- Instance of C9: the fresh manager of the worked example. -/
theorem C9_data_finished_witness :
    (example_manager.finished = true ↔ ∀ j, j < example_manager.size → j ∈ ([] : List Nat))
    ∧ (example_manager.finished = true ↔
        ∀ j, j < example_manager.size → example_manager.finished_.getD j false = true)
    ∧ (example_manager.finished = true → example_manager.data = some example_manager.data_)
    ∧ (example_manager.finished = false → example_manager.data = none)
    ∧ ((∃ t, example_manager.data = some t) ↔ example_manager.finished = true)
    ∧ (∀ m0, ReflectionManager.make example_af example_jobs example_table = some m0 →
        1 ≤ m0.size ∧ (∀ j, j < m0.size → m0.finished_.getD j false = false)
        ∧ m0.finished = false ∧ m0.data = none) :=
  C9_data_finished example_af example_jobs example_table [] example_manager
    (ReflectionManager.Reached.fresh example_manager (by decide))

/-- Feeding the split of an unfinished job straight back: both calls succeed, the
table is the same afterwards and the flag of the job is set. -/
theorem round_trip_step {α : Type} (af : Flags) (jobs : JobList) (data : reflection_table α)
    (done : List Nat) (m : ReflectionManager α)
    (hr : ReflectionManager.Reached af jobs data done m) (j : Nat) (hj : j < m.size)
    (hfin : m.finished_.getD j false = false) :
    ∃ part, m.split af j = some (part, m) ∧ (m.accumulate j part).ok = true
      ∧ (m.accumulate j part).state = ⟨m.lookup_, m.data_, m.finished_.set j true⟩ := by
  obtain ⟨s1, s2, _, s4⟩ := reached_slices af jobs data done m hr j hj
  obtain ⟨rows, r1, r2, r3⟩ := select_rows_index_spec m.data_ _ s4
  have hlen : ((m.lookup_.entries j).map Prod.fst).length
      = ((m.lookup_.entries j).map Prod.snd).length := by simp
  have hsplit : m.split af j = some (List.zipWith (fun (row : Row α) (b : Bool) =>
      if b = false then { row with flags := row.flags ||| af.DontIntegrate } else row)
      rows ((m.lookup_.entries j).map Prod.snd), m) := by
    unfold ReflectionManager.split
    unfold ReflectionManager.size at hj
    rw [if_neg (not_not.mpr hj), s1, s2]
    simp only
    rw [if_neg (not_not.mpr hlen), r1]
  refine ⟨_, hsplit, ?_⟩
  have hplen : (List.zipWith (fun (row : Row α) (b : Bool) =>
      if b = false then { row with flags := row.flags ||| af.DontIntegrate } else row)
      rows ((m.lookup_.entries j).map Prod.snd)).length
      = ((m.lookup_.entries j).map Prod.fst).length := by
    rw [List.length_zipWith, r2, ← hlen, Nat.min_self]
  rcases accumulate_cases m j (List.zipWith (fun (row : Row α) (b : Bool) =>
      if b = false then { row with flags := row.flags ||| af.DontIntegrate } else row)
      rows ((m.lookup_.entries j).map Prod.snd)) with
    ⟨c1, _, _, ind, msk, c4, c5, _, _, c8⟩ | ⟨_, _, c3⟩
  · refine ⟨c1, ?_⟩
    rw [s1, Option.some.injEq] at c4
    rw [s2, Option.some.injEq] at c5
    subst c4 c5
    rw [c8, scatter_same]
    intro p i hp hm
    have hi : i < m.data_.length := s4 i (List.getElem?_mem hp)
    refine ⟨m.data_[i], ?_, List.getElem?_eq_getElem hi⟩
    rw [List.getElem?_zipWith, r3 p i hp, List.getElem?_eq_getElem hi, hm]
    simp
  · exfalso
    rcases c3 with c3 | c3 | c3
    · exact c3 hj
    · rw [hfin] at c3; exact absurd c3 (by simp)
    · exact c3 ⟨_, _, s1, s2, hlen, hplen.symm⟩

/-- The round trip over a list of distinct unfinished jobs succeeds, leaves the table
as it was, and reaches the state in which these jobs are accumulated too. -/
theorem round_trip_all {α : Type} (af : Flags) (jobs : JobList) (data : reflection_table α) :
    ∀ (order done : List Nat) (m : ReflectionManager α),
      ReflectionManager.Reached af jobs data done m → order.Nodup →
      (∀ j ∈ order, j < jobs.size ∧ j ∉ done) →
      ∃ m', ReflectionManager.round_trip af m order = some m'
        ∧ ReflectionManager.Reached af jobs data (order.reverse ++ done) m'
        ∧ m'.data_ = m.data_ := by
  intro order
  induction order with
  | nil =>
    intro done m hr _ _
    exact ⟨m, rfl, by simpa using hr, rfl⟩
  | cons j rest ih =>
    intro done m hr hnd hall
    rw [List.nodup_cons] at hnd
    obtain ⟨_, i2, _, _, i5⟩ := reached_inv af jobs data done m hr
    obtain ⟨hj1, hj2⟩ := hall j (List.mem_cons_self _ _)
    have hfin : m.finished_.getD j false = false := by
      cases hv : m.finished_.getD j false with
      | false => rfl
      | true => exact absurd ((i5 j hj1).1 hv) hj2
    obtain ⟨part, p1, p2, p3⟩ := round_trip_step af jobs data done m hr j
      (by unfold ReflectionManager.size; omega) hfin
    have hr1 := ReflectionManager.Reached.accumulated done m j part hr p2
    obtain ⟨m', q1, q2, q3⟩ := ih (j :: done) _ hr1 hnd.2 (by
      intro k hk
      refine ⟨(hall k (List.mem_cons_of_mem _ hk)).1, ?_⟩
      intro hmem
      rcases List.mem_cons.1 hmem with h | h
      · subst h; exact hnd.1 hk
      · exact (hall k (List.mem_cons_of_mem _ hk)).2 h)
    refine ⟨m', ?_, ?_, ?_⟩
    · simp only [ReflectionManager.round_trip, p1, p2, if_true]
      exact q1
    · have e : (j :: rest).reverse ++ done = rest.reverse ++ (j :: done) := by simp
      rw [e]; exact q2
    · rw [q3, p3]

/-- C5 (round trip). In a reachable state, for an unfinished job `j`, `split` and
then `accumulate` of the rows `split` returned both succeed, leave the table
identical and set the flag of `j`.  From the fresh manager, doing this once
for every job, in any order, succeeds; then `finished()` is true and `data()`
returns the table that was given, so a table with as many rows. -/
theorem C5_round_trip {α : Type} (af : Flags) (jobs : JobList) (data : reflection_table α)
    (done : List Nat) (m : ReflectionManager α)
    (hr : ReflectionManager.Reached af jobs data done m) (j : Nat) (hj : j < m.size)
    (hfin : m.finished_.getD j false = false) :
    (∃ part, m.split af j = some (part, m) ∧ (m.accumulate j part).ok = true
      ∧ (m.accumulate j part).state.data_ = m.data_
      ∧ (m.accumulate j part).state.finished_ = m.finished_.set j true
      ∧ (m.accumulate j part).state.finished_.getD j false = true)
    ∧ (∀ m0 order, ReflectionManager.make af jobs data = some m0 →
        order.Perm (List.range m0.size) →
        ∃ m', ReflectionManager.round_trip af m0 order = some m' ∧ m'.finished = true
          ∧ m'.data = some data ∧ m'.data_.length = data.length) := by
  constructor
  · obtain ⟨part, p1, p2, p3⟩ := round_trip_step af jobs data done m hr j hj hfin
    refine ⟨part, p1, p2, by rw [p3], by rw [p3], ?_⟩
    rw [p3]
    unfold ReflectionManager.size at hj
    simp only [List.getD_eq_getElem?_getD, List.getElem?_set_self hj, Option.getD_some]
  · intro m0 order hm0 hperm
    have hr0 : ReflectionManager.Reached af jobs data [] m0 :=
      ReflectionManager.Reached.fresh m0 hm0
    obtain ⟨_, _, h2, _, _⟩ := manager_make_some af jobs data m0 hm0
    have hsize : m0.size = jobs.size := by
      rw [h2]; simp [ReflectionManager.size]
    have hdata0 : m0.data_ = data := by rw [h2]
    obtain ⟨m', q1, q2, q3⟩ := round_trip_all af jobs data order [] m0 hr0
      (hperm.nodup_iff.2 (List.nodup_range _)) (by
        intro k hk
        have := hperm.mem_iff.1 hk
        rw [List.mem_range, hsize] at this
        exact ⟨this, by simp⟩)
    obtain ⟨_, i2, _, _, i5⟩ := reached_inv af jobs data _ m' q2
    have hfin' : m'.finished = true := by
      rw [finished_iff]
      intro k hk
      rw [i2] at hk
      apply (i5 k hk).2
      rw [List.append_nil, List.mem_reverse, hperm.mem_iff, List.mem_range, hsize]
      exact hk
    refine ⟨m', q1, hfin', ?_, by rw [q3, hdata0]⟩
    unfold ReflectionManager.data
    rw [if_neg (not_not.mpr hfin'), q3, hdata0]

/-- Instance of C5: the fresh manager of the worked example, job 1. -/
theorem C5_round_trip_witness :
    (∃ part, example_manager.split example_af 1 = some (part, example_manager)
      ∧ (example_manager.accumulate 1 part).ok = true
      ∧ (example_manager.accumulate 1 part).state.data_ = example_manager.data_
      ∧ (example_manager.accumulate 1 part).state.finished_
          = example_manager.finished_.set 1 true
      ∧ (example_manager.accumulate 1 part).state.finished_.getD 1 false = true)
    ∧ (∀ m0 order, ReflectionManager.make example_af example_jobs example_table = some m0 →
        order.Perm (List.range m0.size) →
        ∃ m', ReflectionManager.round_trip example_af m0 order = some m' ∧ m'.finished = true
          ∧ m'.data = some example_table ∧ m'.data_.length = example_table.length) :=
  C5_round_trip example_af example_jobs example_table [] example_manager
    (ReflectionManager.Reached.fresh example_manager (by decide)) 1 (by decide) (by decide)

/-- C11 (unit blocks). With block size 1 and a non-empty frame range of `int` bounds
and `n` frames there is a list `js` of exactly `n` jobs, the `i`-th with window
`[f0 + i, f0 + i + 1)`, such that `add_jobs` returns the old jobs followed by
`js` whenever the experiment range is valid and `n` is in the `int` range, and
every successful `add` has appended exactly `js`: the windows have width 1 and
no two of them share a frame; over `[0, 5)` these are 5 jobs. -/
theorem C11_unit_blocks (self : JobList) (expr : Int × Int) (f0 f1 : Int)
    (i0 : is_int f0) (i1 : is_int f1) (hf : f0 < f1) :
    (∃ js : List JobList.Job,
      (0 ≤ expr.1 ∧ expr.1 < expr.2 → is_int (f1 - f0) →
        self.add_jobs self.groups_.size expr (f0, f1) 1 = some (self.jobs_ ++ js))
      ∧ (∀ new, self.add expr (f0, f1) 1 = some new → JobList.appended self new = js)
      ∧ (js.length : Int) = f1 - f0
      ∧ (∀ i : Nat, i < js.length →
          js[i]? = some ⟨self.groups_.size, expr, (f0 + (i : Int), f0 + (i : Int) + 1)⟩)
      ∧ (∀ j ∈ js, j.frames_.2 - j.frames_.1 = 1)
      ∧ (∀ (i k : Nat) (a b : JobList.Job), i ≠ k → js[i]? = some a → js[k]? = some b →
          ∀ f, ¬ (a.has_frame f ∧ b.has_frame f)))
    ∧ (JobList.empty.add (0, 1) (0, 5) 1).map (fun l => l.jobs_.map (fun j => j.frames_))
        = some [(0, 1), (1, 2), (2, 3), (3, 4), (4, 5)] := by
  refine ⟨?_, by decide⟩
  have hj := add_appends self expr f0 f1 1 i0 i1 hf (le_refl _)
  have hw : JobList.spec_windows f0 f1 1
      = (List.range (f1 - f0).toNat).map
          (fun (i : Nat) => (f0 + (i : Int), f0 + (i : Int) + 1)) := by
    rcases spec_windows_cases f0 f1 1 hf (le_refl _) with ⟨_, hw⟩ | ⟨h2, _⟩
    · exact hw
    · have := min_le_left (1 : Int) (f1 - f0)
      omega
  rw [hw] at hj
  have hget : ∀ i : Nat, i < (f1 - f0).toNat →
      (List.map (fun w => (⟨self.groups_.size, expr, w⟩ : JobList.Job))
        ((List.range (f1 - f0).toNat).map
          (fun (i : Nat) => (f0 + (i : Int), f0 + (i : Int) + 1))))[i]?
        = some ⟨self.groups_.size, expr, (f0 + (i : Int), f0 + (i : Int) + 1)⟩ := by
    intro i hi
    simp only [List.getElem?_map, List.getElem?_range hi, Option.map_some']
  refine ⟨_, fun he hn => hj.1 he ⟨hn, fun hne => absurd (min_eq_left (by omega)) hne⟩,
    hj.2, ?_, ?_, ?_, ?_⟩
  · simp only [List.length_map, List.length_range]
    omega
  · intro i hi
    simp only [List.length_map, List.length_range] at hi
    exact hget i hi
  · intro j hjm
    simp only [List.mem_map, List.mem_range] at hjm
    obtain ⟨w, ⟨i, _, rfl⟩, rfl⟩ := hjm
    simp
  · intro i k a b hik ha hb f hf'
    have hi : i < (f1 - f0).toNat := by
      have := (List.getElem?_eq_some_iff.1 ha).1
      simpa using this
    have hk : k < (f1 - f0).toNat := by
      have := (List.getElem?_eq_some_iff.1 hb).1
      simpa using this
    rw [hget i hi, Option.some.injEq] at ha
    rw [hget k hk, Option.some.injEq] at hb
    subst ha hb
    unfold JobList.Job.has_frame at hf'
    simp only at hf'
    omega

/-- Instance of C11: frames `[3, 9)` appended to the empty list. -/
theorem C11_unit_blocks_witness :
    (∃ js : List JobList.Job,
      ((0 : Int) ≤ ((0, 2) : Int × Int).1 ∧ ((0, 2) : Int × Int).1 < ((0, 2) : Int × Int).2 →
        is_int (9 - 3) →
        JobList.empty.add_jobs JobList.empty.groups_.size (0, 2) (3, 9) 1
          = some (JobList.empty.jobs_ ++ js))
      ∧ (∀ new, JobList.empty.add (0, 2) (3, 9) 1 = some new
          → JobList.appended JobList.empty new = js)
      ∧ (js.length : Int) = 9 - 3
      ∧ (∀ i : Nat, i < js.length →
          js[i]? = some ⟨JobList.empty.groups_.size, (0, 2), (3 + (i : Int), 3 + (i : Int) + 1)⟩)
      ∧ (∀ j ∈ js, j.frames_.2 - j.frames_.1 = 1)
      ∧ (∀ (i k : Nat) (a b : JobList.Job), i ≠ k → js[i]? = some a → js[k]? = some b →
          ∀ f, ¬ (a.has_frame f ∧ b.has_frame f)))
    ∧ (JobList.empty.add (0, 1) (0, 5) 1).map (fun l => l.jobs_.map (fun j => j.frames_))
        = some [(0, 1), (1, 2), (2, 3), (3, 4), (4, 5)] :=
  C11_unit_blocks JobList.empty (0, 2) 3 9 (by decide) (by decide) (by decide)

/-- C15 (overlap). For a frame range of `int` bounds whose clamped block size exceeds
1, with `half = ceil (n / num_blocks)`, there is a list `js` of jobs such that
`add_jobs` returns the old jobs followed by `js` whenever the experiment range
is valid and no `int` operation overflows, every successful `add` has appended
exactly `js`, and: two adjacent jobs of `js` share exactly the frames from the
start of the later to the end of the earlier, and these are exactly `half`
frames for every adjacent pair (so at least 1 and at most `half`, also for a
pair with the first or the last job); jobs two apart share no frame. -/
theorem C15_overlap (self : JobList) (expr : Int × Int) (f0 f1 bs : Int)
    (i0 : is_int f0) (i1 : is_int f1) (hb : 1 < min bs (f1 - f0)) :
    ∃ js : List JobList.Job,
      (0 ≤ expr.1 ∧ expr.1 < expr.2 → JobList.fits f0 f1 bs →
        self.add_jobs self.groups_.size expr (f0, f1) bs = some (self.jobs_ ++ js))
      ∧ (∀ new, self.add expr (f0, f1) bs = some new → JobList.appended self new = js)
      ∧ (∀ (i : Nat) (a b : JobList.Job), js[i]? = some a → js[i + 1]? = some b →
          (∀ f, (a.has_frame f ∧ b.has_frame f) ↔ (b.frames_.1 ≤ f ∧ f < a.frames_.2))
          ∧ a.frames_.2 - b.frames_.1
              = ceil_div (f1 - f0) (ceil_div (2 * (f1 - f0)) (min bs (f1 - f0)))
          ∧ 1 ≤ a.frames_.2 - b.frames_.1
          ∧ a.frames_.2 - b.frames_.1
              ≤ ceil_div (f1 - f0) (ceil_div (2 * (f1 - f0)) (min bs (f1 - f0))))
      ∧ (∀ (i : Nat) (a c : JobList.Job), js[i]? = some a → js[i + 2]? = some c →
          ∀ f, ¬ (a.has_frame f ∧ c.has_frame f)) := by
  have hf : f0 < f1 := by
    have := min_le_right bs (f1 - f0)
    omega
  have hb1 : 1 ≤ bs := by
    have := min_le_left bs (f1 - f0)
    omega
  have hj := add_appends self expr f0 f1 bs i0 i1 hf hb1
  rcases spec_windows_cases f0 f1 bs hf hb1 with ⟨h1, _⟩ |
    ⟨_, half, K, e1, _, hh, _, hK, hK1, hK2, hw⟩
  · omega
  rw [hw] at hj
  rw [← e1]
  have hget : ∀ (i : Nat) (a : JobList.Job),
      (List.map (fun w => (⟨self.groups_.size, expr, w⟩ : JobList.Job))
        ((List.range (K - 1)).map
          (fun i => (JobList.mark f0 f1 half i, JobList.mark f0 f1 half (i + 2)))))[i]?
        = some a →
      i < K - 1 ∧ a.frames_ = (JobList.mark f0 f1 half i, JobList.mark f0 f1 half (i + 2)) := by
    intro i a ha
    have hi : i < K - 1 := by
      have := (List.getElem?_eq_some_iff.1 ha).1
      simpa using this
    simp only [List.getElem?_map, List.getElem?_range hi, Option.map_some',
      Option.some.injEq] at ha
    exact ⟨hi, by rw [← ha]⟩
  refine ⟨_, hj.1, hj.2, ?_, ?_⟩
  · intro i a b ha hb'
    obtain ⟨hi, hfa⟩ := hget i a ha
    obtain ⟨hi1, hfb⟩ := hget (i + 1) b hb'
    obtain ⟨m1, _⟩ := mark_of_lt f0 f1 half K (i + 1) hh hK1 (by omega)
    obtain ⟨m2, _⟩ := mark_of_lt f0 f1 half K (i + 2) hh hK1 (by omega)
    have e : ((i + 2 : Nat) : Int) * half = ((i + 1 : Nat) : Int) * half + half := by
      push_cast; ring
    have hlo := mark_mono f0 f1 half hh i (i + 1) (by omega)
    have hhi := mark_mono f0 f1 half hh (i + 2) (i + 1 + 2) (by omega)
    unfold JobList.Job.has_frame
    rw [hfa, hfb]
    simp only
    refine ⟨fun f => ⟨fun h => ⟨h.2.1, h.1.2⟩, fun h => ⟨⟨by omega, h.2⟩, h.1, by omega⟩⟩,
      by omega, by omega, by omega⟩
  · intro i a c ha hc f hboth
    obtain ⟨_, hfa⟩ := hget i a ha
    obtain ⟨_, hfc⟩ := hget (i + 2) c hc
    unfold JobList.Job.has_frame at hboth
    rw [hfa, hfc] at hboth
    simp only at hboth
    omega

/-- Instance of C15: frames `[3, 20)` with block size 5 appended to the empty list. -/
theorem C15_overlap_witness :
    ∃ js : List JobList.Job,
      ((0 : Int) ≤ ((0, 2) : Int × Int).1 ∧ ((0, 2) : Int × Int).1 < ((0, 2) : Int × Int).2 →
        JobList.fits 3 20 5 →
        JobList.empty.add_jobs JobList.empty.groups_.size (0, 2) (3, 20) 5
          = some (JobList.empty.jobs_ ++ js))
      ∧ (∀ new, JobList.empty.add (0, 2) (3, 20) 5 = some new
          → JobList.appended JobList.empty new = js)
      ∧ (∀ (i : Nat) (a b : JobList.Job), js[i]? = some a → js[i + 1]? = some b →
          (∀ f, (a.has_frame f ∧ b.has_frame f) ↔ (b.frames_.1 ≤ f ∧ f < a.frames_.2))
          ∧ a.frames_.2 - b.frames_.1
              = ceil_div (20 - 3) (ceil_div (2 * (20 - 3)) (min 5 (20 - 3)))
          ∧ 1 ≤ a.frames_.2 - b.frames_.1
          ∧ a.frames_.2 - b.frames_.1
              ≤ ceil_div (20 - 3) (ceil_div (2 * (20 - 3)) (min 5 (20 - 3))))
      ∧ (∀ (i : Nat) (a c : JobList.Job), js[i]? = some a → js[i + 2]? = some c →
          ∀ f, ¬ (a.has_frame f ∧ c.has_frame f)) :=
  C15_overlap JobList.empty (0, 2) 3 20 5 (by decide) (by decide) (by decide)

/-- C14 (missing containing job). When a record without the `DontIntegrate` bit has a
frame extent that the window of no job fully contains, the construction of the
lookup fails, whatever else holds of the input: the record is assigned to no
job. -/
theorem C14_missing_containing_job (af : Flags) (id flags : List Nat) (bbox : List int6)
    (jobs : JobList) (i : Nat) (hi : i < bbox.length)
    (hdi : flags.getD i 0 &&& af.DontIntegrate = 0)
    (hno : ∀ j, j < jobs.size → jobs.contains_at j bbox[i].z0 bbox[i].z1 = false) :
    ReflectionLookup.make af id flags bbox jobs = none := by
  cases h : ReflectionLookup.make af id flags bbox jobs with
  | none => rfl
  | some lk =>
    exfalso
    obtain ⟨lookup, _, _, _, _, _, _, _, _, hex⟩ := lookup_entries af id flags bbox jobs lk h
    obtain ⟨k, hL⟩ := hex i hi hdi
    unfold ReflectionLookup.ListedRecord ReflectionLookup.Listed at hL
    rw [getD_map_of_lt bbox (fun b => b.z0) i hi, getD_map_of_lt bbox (fun b => b.z1) i hi] at hL
    obtain ⟨_, j0, j1, jmin, _, _, hown, _⟩ := hL
    obtain ⟨_, _, o3, _⟩ := hown
    obtain ⟨job, hjob, _, _⟩ := contains_at_true jobs jmin _ _ o3
    have hlt : jmin < jobs.size := by
      unfold JobList.size
      by_contra hc
      rw [List.getElem?_eq_none (by omega)] at hjob
      exact absurd hjob (by simp)
    rw [hno jmin hlt] at o3
    exact absurd o3 (by simp)

/-- Instance of C14: a record with frame extent `[1, 7)` over the jobs
`[0,4), [2,6), [4,8), [6,10)`. -/
theorem C14_missing_containing_job_witness :
    ReflectionLookup.make example_af [0] [0] [⟨0, 1, 0, 1, 1, 7⟩] example_jobs = none :=
  C14_missing_containing_job example_af [0] [0] [⟨0, 1, 0, 1, 1, 7⟩] example_jobs 0
    (by decide) (by decide) (by decide)

theorem running_sum_diff {β : Type} (ls : List (List β)) (j : Nat) (hj : j < ls.length) :
    (0 :: ReflectionLookup.running_sum 0 (ls.map List.length)).getD (j + 1) 0
      - (0 :: ReflectionLookup.running_sum 0 (ls.map List.length)).getD j 0
      = (ls.getD j []).length := by
  rw [running_sum_getD ls 0 (j + 1) (by omega), running_sum_getD ls 0 j (by omega),
    flatten_take_succ ls j hj]
  omega

/-- C20 (per-job order). When the construction of the lookup succeeds, for every job
`j` the slices `indices(j)` and `mask(j)` exist and have the same length
`offset_[j+1] - offset_[j]`, every entry of `indices(j)` is a record index of
the table, and the entries of `indices(j)` are strictly increasing, so no record
index occurs twice in the list of a job. -/
theorem C20_per_job_order (af : Flags) (id flags : List Nat) (bbox : List int6)
    (jobs : JobList) (lk : ReflectionLookup)
    (h : ReflectionLookup.make af id flags bbox jobs = some lk) (j : Nat)
    (hj : j < jobs.size) :
    ∃ ind msk, lk.indices j = some ind ∧ lk.mask j = some msk
      ∧ ind.length = msk.length
      ∧ ind.length = lk.offset_.getD (j + 1) 0 - lk.offset_.getD j 0
      ∧ (∀ i ∈ ind, i < bbox.length)
      ∧ ind.Pairwise (fun a b => a < b)
      ∧ ind.Nodup
      ∧ ∀ i, ind.count i ≤ 1 := by
  obtain ⟨_, _, _, _, h4, _, h6, _, h8, _⟩ := lookup_entries af id flags bbox jobs lk h
  obtain ⟨_, ls, _, _, _, _, _, _, _, hloop, _, hlk⟩ := make_some af id flags bbox jobs lk h
  obtain ⟨r1, _⟩ := records_loop_spec af jobs _ id flags bbox bbox.length 0
    (List.replicate jobs.size []) ls (by simp) hloop
  have hsl := lookup_slices jobs ls j (by rw [r1]; exact hj)
  have hnd := entries_fst_nodup _ (h6 j)
  refine ⟨_, _, (h4 j hj).1, (h4 j hj).2, by simp, ?_, ?_, ?_, hnd,
    fun i => List.nodup_iff_count_le_one.1 hnd i⟩
  · have e1 := (h4 j hj).1
    rw [hlk] at e1 ⊢
    rw [hsl.1, Option.some.injEq] at e1
    simp only
    rw [running_sum_diff ls j (by rw [r1]; exact hj), ← e1, List.length_map]
  · intro i hi
    rw [List.mem_map] at hi
    obtain ⟨e, he, rfl⟩ := hi
    exact h8 j e he
  · rw [List.pairwise_map]
    exact h6 j

/-- Instance of C20: job 1 of the worked example. -/
theorem C20_per_job_order_witness :
    ∃ ind msk, example_lookup.indices 1 = some ind ∧ example_lookup.mask 1 = some msk
      ∧ ind.length = msk.length
      ∧ ind.length = example_lookup.offset_.getD (1 + 1) 0 - example_lookup.offset_.getD 1 0
      ∧ (∀ i ∈ ind, i < example_bbox.length)
      ∧ ind.Pairwise (fun a b => a < b)
      ∧ ind.Nodup
      ∧ ∀ i, ind.count i ≤ 1 :=
  C20_per_job_order example_af example_id example_flags example_bbox example_jobs
    example_lookup (by decide) 1 (by decide)

/-- A record index is listed as owned in at most one job. -/
theorem owned_job_unique (af : Flags) (id flags : List Nat) (bbox : List int6)
    (jobs : JobList) (lk : ReflectionLookup)
    (h : ReflectionLookup.make af id flags bbox jobs = some lk) (i j j' : Nat)
    (hj : (i, true) ∈ lk.entries j) (hj' : (i, true) ∈ lk.entries j') : j = j' := by
  obtain ⟨lookup, _, _, _, _, hnone, _, hchar, _, _⟩ :=
    lookup_entries af id flags bbox jobs lk h
  have hlt : ∀ k, (i, true) ∈ lk.entries k → k < jobs.size := by
    intro k hk
    by_contra hc
    rw [(hnone k hc).2.2] at hk
    exact absurd hk (by simp)
  have a := ((hchar j (hlt j hj) (i, true)).1 hj).2
  have b := ((hchar j' (hlt j' hj') (i, true)).1 hj').2
  unfold ReflectionLookup.ListedRecord ReflectionLookup.Listed at a b
  obtain ⟨_, j0, j1, jmin, a1, a2, a3, a4⟩ := a
  obtain ⟨_, k0, k1, kmin, b1, b2, b3, b4⟩ := b
  rw [a1, Option.some.injEq] at b1
  rw [a2, Option.some.injEq] at b2
  subst b1 b2
  have e := owner_unique jobs _ _ _ _ jmin kmin a3 b3
  rcases a4 with ⟨c, _⟩ | ⟨_, c, _⟩
  swap
  · exact absurd c (by simp)
  rcases b4 with ⟨d, _⟩ | ⟨_, d, _⟩
  swap
  · exact absurd d (by simp)
  omega

/-- The result of `accumulate` when all its assertions hold. -/
theorem accumulate_ok {α : Type} (m : ReflectionManager α) (index : Nat)
    (result : reflection_table α) (ind : List Nat) (msk : List Bool)
    (h1 : index < m.finished_.length) (h2 : m.finished_.getD index false = false)
    (h3 : m.lookup_.indices index = some ind) (h4 : m.lookup_.mask index = some msk)
    (h5 : ind.length = msk.length) (h6 : ind.length = result.length) :
    m.accumulate index result
      = ⟨true, ⟨m.lookup_, set_selected_rows_index_mask m.data_ ind msk result,
          m.finished_.set index true⟩⟩ := by
  unfold ReflectionManager.accumulate
  rw [if_neg (not_not.2 h1), if_neg (not_not.2 h2), h3, h4]
  simp only [if_neg (not_not.2 h5), if_neg (not_not.2 h6)]

/-- Position `q` of a list of pairs, read through its two projections. -/
theorem entries_at (l : List (Nat × Bool)) (q p : Nat) :
    ((l.map Prod.fst)[q]? = some p ∧ (l.map Prod.snd)[q]? = some true) ↔ l[q]? = some (p, true) := by
  rw [List.getElem?_map, List.getElem?_map]
  cases l[q]? with
  | none => simp
  | some e =>
    obtain ⟨a, b⟩ := e
    simp

/-- Two scatters over lists whose owned positions are disjoint commute. -/
theorem scatter_comm {α : Type} (e e' : List (Nat × Bool)) (r r' data : reflection_table α)
    (hn : (e.map Prod.fst).Nodup) (hn' : (e'.map Prod.fst).Nodup)
    (hb : ∀ i ∈ e.map Prod.fst, i < data.length)
    (hb' : ∀ i ∈ e'.map Prod.fst, i < data.length)
    (hl : (e.map Prod.fst).length = r.length) (hl' : (e'.map Prod.fst).length = r'.length)
    (hd : ∀ i, ¬ ((i, true) ∈ e ∧ (i, true) ∈ e')) :
    set_selected_rows_index_mask
        (set_selected_rows_index_mask data (e.map Prod.fst) (e.map Prod.snd) r)
        (e'.map Prod.fst) (e'.map Prod.snd) r'
      = set_selected_rows_index_mask
        (set_selected_rows_index_mask data (e'.map Prod.fst) (e'.map Prod.snd) r')
        (e.map Prod.fst) (e.map Prod.snd) r := by
  apply List.ext_getElem?
  intro p
  by_cases ha : ∃ q : Nat, e[q]? = some (p, true)
  · obtain ⟨q, hq⟩ := ha
    obtain ⟨q1, q2⟩ := (entries_at e q p).2 hq
    have hno : ∀ t : Nat, (e'.map Prod.fst)[t]? = some p → (e'.map Prod.snd)[t]? ≠ some true := by
      intro t h1 h2
      exact hd p ⟨List.getElem?_mem hq, List.getElem?_mem ((entries_at e' t p).1 ⟨h1, h2⟩)⟩
    rw [scatter_other _ _ _ _ p hno, scatter_owned _ _ r data hn hb hl q p q1 q2,
      scatter_owned _ _ r _ hn (by rw [scatter_length]; exact hb) hl q p q1 q2]
  · by_cases ha' : ∃ q : Nat, e'[q]? = some (p, true)
    · obtain ⟨q, hq⟩ := ha'
      obtain ⟨q1, q2⟩ := (entries_at e' q p).2 hq
      have hno : ∀ t : Nat, (e.map Prod.fst)[t]? = some p → (e.map Prod.snd)[t]? ≠ some true := by
        intro t h1 h2
        exact hd p ⟨List.getElem?_mem ((entries_at e t p).1 ⟨h1, h2⟩), List.getElem?_mem hq⟩
      rw [scatter_other _ _ r _ p hno, scatter_owned _ _ r' data hn' hb' hl' q p q1 q2,
        scatter_owned _ _ r' _ hn' (by rw [scatter_length]; exact hb') hl' q p q1 q2]
    · have hno : ∀ t : Nat, (e.map Prod.fst)[t]? = some p → (e.map Prod.snd)[t]? ≠ some true := by
        intro t h1 h2
        exact ha ⟨t, (entries_at e t p).1 ⟨h1, h2⟩⟩
      have hno' : ∀ t : Nat, (e'.map Prod.fst)[t]? = some p →
          (e'.map Prod.snd)[t]? ≠ some true := by
        intro t h1 h2
        exact ha' ⟨t, (entries_at e' t p).1 ⟨h1, h2⟩⟩
      rw [scatter_other _ _ r' _ p hno', scatter_other _ _ r _ p hno,
        scatter_other _ _ r _ p hno, scatter_other _ _ r' _ p hno']

/-- C17 (accumulates for different jobs commute). In a reachable state, for two
distinct unfinished jobs `j` and `j'` and results of the lengths of their lists:
no record index is owned by both jobs; `accumulate(j, r)` followed by
`accumulate(j', r')` succeeds, as does the other order; and both orders leave
the same manager: the same table, the same finished flags, the same lookup. -/
theorem C17_accumulate_commute {α : Type} (af : Flags) (jobs : JobList)
    (data : reflection_table α) (done : List Nat) (m : ReflectionManager α)
    (hr : ReflectionManager.Reached af jobs data done m) (j j' : Nat)
    (r r' : reflection_table α) (hne : j ≠ j') (hj : j < m.size) (hj' : j' < m.size)
    (hu : m.finished_.getD j false = false) (hu' : m.finished_.getD j' false = false)
    (hl : r.length = (m.lookup_.entries j).length)
    (hl' : r'.length = (m.lookup_.entries j').length) :
    (∀ i, ¬ ((i, true) ∈ m.lookup_.entries j ∧ (i, true) ∈ m.lookup_.entries j'))
    ∧ (m.accumulate j r).ok = true
    ∧ ((m.accumulate j r).state.accumulate j' r').ok = true
    ∧ (m.accumulate j' r').ok = true
    ∧ ((m.accumulate j' r').state.accumulate j r).ok = true
    ∧ ((m.accumulate j r).state.accumulate j' r').state
        = ((m.accumulate j' r').state.accumulate j r).state := by
  obtain ⟨i1, _, _, _, _⟩ := reached_inv af jobs data done m hr
  obtain ⟨s1, s2, s3, s4⟩ := reached_slices af jobs data done m hr j hj
  obtain ⟨t1, t2, t3, t4⟩ := reached_slices af jobs data done m hr j' hj'
  have hd : ∀ i, ¬ ((i, true) ∈ m.lookup_.entries j ∧ (i, true) ∈ m.lookup_.entries j') :=
    fun i hi => hne (owned_job_unique af _ _ _ jobs m.lookup_ i1 i j j' hi.1 hi.2)
  unfold ReflectionManager.size at hj hj'
  have a1 := accumulate_ok m j r _ _ hj hu s1 s2 (by simp) (by simp [hl])
  have b1 := accumulate_ok m j' r' _ _ hj' hu' t1 t2 (by simp) (by simp [hl'])
  have hu2 : (m.finished_.set j true).getD j' false = false := by
    rw [List.getD_eq_getElem?_getD, List.getElem?_set_ne hne, ← List.getD_eq_getElem?_getD]
    exact hu'
  have hu3 : (m.finished_.set j' true).getD j false = false := by
    rw [List.getD_eq_getElem?_getD, List.getElem?_set_ne (Ne.symm hne),
      ← List.getD_eq_getElem?_getD]
    exact hu
  have a2 := accumulate_ok (⟨m.lookup_, set_selected_rows_index_mask m.data_
      ((m.lookup_.entries j).map Prod.fst) ((m.lookup_.entries j).map Prod.snd) r,
      m.finished_.set j true⟩ : ReflectionManager α) j' r' _ _
    (by simp only [List.length_set]; exact hj') hu2 t1 t2 (by simp) (by simp [hl'])
  have b2 := accumulate_ok (⟨m.lookup_, set_selected_rows_index_mask m.data_
      ((m.lookup_.entries j').map Prod.fst) ((m.lookup_.entries j').map Prod.snd) r',
      m.finished_.set j' true⟩ : ReflectionManager α) j r _ _
    (by simp only [List.length_set]; exact hj) hu3 s1 s2 (by simp) (by simp [hl])
  have e1 : (m.accumulate j r).state = ⟨m.lookup_, set_selected_rows_index_mask m.data_
      ((m.lookup_.entries j).map Prod.fst) ((m.lookup_.entries j).map Prod.snd) r,
      m.finished_.set j true⟩ := by rw [a1]
  have e2 : (m.accumulate j' r').state = ⟨m.lookup_, set_selected_rows_index_mask m.data_
      ((m.lookup_.entries j').map Prod.fst) ((m.lookup_.entries j').map Prod.snd) r',
      m.finished_.set j' true⟩ := by rw [b1]
  refine ⟨hd, by rw [a1], by rw [e1, a2], by rw [b1], by rw [e2, b2], ?_⟩
  rw [e1, e2, a2, b2]
  simp only
  rw [scatter_comm _ _ r r' m.data_ s3 t3 s4 t4 (by simp [hl]) (by simp [hl']) hd,
    List.set_comm true true m.finished_ hne]

/-- Instance of C17: the fresh manager of the worked example, jobs 0 and 1. -/
theorem C17_accumulate_commute_witness :
    (∀ i, ¬ ((i, true) ∈ example_manager.lookup_.entries 0
        ∧ (i, true) ∈ example_manager.lookup_.entries 1))
    ∧ (example_manager.accumulate 0 [⟨0, 320, ⟨0, 1, 0, 1, 2, 4⟩, 31⟩]).ok = true
    ∧ ((example_manager.accumulate 0 [⟨0, 320, ⟨0, 1, 0, 1, 2, 4⟩, 31⟩]).state.accumulate 1
        example_result).ok = true
    ∧ (example_manager.accumulate 1 example_result).ok = true
    ∧ ((example_manager.accumulate 1 example_result).state.accumulate 0
        [⟨0, 320, ⟨0, 1, 0, 1, 2, 4⟩, 31⟩]).ok = true
    ∧ ((example_manager.accumulate 0 [⟨0, 320, ⟨0, 1, 0, 1, 2, 4⟩, 31⟩]).state.accumulate 1
        example_result).state
        = ((example_manager.accumulate 1 example_result).state.accumulate 0
            [⟨0, 320, ⟨0, 1, 0, 1, 2, 4⟩, 31⟩]).state :=
  C17_accumulate_commute example_af example_jobs example_table [] example_manager
    (ReflectionManager.Reached.fresh example_manager (by decide)) 0 1
    [⟨0, 320, ⟨0, 1, 0, 1, 2, 4⟩, 31⟩] example_result (by decide) (by decide) (by decide)
    (by decide) (by decide) (by decide) (by decide)

/-- C12, refuted as worded: over the jobs `[0,4), [2,6), [4,8), [6,10)` a reference spot
of experiment 0 with frame extent `[3,5)` is listed in job 1 (window `[2,6)`),
owned, and the list of job 0 (window `[0,4)`) is empty: the window `[0,4)` does
not contain `[3,5)`, and the scan lists a record only in jobs whose window
contains its extent. -/
theorem C12_counterexample :
    JobList.empty.add (0, 1) (0, 10) 4 = some example_jobs
    ∧ 64 &&& example_af.ReferenceSpot ≠ 0 ∧ 64 &&& example_af.DontIntegrate = 0
    ∧ example_jobs.contains_at 0 3 5 = false
    ∧ ∃ lk, ReflectionLookup.make example_af [0] [64] [⟨0, 1, 0, 1, 3, 5⟩] example_jobs = some lk
      ∧ lk.indices 0 = some [] ∧ lk.mask 0 = some []
      ∧ (0, false) ∉ lk.entries 0
      ∧ lk.indices 1 = some [0] ∧ lk.mask 1 = some [true] :=
  ⟨by decide, by decide, by decide, by decide,
    ⟨example_jobs, [0, 0, 1, 1, 1], [0], [true]⟩, by decide, by decide, by decide, by decide,
    by decide, by decide⟩

/-- C12 (concrete scenario, amended). The jobs of one group over experiment range
`[0,1)`, frame range `[0,10)` and block size 4 are `[0,4), [2,6), [4,8), [6,10)`.
When the construction of the lookup over them succeeds, a record with frame
extent `[3,5)` and without the `DontIntegrate` bit is listed as owned in job 1,
the job with window `[2,6)`, and is listed in no other job, with or without the
`ReferenceSpot` bit: in particular it is not in the list of job 0. -/
theorem C12_scenario (af : Flags) (id flags : List Nat) (bbox : List int6)
    (lk : ReflectionLookup) (i : Nat)
    (h : ReflectionLookup.make af id flags bbox example_jobs = some lk)
    (hi : i < bbox.length) (hz0 : bbox[i].z0 = 3) (hz1 : bbox[i].z1 = 5)
    (hdi : flags.getD i 0 &&& af.DontIntegrate = 0) :
    JobList.empty.add (0, 1) (0, 10) 4 = some example_jobs
    ∧ example_jobs.jobs_.map (fun j => j.frames_) = [(0, 4), (2, 6), (4, 8), (6, 10)]
    ∧ (i, true) ∈ lk.entries 1
    ∧ (∀ j o, (i, o) ∈ lk.entries j → j = 1 ∧ o = true)
    ∧ ∀ o, (i, o) ∉ lk.entries 0 := by
  obtain ⟨_, _, _, _, _, hrec⟩ :=
    lookup_global af id flags bbox example_jobs lk example_jobs_built h
  obtain ⟨jmin, hown, hiff⟩ := (hrec i hi).2 hdi
  rw [getD_map_of_lt bbox (fun b => b.z0) i hi, getD_map_of_lt bbox (fun b => b.z1) i hi,
    hz0, hz1] at hown hiff
  have hc : ∀ k, k < example_jobs.size → example_jobs.contains_at k 3 5 = true → k = 1 := by
    decide
  have hj : jmin = 1 := hc jmin hown.2.1 hown.2.2.1
  subst hj
  have hall : ∀ j o, (i, o) ∈ lk.entries j → j = 1 ∧ o = true := by
    intro j o hm
    rcases (hiff j o).1 hm with c | ⟨c1, _, _, c4, c5⟩
    · exact c
    · exact absurd (hc j c4 c5) c1
  refine ⟨by decide, by decide, (hiff 1 true).2 (Or.inl ⟨rfl, rfl⟩), hall, ?_⟩
  intro o hm
  exact absurd (hall 0 o hm).1 (by decide)

/-- Instance of C12: a table of one reference spot with frame extent `[3,5)`. -/
theorem C12_scenario_witness :
    JobList.empty.add (0, 1) (0, 10) 4 = some example_jobs
    ∧ example_jobs.jobs_.map (fun j => j.frames_) = [(0, 4), (2, 6), (4, 8), (6, 10)]
    ∧ (0, true) ∈ (⟨example_jobs, [0, 0, 1, 1, 1], [0], [true]⟩ : ReflectionLookup).entries 1
    ∧ (∀ j o, (0, o) ∈ (⟨example_jobs, [0, 0, 1, 1, 1], [0], [true]⟩ : ReflectionLookup).entries j
        → j = 1 ∧ o = true)
    ∧ ∀ o, (0, o) ∉ (⟨example_jobs, [0, 0, 1, 1, 1], [0], [true]⟩ : ReflectionLookup).entries 0 :=
  C12_scenario example_af [0] [64] [⟨0, 1, 0, 1, 3, 5⟩]
    ⟨example_jobs, [0, 0, 1, 1, 1], [0], [true]⟩ 0 (by decide) (by decide) (by decide)
    (by decide) (by decide)

/-- C13, evaluated at a failing input. The list holds one group with experiment range
`[0,1)` and four jobs; `add((1,2), (0,10), 4)` has its experiment range start at
the end of the previous one, its four jobs are appended, and the call fails all
the same: `GroupList::add` compares the first new job index, 4, with the end of
the previous experiment range, 1. -/
theorem C13_append_group_failing_input :
    JobList.empty.add (0, 1) (0, 10) 4 = some example_jobs
    ∧ example_jobs.groups_.groups_.getLast?.map (fun g => g.expr_.2) = some 1
    ∧ example_jobs.size = 4
    ∧ (example_jobs.add_jobs example_jobs.groups_.size (1, 2) (0, 10) 4).map List.length
        = some 8
    ∧ example_jobs.groups_.add (4, 8) (1, 2) (0, 10) = none
    ∧ example_jobs.add (1, 2) (0, 10) 4 = none := by
  decide

/-- C16, evaluated at a failing input. One group over frame range `[-3,7)` with block
size 4: the clamped block size is 4, `half` is 2, the jobs are `[-3,1), [-1,3),
[1,5), [3,7)`. A record of experiment 0 with valid box and frame extent `[3,5)`,
of length `half`, lies in the windows of jobs 2 and 3, yet the construction of
the lookup fails: `first` reads the group's first frame, -3, into a
`std::size_t`. -/
theorem C16_half_block_failing_input :
    ∃ jl, JobList.empty.add (0, 1) (-3, 7) 4 = some jl
      ∧ jl.groups_.size = 1
      ∧ jl.jobs_.map (fun j => j.frames_) = [(-3, 1), (-1, 3), (1, 5), (3, 7)]
      ∧ min (4 : Int) (7 - -3) = 4
      ∧ ceil_div (7 - -3) (ceil_div (2 * (7 - -3)) 4) = 2
      ∧ jl.contains_at 2 3 5 = true ∧ jl.contains_at 3 3 5 = true
      ∧ ReflectionLookup.make example_af [0] [0] [⟨0, 1, 0, 1, 3, 5⟩] jl = none :=
  ⟨⟨[⟨0, (0, 1), (-3, 1)⟩, ⟨0, (0, 1), (-1, 3)⟩, ⟨0, (0, 1), (1, 5)⟩, ⟨0, (0, 1), (3, 7)⟩],
      ⟨[⟨(0, 4), (0, 1), (-3, 7)⟩]⟩⟩,
    by decide, by decide, by decide, by decide, by decide, by decide, by decide, by decide⟩

/-- C18, evaluated at a failing input. For the single group over experiment range
`[0,1)` and frame range `[-3,7)` with block size 4 the table is built, and
`first(0, f)` and `last(0, f)` fail for every frame `f` of the range: the
group's first frame, -3, is read into a `std::size_t`, so the assertion
`frame >= frame0` fails for `f ≥ 0` and `frame < frame0 + offset` for `f < 0`. -/
theorem C18_single_group_failing_input :
    ∃ jl lookup, JobList.empty.add (0, 1) (-3, 7) 4 = some jl
      ∧ ReflectionLookup.JobRangeLookup.make jl = some lookup
      ∧ ∀ k : Fin 10, lookup.first 0 (-3 + (k.val : Int)) = none
          ∧ lookup.last 0 (-3 + (k.val : Int)) = none :=
  ⟨⟨[⟨0, (0, 1), (-3, 1)⟩, ⟨0, (0, 1), (-1, 3)⟩, ⟨0, (0, 1), (1, 5)⟩, ⟨0, (0, 1), (3, 7)⟩],
      ⟨[⟨(0, 4), (0, 1), (-3, 7)⟩]⟩⟩,
    ⟨[0, 0, 0, 0, 1, 1, 2, 2, 3, 3], [0, 0, 1, 1, 2, 2, 3, 3, 3, 3], [0, 10], [0], [-3]⟩,
    by decide, by decide, by decide⟩

/-- C19, evaluated at a failing input. Two successful calls of `add` give a list of
two groups: three unit jobs over frames `[0,3)` for experiments `[0,3)`, then
four jobs over frames `[0,5)` for experiment 3. Building the table fails:
`offset_` holds the frame counts 3 and 5 rather than their running sums, and
the assertion `frame1 - frame0 == off1 - off0` compares 5 with 2. -/
theorem C19_several_groups_failing_input :
    ∃ jl1 jl2, JobList.empty.add (0, 3) (0, 3) 1 = some jl1
      ∧ jl1.add (3, 4) (0, 5) 2 = some jl2
      ∧ jl2.groups_.size = 2 ∧ jl2.size = 7
      ∧ ReflectionLookup.JobRangeLookup.make jl2 = none :=
  ⟨⟨[⟨0, (0, 3), (0, 1)⟩, ⟨0, (0, 3), (1, 2)⟩, ⟨0, (0, 3), (2, 3)⟩],
      ⟨[⟨(0, 3), (0, 3), (0, 3)⟩]⟩⟩,
    ⟨[⟨0, (0, 3), (0, 1)⟩, ⟨0, (0, 3), (1, 2)⟩, ⟨0, (0, 3), (2, 3)⟩,
      ⟨1, (3, 4), (0, 2)⟩, ⟨1, (3, 4), (1, 3)⟩, ⟨1, (3, 4), (2, 4)⟩, ⟨1, (3, 4), (3, 5)⟩],
      ⟨[⟨(0, 3), (0, 3), (0, 3)⟩, ⟨(3, 7), (3, 4), (0, 5)⟩]⟩⟩,
    by decide, by decide, by decide, by decide, by decide⟩

/-- On a frame range of `int` bounds for which an `int` operation of `add_jobs`
overflows, `add` fails. -/
theorem add_none_of_not_fits (self : JobList) (expr : Int × Int) (g0 g1 c : Int)
    (j0 : is_int g0) (j1 : is_int g1) (hno : ¬ JobList.fits g0 g1 c) :
    self.add expr (g0, g1) c = none := by
  cases h : self.add expr (g0, g1) c with
  | none => rfl
  | some new =>
    exact absurd (add_jobs_fits self _ expr g0 g1 c _ j0 j1
      (add_jobs_of_add self new expr (g0, g1) c h)) hno

/-- The marks beyond the range: for the frames `[2147483642, 2147483647)` with block
size 3 the third step leaves the 32-bit range, no mark reaches `frame1`, and
`add` fails; so does `add` with block size 1 on the range `[-2, 2147483647)`,
whose frame count leaves the range. -/
theorem add_overflow_example :
    ¬ JobList.fits 2147483642 2147483647 3
    ∧ JobList.mark_loop 2147483642 2147483647 2 4 0 [2147483642]
        = [2147483642, 2147483644, 2147483646, -2147483648, -2147483646]
    ∧ JobList.empty.add (0, 1) (2147483642, 2147483647) 3 = none
    ∧ ¬ JobList.fits (-2) 2147483647 1
    ∧ JobList.empty.add (0, 1) (-2, 2147483647) 1 = none := by
  refine ⟨by decide, by decide, by decide, by decide, by decide⟩

/-- Twice the half block size is at most the clamped block size plus one. -/
theorem half_block_bound (n b : Int) (hb2 : 2 ≤ b) (hbn : b ≤ n) :
    2 * ceil_div n (ceil_div (2 * n) b) ≤ b + 1 := by
  obtain ⟨s1, s2, s3, _⟩ := block_scheme n b hb2 hbn
  obtain ⟨a1, _⟩ := ceil_div_spec (2 * n) b (by omega)
  obtain ⟨_, a4⟩ := ceil_div_spec n (ceil_div (2 * n) b) (by omega)
  generalize ceil_div (2 * n) b = nblocks at *
  generalize ceil_div n nblocks = half at *
  by_contra hc
  have h1 : b ≤ 2 * (half - 1) := by omega
  have h2 : nblocks * b ≤ nblocks * (2 * (half - 1)) :=
    Int.mul_le_mul_of_nonneg_left h1 (by omega)
  have h3 : nblocks * (2 * (half - 1)) = 2 * ((half - 1) * nblocks) := by ring
  omega

/-- C22 (job width bound). For a frame range of `int` bounds with `f1 > f0` and a
block size of at least 1, with `b = min(block_size, n)` the clamped block size,
there is a list `js` of jobs such that `add_jobs` returns the old jobs followed
by `js` whenever the experiment range is valid and no `int` operation
overflows, every successful `add` has appended exactly `js`, and every job of
`js` has a window of at most `b + 1` frames, and of at most `b` frames when `b`
is even or `b = 1`. The bound `b + 1` is attained: 5 frames from `f0`, with
`f0 + 6` in the `int` range, and block size 3 give the jobs `[f0, f0+4)` and
`[f0+2, f0+5)`, the first of 4 frames. -/
theorem C22_job_width (self : JobList) (expr : Int × Int) (f0 f1 bs : Int)
    (i0 : is_int f0) (i1 : is_int f1) (hf : f0 < f1) (hb : 1 ≤ bs) :
    (∃ js : List JobList.Job,
      (0 ≤ expr.1 ∧ expr.1 < expr.2 → JobList.fits f0 f1 bs →
        self.add_jobs self.groups_.size expr (f0, f1) bs = some (self.jobs_ ++ js))
      ∧ (∀ new, self.add expr (f0, f1) bs = some new → JobList.appended self new = js)
      ∧ (∀ j ∈ js, j.frames_.2 - j.frames_.1 ≤ min bs (f1 - f0) + 1)
      ∧ (min bs (f1 - f0) % 2 = 0 ∨ min bs (f1 - f0) = 1 →
          ∀ j ∈ js, j.frames_.2 - j.frames_.1 ≤ min bs (f1 - f0)))
    ∧ min (3 : Int) (f0 + 5 - f0) = 3
    ∧ (0 ≤ expr.1 ∧ expr.1 < expr.2 → f0 + 6 ≤ 2147483647 →
        self.add_jobs self.groups_.size expr (f0, f0 + 5) 3
          = some (self.jobs_ ++ [⟨self.groups_.size, expr, (f0, f0 + 4)⟩,
              ⟨self.groups_.size, expr, (f0 + 2, f0 + 5)⟩])) := by
  refine ⟨?_, ?_, ?_⟩
  · have hj := add_appends self expr f0 f1 bs i0 i1 hf hb
    have hw : ∀ w ∈ JobList.spec_windows f0 f1 bs,
        w.2 - w.1 ≤ min bs (f1 - f0) + 1
        ∧ (min bs (f1 - f0) % 2 = 0 ∨ min bs (f1 - f0) = 1 → w.2 - w.1 ≤ min bs (f1 - f0)) := by
      intro w hw
      rcases spec_windows_cases f0 f1 bs hf hb with
        ⟨h1, e⟩ | ⟨h2, half, K, e1, _, hh, _, hK, hK1, _, e⟩
      · rw [e, List.mem_map] at hw
        obtain ⟨i, _, rfl⟩ := hw
        simp only
        constructor
        · omega
        · intro _; omega
      · rw [e, List.mem_map] at hw
        obtain ⟨i, hi, rfl⟩ := hw
        rw [List.mem_range] at hi
        simp only
        obtain ⟨m1, _⟩ := mark_of_lt f0 f1 half K i hh hK1 (by omega)
        have m2 : JobList.mark f0 f1 half (i + 2) ≤ f0 + ((i + 2 : Nat) : Int) * half := by
          unfold JobList.mark; exact min_le_left _ _
        have e3 : ((i + 2 : Nat) : Int) * half = (i : Int) * half + 2 * half := by
          push_cast; ring
        have hbd := half_block_bound (f1 - f0) (min bs (f1 - f0)) h2 (min_le_right _ _)
        rw [← e1] at hbd
        constructor
        · omega
        · intro hev
          rcases hev with hev | hev
          · omega
          · omega
    refine ⟨_, hj.1, hj.2, ?_, ?_⟩
    · intro j hjm
      rw [List.mem_map] at hjm
      obtain ⟨w, hwm, rfl⟩ := hjm
      exact (hw w hwm).1
    · intro hev j hjm
      rw [List.mem_map] at hjm
      obtain ⟨w, hwm, rfl⟩ := hjm
      exact (hw w hwm).2 hev
  · have : f0 + 5 - f0 = 5 := by ring
    rw [this]; decide
  · intro he h6
    have h5 : f0 + 5 - f0 = 5 := by ring
    have c1 : min (3 : Int) 5 = 3 := by decide
    have c2 : ceil_div (2 * 5) 3 = 4 := by decide
    have c3 : ceil_div 5 4 = 2 := by decide
    have c4 : ceil_div 5 2 = 3 := by decide
    have hfit : JobList.fits f0 (f0 + 5) 3 := by
      unfold JobList.fits
      simp only [h5, c1, c2, c3, c4]
      have i0' := i0
      unfold is_int at i0' ⊢
      exact ⟨by omega, fun _ => by omega⟩
    rw [add_jobs_eq self self.groups_.size expr he f0 (f0 + 5) 3 (by omega) (by decide) i0 hfit]
    have e : JobList.spec_windows f0 (f0 + 5) 3 = [(f0, f0 + 4), (f0 + 2, f0 + 5)] := by
      unfold JobList.spec_windows
      simp only [h5, c1, c2, c3, c4]
      have m0 : JobList.mark f0 (f0 + 5) 2 0 = f0 := by
        unfold JobList.mark; rw [min_def]; split_ifs <;> omega
      have m1 : JobList.mark f0 (f0 + 5) 2 1 = f0 + 2 := by
        unfold JobList.mark; rw [min_def]; split_ifs <;> omega
      have m2 : JobList.mark f0 (f0 + 5) 2 2 = f0 + 4 := by
        unfold JobList.mark; rw [min_def]; split_ifs <;> omega
      have m3 : JobList.mark f0 (f0 + 5) 2 3 = f0 + 5 := by
        unfold JobList.mark; rw [min_def]; split_ifs <;> omega
      simp [List.range_succ, m0, m1, m2, m3]
    rw [e]
    rfl

/-- Instance of C22: the empty list, frames `[0, 9)`, block size 5. -/
theorem C22_job_width_witness :
    (∃ js : List JobList.Job,
      ((0 : Int) ≤ ((0, 1) : Int × Int).1 ∧ ((0, 1) : Int × Int).1 < ((0, 1) : Int × Int).2 →
        JobList.fits 0 9 5 →
        JobList.empty.add_jobs JobList.empty.groups_.size (0, 1) (0, 9) 5
          = some (JobList.empty.jobs_ ++ js))
      ∧ (∀ new, JobList.empty.add (0, 1) (0, 9) 5 = some new
          → JobList.appended JobList.empty new = js)
      ∧ (∀ j ∈ js, j.frames_.2 - j.frames_.1 ≤ min 5 (9 - 0) + 1)
      ∧ (min (5 : Int) (9 - 0) % 2 = 0 ∨ min (5 : Int) (9 - 0) = 1 →
          ∀ j ∈ js, j.frames_.2 - j.frames_.1 ≤ min 5 (9 - 0)))
    ∧ min (3 : Int) (0 + 5 - 0) = 3
    ∧ ((0 : Int) ≤ ((0, 1) : Int × Int).1 ∧ ((0, 1) : Int × Int).1 < ((0, 1) : Int × Int).2 →
        (0 : Int) + 6 ≤ 2147483647 →
        JobList.empty.add_jobs JobList.empty.groups_.size (0, 1) (0, 0 + 5) 3
          = some (JobList.empty.jobs_ ++ [⟨JobList.empty.groups_.size, (0, 1), (0, 0 + 4)⟩,
              ⟨JobList.empty.groups_.size, (0, 1), (0 + 2, 0 + 5)⟩])) :=
  C22_job_width JobList.empty (0, 1) 0 9 5 (by decide) (by decide) (by decide) (by decide)

end dials
